import Mathlib

/-!
Verification development for the KaHIP parallel partitioning core
(`contraction.cpp`, `kway_graph_refinement_core.cpp`, `kaffpa.cpp`).

The C++ code is shallowly embedded: CSR graphs become adjacency lists,
concurrent hash maps become association lists aggregated by addition
(`insertOrUpdate` with `lhs += rhs` is commutative and associative, so the
final aggregate is independent of thread interleaving and is modelled as a
fold over the statically known insertion multiset), and the shared mutable
partition state of the refinement engine becomes an explicit record that is
threaded through the move functions.  Machine integers are modelled as `Nat`
(unsigned `NodeID`, `NodeWeight`, `PartitionID`) and `Int` (signed `Gain`,
`EdgeWeight` accumulators); theorems carry the no-underflow side conditions
that real runs of the program satisfy in place of 32-bit wraparound.
-/

/-! ### Graph model (`graph_access`)

Topology-immutable graph: per-node weight and per-node out-edge list of
`(target, edge weight)` pairs, in CSR order. -/

structure graph_access where
  nodeWeights : List Nat
  adjacency : List (List (Nat × Nat))
deriving DecidableEq

def graph_access.numNodes (G : graph_access) : Nat := G.nodeWeights.length

def graph_access.outEdges (G : graph_access) (v : Nat) : List (Nat × Nat) :=
  G.adjacency.getD v []

/-- All directed arcs `(source, target, weight)` of the graph, in the
iteration order of `forall_nodes` / `forall_out_edges`. -/
def graph_access.arcs (G : graph_access) : List (Nat × Nat × Nat) :=
  (List.range G.numNodes).flatMap (fun u => (G.outEdges u).map (fun tw => (u, tw.1, tw.2)))

/-- Swap source and target of a directed arc. -/
def arcSwap (x : Nat × Nat × Nat) : Nat × Nat × Nat := (x.2.1, x.1, x.2.2)

/-- The data-model invariant of the spec: each undirected edge is stored as
two directed arcs with the same weight, i.e. the arc multiset is invariant
under swapping direction. -/
def symmetricGraph (G : graph_access) : Prop :=
  (G.arcs.map arcSwap).Perm G.arcs

/-- The cluster of a fine node under the coarse mapping array. -/
def clusterOf (cmap : List Nat) (v : Nat) : Nat := cmap.getD v 0

/-! ### Contraction (`contraction.cpp`)

The 64-bit keys `get_uint64_from_pair_sorted` / `get_uint64_from_pair_unsorted`
pack two 32-bit cluster ids; the packing is injective on the ids the program
uses, so keys are modelled as the pairs themselves. -/

def get_uint64_from_pair_unsorted (a b : Nat) : Nat × Nat := (a, b)

def get_uint64_from_pair_sorted (a b : Nat) : Nat × Nat := (min a b, max a b)

/-- `insertOrUpdate(key, w, lhs += rhs)` / `new_edges[key] += w` on a hash
map keyed by cluster pairs, modelled on an association list. -/
def hmUpdate (m : List ((Nat × Nat) × Nat)) (k : Nat × Nat) (w : Nat) :
    List ((Nat × Nat) × Nat) :=
  match m with
  | [] => [(k, w)]
  | (k0, w0) :: rest =>
      if k0 = k then (k0, w0 + w) :: rest else (k0, w0) :: hmUpdate rest k w

/-- Total weight stored in the map under key `k` (0 when the key is absent). -/
def hmLookupSum (m : List ((Nat × Nat) × Nat)) (k : Nat × Nat) : Nat :=
  ((m.filter (fun e => decide (e.1 = k))).map (fun e => e.2)).sum

def hmKeys (m : List ((Nat × Nat) × Nat)) : List (Nat × Nat) := m.map (fun e => e.1)

/-- One fine arc processed by the clustering contraction: cross-cluster arcs
are accumulated into the map under the sorted cluster-pair key
(`fast_contract_clustering` and the single-map parallel variant). -/
def contractionStep (cmap : List Nat) (m : List ((Nat × Nat) × Nat))
    (x : Nat × Nat × Nat) : List ((Nat × Nat) × Nat) :=
  let sc := clusterOf cmap x.1
  let tc := clusterOf cmap x.2.1
  if sc ≠ tc then hmUpdate m (get_uint64_from_pair_sorted sc tc) x.2.2 else m

/-- The hash map of coarse edges built by `contraction::fast_contract_clustering`:
one pass over all fine nodes and their out-edges. -/
def fast_contract_new_edges (G : graph_access) (cmap : List Nat) :
    List ((Nat × Nat) × Nat) :=
  G.arcs.foldl (contractionStep cmap) []

/-- `block_infos[c] += weight` on the per-cluster node-weight array. -/
def bumpAt (l : List Nat) (i w : Nat) : List Nat := l.set i (l.getD i 0 + w)

/-- Per-cluster node weights accumulated over a list of fine nodes. -/
def accumulate_block_infos (G : graph_access) (cmap : List Nat)
    (init : List Nat) (nodes : List Nat) : List Nat :=
  nodes.foldl (fun bi v => bumpAt bi (clusterOf cmap v) (G.nodeWeights.getD v 0)) init

/-- `block_infos` of `contraction::fast_contract_clustering`: one sequential
pass over all fine nodes. -/
def fast_contract_block_infos (G : graph_access) (cmap : List Nat)
    (n_coarse : Nat) : List Nat :=
  accumulate_block_infos G cmap (List.replicate n_coarse 0) (List.range G.numNodes)

/-- Materialisation of the sorted-key map: each entry `((p,q), m)` emits the
two directed coarse arcs `p→q` and `q→p` with weight `m / 2` (the stored
weight is the sum over both directions and is halved, `building_tool`). -/
def halved_coarse_arcs (m : List ((Nat × Nat) × Nat)) : List (Nat × Nat × Nat) :=
  m.flatMap (fun e => [(e.1.1, e.1.2, e.2 / 2), (e.1.2, e.1.1, e.2 / 2)])

/-- Coarse arcs produced by `contraction::fast_contract_clustering`. -/
def fast_contract_coarse_arcs (G : graph_access) (cmap : List Nat) :
    List (Nat × Nat × Nat) :=
  halved_coarse_arcs (fast_contract_new_edges G cmap)

/-- Weight of the coarse edge `a→b` in a list of coarse arcs: the sum over
all stored arcs with source `a` and target `b`. -/
def coarseEdgeWeight (arcsL : List (Nat × Nat × Nat)) (a b : Nat) : Nat :=
  ((arcsL.filter (fun x => decide (x.1 = a) && decide (x.2.1 = b))).map
    (fun x => x.2.2)).sum

/-- Reference quantity of the spec invariant: the total weight of fine arcs
`u→v` whose endpoints map to clusters `a` and `b` respectively.  Under the
symmetric double storage of undirected edges this is, for `a ≠ b`, the total
weight of undirected cross-cluster fine edges between clusters `a` and `b`. -/
def crossWeight (G : graph_access) (cmap : List Nat) (a b : Nat) : Nat :=
  ((G.arcs.filter (fun x =>
      decide (clusterOf cmap x.1 = a) && decide (clusterOf cmap x.2.1 = b))).map
    (fun x => x.2.2)).sum

/-- The vertex block size used by both parallel contraction variants:
`max(1000, ⌊√|V|⌋)`. -/
def contraction_block_size (n : Nat) : Nat := max (Nat.sqrt n) 1000

/-- The nodes processed by worker `t`: the atomic fetch-add cursor hands out
consecutive blocks of `contraction_block_size` nodes; `sched i` is the worker
that obtained block `i`, so worker `t` processes (in increasing order) exactly
the nodes `v` with `sched (v / blockSize) = t`. -/
def threadNodes (n : Nat) (sched : Nat → Nat) (t : Nat) : List Nat :=
  (List.range n).filter (fun v => decide (sched (v / contraction_block_size n) = t))

/-- The directed fine arcs scanned by worker `t`, in its processing order. -/
def threadArcs (G : graph_access) (sched : Nat → Nat) (t : Nat) :
    List (Nat × Nat × Nat) :=
  (threadNodes G.numNodes sched t).flatMap
    (fun u => (G.outEdges u).map (fun tw => (u, tw.1, tw.2)))

/-- The single shared concurrent hash map of
`contraction::parallel_fast_contract_clustering`: every worker inserts its
cross-cluster arcs under the sorted key with `insertOrUpdate(+)`; the final
aggregate is the fold over all insertions. -/
def parallel_fast_new_edges (G : graph_access) (cmap : List Nat) (T : Nat)
    (sched : Nat → Nat) : List ((Nat × Nat) × Nat) :=
  (List.range T).foldl (fun m t => (threadArcs G sched t).foldl (contractionStep cmap) m) []

/-- Coarse arcs of the single-map parallel variant (same halved
materialisation as the sequential variant). -/
def parallel_fast_coarse_arcs (G : graph_access) (cmap : List Nat) (T : Nat)
    (sched : Nat → Nat) : List (Nat × Nat × Nat) :=
  halved_coarse_arcs (parallel_fast_new_edges G cmap T sched)

/-- `my_block_infos` of one worker of either parallel variant. -/
def my_block_infos (G : graph_access) (cmap : List Nat) (n_coarse : Nat)
    (sched : Nat → Nat) (t : Nat) : List Nat :=
  accumulate_block_infos G cmap (List.replicate n_coarse 0)
    (threadNodes G.numNodes sched t)

/-- The component-wise reduction of the per-worker node-weight arrays
(`block_infos[i] += cur_block_infos[i]`). -/
def reduced_block_infos (G : graph_access) (cmap : List Nat) (n_coarse T : Nat)
    (sched : Nat → Nat) : List Nat :=
  (List.range T).foldl
    (fun acc t => List.zipWith (· + ·) acc (my_block_infos G cmap n_coarse sched t))
    (List.replicate n_coarse 0)

/-- One fine arc processed into shard `s` of
`contraction::parallel_fast_contract_clustering_multiple_threads`
(`task_without_buffers`): a cross-cluster arc is routed to the shard
`source_cluster mod T` and inserted under the unsorted (direction-keeping)
key. -/
def shardStep (cmap : List Nat) (T s : Nat) (m : List ((Nat × Nat) × Nat))
    (x : Nat × Nat × Nat) : List ((Nat × Nat) × Nat) :=
  let sc := clusterOf cmap x.1
  let tc := clusterOf cmap x.2.1
  if sc ≠ tc ∧ sc % T = s then hmUpdate m (get_uint64_from_pair_unsorted sc tc) x.2.2 else m

/-- The content of shard `s` after the parallel aggregation phase of the
sharded variant: the fold of all workers' insertions routed to shard `s`. -/
def shard_new_edges (G : graph_access) (cmap : List Nat) (T : Nat)
    (sched : Nat → Nat) (s : Nat) : List ((Nat × Nat) × Nat) :=
  (List.range T).foldl (fun m t => (threadArcs G sched t).foldl (shardStep cmap T s) m) []

/-- Coarse arcs of the sharded variant: each map entry `((a,b), m)` is
scattered as the single directed arc `a→b` with weight `m` (no halving — the
unsorted key keeps direction, each directed arc was inserted exactly once). -/
def shard_coarse_arcs (G : graph_access) (cmap : List Nat) (T : Nat)
    (sched : Nat → Nat) : List (Nat × Nat × Nat) :=
  (List.range T).flatMap (fun s => (shard_new_edges G cmap T sched s).map
    (fun e => (e.1.1, e.1.2, e.2)))

/-! ### Shared refinement state (`kway_graph_refinement_core.cpp`)

The shared state mutated during the serialized apply phase: the per-vertex
block labels of the graph, the per-block node counts and weights kept by the
boundary object, and the boundary index itself. -/

/-- Association-list lookup for the hash maps of the refinement engine. -/
def assocLookup {α : Type} (m : List (Nat × α)) (key : Nat) : Option α :=
  match m with
  | [] => none
  | e :: rest => if e.1 = key then some e.2 else assocLookup rest key

/-- Association-list overwrite (`map[key] = v`). -/
def assocSet {α : Type} (m : List (Nat × α)) (key : Nat) (v : α) : List (Nat × α) :=
  match m with
  | [] => [(key, v)]
  | e :: rest => if e.1 = key then (key, v) :: rest else e :: assocSet rest key v

structure shared_state where
  partitionIndex : List Nat
  blockNoNodes : List Nat
  blockWeight : List Nat
  boundary : List (List (List Nat))
deriving DecidableEq

/-- Modelled from the spec: the boundary index maintained by
`complete_boundary` (its implementation is outside the sampled sources).
Spec §3: `v ∈ B(a→b) ⟺ block(v) = a ∧ ∃ neighbour u with block(u) = b`,
for quotient pairs of distinct blocks; the index is therefore a function of
the graph and the current labels, listed here for every ordered block pair. -/
def derived_boundary (G : graph_access) (k : Nat) (labels : List Nat) :
    List (List (List Nat)) :=
  (List.range k).map (fun a => (List.range k).map (fun b =>
    if a = b then [] else
    (List.range G.numNodes).filter (fun v =>
      decide (labels.getD v 0 = a) &&
      (G.outEdges v).any (fun tw => decide (labels.getD tw.1 0 = b)))))

/-- Modelled from the spec: `complete_boundary::postMovedBoundaryNodeUpdates`
(outside the sampled sources).  Spec §4.2: after `set_block`, the presence of
the moved node's neighbourhood in the affected boundaries is recomputed so
that the index again satisfies its defining invariant; the result is the
derived index of the current labels. -/
def postMovedBoundaryNodeUpdates (G : graph_access) (k : Nat) (s : shared_state) :
    shared_state :=
  { s with boundary := derived_boundary G k s.partitionIndex }

/-- `kway_graph_refinement_core::relaxed_move_node`.  The move is refused
when the destination block weight would reach `upper_bound_partition` or the
source block holds exactly one node; otherwise label, boundary, block counts
and block weights are updated.  The leading
`ALWAYS_ASSERT(td.G.getPartitionIndex(node) == from)` aborts the process when
violated; theorems carry it as a hypothesis instead. -/
def relaxed_move_node (G : graph_access) (k ub : Nat) (s : shared_state)
    (node fromP toP : Nat) : Bool × shared_state :=
  let w := G.nodeWeights.getD node 0
  if s.blockWeight.getD toP 0 + w ≥ ub then (false, s)
  else if s.blockNoNodes.getD fromP 0 = 1 then (false, s)
  else
    let s1 := postMovedBoundaryNodeUpdates G k
      { s with partitionIndex := s.partitionIndex.set node toP }
    let n1 := s1.blockNoNodes.set fromP (s1.blockNoNodes.getD fromP 0 - 1)
    let n2 := n1.set toP (n1.getD toP 0 + 1)
    let w1 := s1.blockWeight.set fromP (s1.blockWeight.getD fromP 0 - w)
    let w2 := w1.set toP (w1.getD toP 0 + w)
    (true, { s1 with blockNoNodes := n2, blockWeight := w2 })

/-- `kway_graph_refinement_core::relaxed_move_node_back`: unconditional
inverse move of `node` from `to` back to `fromP`. -/
def relaxed_move_node_back (G : graph_access) (k : Nat) (s : shared_state)
    (node fromP toP : Nat) : shared_state :=
  let s1 := postMovedBoundaryNodeUpdates G k
    { s with partitionIndex := s.partitionIndex.set node fromP }
  let w := G.nodeWeights.getD node 0
  let n1 := s1.blockNoNodes.set fromP (s1.blockNoNodes.getD fromP 0 + 1)
  let n2 := n1.set toP (n1.getD toP 0 - 1)
  let w1 := s1.blockWeight.set fromP (s1.blockWeight.getD fromP 0 + w)
  let w2 := w1.set toP (w1.getD toP 0 - w)
  { s1 with blockNoNodes := n2, blockWeight := w2 }

/-- A sequence of committed relaxed moves `(node, fromP, to)`, as walked by
the apply phase: each move must find the node in its recorded source block
(the `ALWAYS_ASSERT` of `relaxed_move_node`) and must succeed. -/
def apply_relaxed_moves (G : graph_access) (k ub : Nat) (s : shared_state) :
    List (Nat × Nat × Nat) → Option shared_state
  | [] => some s
  | mv :: rest =>
      if s.partitionIndex.getD mv.1 0 = mv.2.1 then
        let r := relaxed_move_node G k ub s mv.1 mv.2.1 mv.2.2
        if r.1 then apply_relaxed_moves G k ub r.2 rest else none
      else none

/-- `kway_graph_refinement_core::unroll_relaxed_moves`: walk the recorded
moves backwards (from the last to the first) undoing each one. -/
def unroll_relaxed_moves (G : graph_access) (k : Nat) (s : shared_state)
    (moves : List (Nat × Nat × Nat)) : shared_state :=
  moves.foldr (fun mv st => relaxed_move_node_back G k st mv.1 mv.2.1 mv.2.2) s

/-- Well-formedness of the shared state: labels cover the graph and lie in
`[0,k)`, the per-block aggregates agree with the labels, and the boundary
index satisfies its defining invariant. -/
def consistent (G : graph_access) (k : Nat) (s : shared_state) : Prop :=
  s.partitionIndex.length = G.numNodes ∧
  s.blockNoNodes.length = k ∧
  s.blockWeight.length = k ∧
  (∀ v ∈ List.range G.numNodes, s.partitionIndex.getD v 0 < k) ∧
  (∀ b ∈ List.range k, s.blockNoNodes.getD b 0 =
    ((List.range G.numNodes).filter
      (fun v => decide (s.partitionIndex.getD v 0 = b))).length) ∧
  (∀ b ∈ List.range k, s.blockWeight.getD b 0 =
    (((List.range G.numNodes).filter
      (fun v => decide (s.partitionIndex.getD v 0 = b))).map
        (fun v => G.nodeWeights.getD v 0)).sum) ∧
  s.boundary = derived_boundary G k s.partitionIndex

/-- Edge targets stay inside the node range. -/
def validTargets (G : graph_access) : Prop :=
  ∀ v ∈ List.range G.numNodes, ∀ tw ∈ G.outEdges v, tw.1 < G.numNodes

/-! ### Gain computation

`kway_graph_refinement_commons::compute_gain` and
`thread_data_refinement_core::compute_gain` live outside the sampled sources;
they are modelled from the spec over an arbitrary label view (the shared
labels for the commons version, `get_local_partition` for the thread-local
version). -/

/-- Connectivity of `node` towards block `b` under the label view. -/
def connWeight (G : graph_access) (view : Nat → Nat) (node b : Nat) : Nat :=
  (((G.outEdges node).filter (fun tw => decide (view tw.1 = b))).map
    (fun tw => tw.2)).sum

/-- Total edge weight from `node` to blocks other than `fromP` (the external
degree). -/
def external_degree (G : graph_access) (view : Nat → Nat) (node fromP : Nat) : Nat :=
  (((G.outEdges node).filter (fun tw => !decide (view tw.1 = fromP))).map
    (fun tw => tw.2)).sum

/-- Modelled from the spec: the `max_gainer` block — among the blocks of the
node's neighbours other than its own block, one with maximal connectivity
(`INVALID_PARTITION`, i.e. `none`, when the node has no external neighbour). -/
def max_gainer (G : graph_access) (view : Nat → Nat) (node fromP : Nat) : Option Nat :=
  (G.outEdges node).foldl (fun best tw =>
    let b := view tw.1
    if b = fromP then best
    else
      match best with
      | none => some b
      | some b0 =>
          if connWeight G view node b > connWeight G view node b0 then some b else best)
    none

/-- Modelled from the spec: `compute_gain` returns
`(gain, max_gainer, external degree)`; glossary: the gain of moving `v` from
`a` to `b` is `conn_b(v) − conn_a(v)`. -/
def compute_gain (G : graph_access) (view : Nat → Nat) (node fromP : Nat) :
    Int × Option Nat × Nat :=
  match max_gainer G view node fromP with
  | none => (0, none, 0)
  | some b =>
      ((connWeight G view node b : Int) - (connWeight G view node fromP : Int),
        some b, external_degree G view node fromP)

/-! ### Thread-local exploration state (`thread_data_refinement_core`) -/

structure thread_data where
  nodes_partitions : List (Nat × Nat)
  parts_weights : List Nat
  parts_sizes : List Nat
  queue : List (Nat × Int)
  moved_idx : List Bool
  moved : List Nat
  transpositions : List Nat
  from_partitions : List Nat
  to_partitions : List Nat
  gains : List Int
  accepted_movements : Nat
deriving DecidableEq

/-- `thread_data_refinement_core::get_local_partition`: the thread-local
shadow label when present, the shared label otherwise. -/
def get_local_partition (labels : List Nat) (td : thread_data) (v : Nat) : Nat :=
  match assocLookup td.nodes_partitions v with
  | some b => b
  | none => labels.getD v 0

def set_local_partition (td : thread_data) (v b : Nat) : thread_data :=
  { td with nodes_partitions := assocSet td.nodes_partitions v b }

/-- The combined state visible to one worker during the exploration phase:
the shared graph/boundary state and its own thread-local record. -/
structure explore_state where
  shared : shared_state
  td : thread_data
deriving DecidableEq

/-! Priority-queue model.  Tie-breaking among equal gains is unspecified in
the spec (§4.3); the model deterministically keeps the first maximal entry. -/

def queue_contains (q : List (Nat × Int)) (v : Nat) : Bool :=
  q.any (fun e => decide (e.1 = v))

def queue_changeKey (q : List (Nat × Int)) (v : Nat) (g : Int) : List (Nat × Int) :=
  q.map (fun e => if e.1 = v then (v, g) else e)

def queue_deleteNode (q : List (Nat × Int)) (v : Nat) : List (Nat × Int) :=
  q.filter (fun e => !decide (e.1 = v))

def queue_insert (q : List (Nat × Int)) (v : Nat) (g : Int) : List (Nat × Int) :=
  q ++ [(v, g)]

def queue_max : List (Nat × Int) → Option (Nat × Int)
  | [] => none
  | e :: rest =>
      match queue_max rest with
      | none => some e
      | some m => if m.2 > e.2 then some m else some e

/-- The neighbour-gain update of `local_move_node` for one edge target:
members of the queue get a new key (or are deleted when no longer external);
unclaimed external neighbours are claimed via the `moved_idx` CAS and
inserted. -/
def local_gain_update (G : graph_access) (labels : List Nat) (td : thread_data)
    (target : Nat) : thread_data :=
  if queue_contains td.queue target then
    let tfrom := get_local_partition labels td target
    let cg := compute_gain G (get_local_partition labels td) target tfrom
    if cg.2.2 > 0 then { td with queue := queue_changeKey td.queue target cg.1 }
    else { td with queue := queue_deleteNode td.queue target }
  else
    if td.moved_idx.getD target false then td
    else
      let tfrom := get_local_partition labels td target
      let cg := compute_gain G (get_local_partition labels td) target tfrom
      if cg.2.2 > 0 then
        { td with queue := queue_insert td.queue target cg.1,
                  moved_idx := td.moved_idx.set target true,
                  moved := td.moved ++ [target] }
      else td

/-- `kway_graph_refinement_core::local_move_node`: the speculative move of
the exploration phase.  Only thread-local state is touched; the shared state
is read (through `get_local_partition` and the gain computation) but returned
unchanged, exactly as the source never calls `setPartitionIndex` or any
boundary mutator here.  The `ALWAYS_ASSERT(to != INVALID_PARTITION)` abort is
modelled as a refused move. -/
def local_move_node (G : graph_access) (ub : Nat) (es : explore_state)
    (node fromP : Nat) : Bool × Nat × explore_state :=
  let cg := compute_gain G (get_local_partition es.shared.partitionIndex es.td) node fromP
  match cg.2.1 with
  | none => (false, 0, es)
  | some toP =>
      if es.td.parts_sizes.getD fromP 0 = 1 then (false, toP, es)
      else
        let w := G.nodeWeights.getD node 0
        let pw := es.td.parts_weights.getD toP 0
        if pw + w ≥ ub then (false, toP, es)
        else
          let td1 := { es.td with parts_weights := es.td.parts_weights.set toP (pw + w) }
          let td2 := set_local_partition td1 node toP
          let wts := td2.parts_weights.set fromP (td2.parts_weights.getD fromP 0 - w)
          let szs1 := td2.parts_sizes.set toP (td2.parts_sizes.getD toP 0 + 1)
          let szs2 := szs1.set fromP (szs1.getD fromP 0 - 1)
          let td3 := { td2 with parts_weights := wts, parts_sizes := szs2 }
          let td4 := (G.outEdges node).foldl
            (fun td tw => local_gain_update G es.shared.partitionIndex td tw.1) td3
          (true, toP, { es with td := td4 })

/-- `kway_graph_refinement_core::local_move_back_node`: undo the local
per-block weight and size updates (the shadow label is not restored here; the
round clears the whole shadow right after unrolling). -/
def local_move_back_node (G : graph_access) (td : thread_data)
    (node fromP toP : Nat) : thread_data :=
  let w := G.nodeWeights.getD node 0
  let w1 := td.parts_weights.set fromP (td.parts_weights.getD fromP 0 + w)
  let w2 := w1.set toP (w1.getD toP 0 - w)
  let s1 := td.parts_sizes.set toP (td.parts_sizes.getD toP 0 - 1)
  let s2 := s1.set fromP (s1.getD fromP 0 + 1)
  { td with parts_weights := w2, parts_sizes := s2 }

def unroll_moves_go (G : graph_access) (td : thread_data) :
    Nat → Nat → Nat × thread_data
  | 0, unrolled => (unrolled, td)
  | fuel + 1, unrolled =>
      let index := td.transpositions.length - 1 - unrolled
      let node := td.transpositions.getD index 0
      let fromP := td.from_partitions.getD index 0
      let toP := td.to_partitions.getD index 0
      unroll_moves_go G (local_move_back_node G td node fromP toP) fuel (unrolled + 1)

/-- `kway_graph_refinement_core::unroll_moves`: undo the logged local moves
past `min_cut_index`, walking the transposition log from the back; returns
the number of unrolled moves. -/
def unroll_moves (G : graph_access) (td : thread_data) (min_cut_index : Int) :
    Nat × thread_data :=
  unroll_moves_go G td ((td.transpositions.length : Int) - (min_cut_index + 1)).toNat 0

/-- `kway_graph_refinement_core::init_queue_with_boundary`: claim each start
node via the `moved_idx` CAS, insert it with its current local gain, and
remember it in `moved`.  `start_nodes` is taken in its already-permuted
order. -/
def init_queue_with_boundary (G : graph_access) (start_nodes : List Nat)
    (es : explore_state) : explore_state :=
  start_nodes.foldl (fun es node =>
    if es.td.moved_idx.getD node false then es
    else
      let fromP := get_local_partition es.shared.partitionIndex es.td node
      let cg := compute_gain G (get_local_partition es.shared.partitionIndex es.td) node fromP
      { es with td := { es.td with
          moved_idx := es.td.moved_idx.set node true,
          queue := queue_insert es.td.queue node cg.1,
          moved := es.td.moved ++ [node] } }) es

/-- `kway_graph_refinement_core::sentinel`
(`std::numeric_limits<unsigned int>::max()`, declared in the class header,
which is outside the sampled sources; only its constancy matters below). -/
def sentinel : Nat := 4294967295

/-- `kway_graph_refinement_core::signed_sentinel` (likewise declared in the
class header; only its constancy matters below). -/
def signed_sentinel : Int := 2147483647

/-- The polymorphic stop rule of §4.6/§9, as a capability record over an
abstract statistics state. -/
structure stop_rule_model (α : Type) where
  should_stop : α → Nat → Nat → Nat → Bool
  push_statistics : α → Int → α
  reset_statistics : α → α

structure round_loop_state (α : Type) where
  es : explore_state
  stop : α
  fin_signal : List Bool
  bits : List Bool
  cut : Int
  best_cut : Int
  min_cut_index : Int
  number_of_swaps : Int
  previously_moved : Nat

/-- The main loop of
`kway_graph_refinement_core::single_kway_refinement_round_internal`
(lines 94–153).  `fuel` is the remaining number of `movements` up to
`max_number_of_swaps`; `fin_signal` is the stream of polled
`num_threads_finished > 0` values; `bits` is the stream of `td.rnd.bit()`
draws.  The statistics counters (`stop_empty_queue` etc.) are not modelled. -/
def single_kway_refinement_round_loop {α : Type} (G : graph_access)
    (ub step_limit : Nat) (sr : stop_rule_model α) :
    Nat → round_loop_state α → round_loop_state α
  | 0, st => st
  | fuel + 1, st =>
      if st.es.td.queue = [] then st
      else if st.fin_signal.headD false then st
      else
        let local_mci := (st.min_cut_index - (st.previously_moved : Int)).toNat
        if sr.should_stop st.stop local_mci st.number_of_swaps.toNat step_limit then st
        else
          match queue_max st.es.td.queue with
          | none => st
          | some e =>
              let gain := e.2
              let node := e.1
              let es1 := { st.es with td := { st.es.td with queue := st.es.td.queue.erase e } }
              let fromP := get_local_partition es1.shared.partitionIndex es1.td node
              let r := local_move_node G ub es1 node fromP
              if r.1 then
                let es2 := r.2.2
                let cut1 := st.cut - gain
                let stop1 := sr.push_statistics st.stop gain
                let bit := st.bits.headD false
                let improved := cut1 < st.best_cut ∨ (cut1 = st.best_cut ∧ bit)
                let stop2 := if cut1 < st.best_cut then sr.reset_statistics stop1 else stop1
                let td3 := { es2.td with
                  from_partitions := es2.td.from_partitions ++ [fromP],
                  to_partitions := es2.td.to_partitions ++ [r.2.1],
                  transpositions := es2.td.transpositions ++ [node],
                  gains := es2.td.gains ++ [gain],
                  accepted_movements := es2.td.accepted_movements + 1 }
                single_kway_refinement_round_loop G ub step_limit sr fuel
                  { es := { es2 with td := td3 },
                    stop := stop2,
                    fin_signal := st.fin_signal.tail,
                    bits := st.bits.tail,
                    cut := cut1,
                    best_cut := if improved then cut1 else st.best_cut,
                    min_cut_index :=
                      if improved then (st.previously_moved : Int) + st.number_of_swaps
                      else st.min_cut_index,
                    number_of_swaps := st.number_of_swaps + 1,
                    previously_moved := st.previously_moved }
              else
                single_kway_refinement_round_loop G ub step_limit sr fuel
                  { st with es := r.2.2, fin_signal := st.fin_signal.tail }

structure round_result (α : Type) where
  es : explore_state
  stop : α
  improvement : Int
  min_cut_index : Int

/-- Append the per-round sentinel entry to each of the four logs. -/
def push_sentinels (td : thread_data) : thread_data :=
  { td with
    transpositions := td.transpositions ++ [sentinel],
    from_partitions := td.from_partitions ++ [sentinel],
    to_partitions := td.to_partitions ++ [sentinel],
    gains := td.gains ++ [signed_sentinel] }

/-- `kway_graph_refinement_core::single_kway_refinement_round`
(= `single_kway_refinement_round_internal`): clear the queue, seed it from
the start nodes, run the move loop, unroll past `min_cut_index`, clear the
local shadow labels and close all four logs with the sentinel. -/
def single_kway_refinement_round {α : Type} (G : graph_access)
    (ub max_number_of_swaps step_limit : Nat) (sr : stop_rule_model α) (stop0 : α)
    (start_nodes : List Nat) (fin_signal bits : List Bool) (es0 : explore_state) :
    round_result α :=
  let es1 := init_queue_with_boundary G start_nodes
    { es0 with td := { es0.td with queue := [] } }
  if es1.td.queue = [] then
    ⟨{ es1 with td := push_sentinels es1.td }, stop0, 0, -1⟩
  else
    let prev := es1.td.transpositions.length
    let cut0 : Int := 1073741823
    let st1 := single_kway_refinement_round_loop G ub step_limit sr max_number_of_swaps
      ⟨es1, stop0, fin_signal, bits, cut0, cut0, (prev : Int) - 1, 0, prev⟩
    let ur := unroll_moves G st1.es.td st1.min_cut_index
    let td2 := { ur.2 with
      accepted_movements := ur.2.accepted_movements - ur.1,
      nodes_partitions := [] }
    ⟨{ st1.es with td := push_sentinels td2 }, st1.stop, cut0 - st1.best_cut,
      st1.min_cut_index⟩

/-! ### The GAIN_RECALCULATION conflict handler and the `moved_nodes` map -/

/-- `std::numeric_limits<uint32_t>::max()`: the owner id recorded for nodes
moved by a conflict handler, so that they count as moved for every thread. -/
def uint32_max : Nat := 4294967295

/-- `kway_graph_refinement_core::is_moved`. -/
def is_moved (moved_nodes : List (Nat × (Nat × Nat))) (node thread_id : Nat) : Bool :=
  match assocLookup moved_nodes node with
  | none => false
  | some p => decide (p.1 ≠ thread_id)

structure gr_state where
  s : shared_state
  bits : List Bool
  total_gain : Int
  best_total_gain : Int
  best_gain_index : Int
  num_moves : Nat
  moves : List (Nat × Nat × Nat)

/-- One iteration of the forward walk of
`kway_graph_refinement_core::gain_recalculation` (lines 321–347): recompute
the node's source block and gain from the shared graph, skip it when the
recomputed destination is `INVALID_PARTITION`, otherwise try the relaxed move
and, on success, update the running/best total gain and record the move. -/
def gain_recalculation_step (G : graph_access) (k ub : Nat) (st : gr_state)
    (node : Nat) : gr_state :=
  let fromP := st.s.partitionIndex.getD node 0
  let cg := compute_gain G (fun v => st.s.partitionIndex.getD v 0) node fromP
  match cg.2.1 with
  | none => st
  | some toP =>
      let r := relaxed_move_node G k ub st.s node fromP toP
      if r.1 then
        let total := st.total_gain + cg.1
        let bit := st.bits.headD false
        let better := total > st.best_total_gain ∨ (total = st.best_total_gain ∧ bit)
        { s := r.2,
          bits := st.bits.tail,
          total_gain := total,
          best_total_gain := if better then total else st.best_total_gain,
          best_gain_index := if better then (st.num_moves : Int) else st.best_gain_index,
          num_moves := st.num_moves + 1,
          moves := st.moves ++ [(node, fromP, toP)] }
      else st

structure gr_result where
  s : shared_state
  moved_nodes : List (Nat × (Nat × Nat))
  best_total_gain : Int
  moves : List (Nat × Nat × Nat)
  kept : List (Nat × Nat × Nat)

/-- `kway_graph_refinement_core::gain_recalculation`: forward walk over the
remaining transposition slice, rollback of every move past
`best_gain_index`, and recording of the surviving moves in `moved_nodes`
under the owner id `uint32_max`. -/
def gain_recalculation (G : graph_access) (k ub : Nat) (s : shared_state)
    (slice : List Nat) (bits : List Bool)
    (moved_nodes : List (Nat × (Nat × Nat))) : gr_result :=
  let st := slice.foldl (gain_recalculation_step G k ub)
    ⟨s, bits, 0, 0, -1, 0, []⟩
  let keepLen := (st.best_gain_index + 1).toNat
  let kept := st.moves.take keepLen
  let dropped := st.moves.drop keepLen
  let s2 := unroll_relaxed_moves G k st.s dropped
  let mn := kept.foldl (fun mn e => assocSet mn e.1 (uint32_max, e.2.1)) moved_nodes
  ⟨s2, mn, st.best_total_gain, st.moves, kept⟩

/-- The recording loop at the end of
`kway_graph_refinement_core::local_search_from_one_node` (lines 284–288),
embedded with explicit fuel.  Its guard in the source is
`transpositions.size()` — the vector's size, not a bound on `i` — so the
iteration count is not bounded by the vector length; out-of-range reads of
the C++ vector are modelled by `getD`'s default.  `none` means the fuel was
exhausted with the guard still true. -/
def ls_record_loop (transp fromPart : List Nat)
    (acc : List (Nat × (Nat × Nat))) (i fuel : Nat) :
    Option (List (Nat × (Nat × Nat))) :=
  match fuel with
  | 0 => none
  | fuel' + 1 =>
      if transp.length ≠ 0 then
        ls_record_loop transp fromPart
          (assocSet acc (transp.getD i 0) (uint32_max, fromPart.getD i 0))
          (i + 1) fuel'
      else some acc

/-! ### `kaffpa.cpp`: the time-limit loop and the input-partition path -/

/-- The `--time_limit` branch of `main` (kaffpa.cpp lines 165–185).  `map`
starts as a freshly allocated, uninitialized buffer (the `uninit_map`
parameter) and `best_cut` as `std::numeric_limits<EdgeWeight>::max()`; each
completed partitioner run contributes its `(partition, edge cut)` pair in
order (the wall-clock guard is abstracted into the list of completed runs);
after the loop, `map` is written back into the graph and is the returned
partition. -/
def kaffpa_time_limit_partition (uninit_map : List Nat)
    (runs : List (List Nat × Nat)) : List Nat :=
  (runs.foldl (fun acc r => if r.2 < acc.2 then r else acc)
    (uninit_map, 2147483647)).1

/-- Spec-side reference definition for the time-limit claim, following the
spec's words: the partition of the (first) completed run achieving the
minimum edge cut over all completed runs; `none` when no run completed. -/
def spec_min_cut_partition (runs : List (List Nat × Nat)) : Option (List Nat) :=
  match (runs.map (fun r => r.2)).min? with
  | none => none
  | some m => (runs.find? (fun r => decide (r.2 = m))).map (fun r => r.1)

/-- The flags of `PartitionConfig` touched by the `--input_partition`
branch of `main`. -/
structure partition_config_model where
  graph_allready_partitioned : Bool
  only_first_level : Bool
  mh_no_mh : Bool
  no_change_convergence : Bool
  corner_refinement_enabled : Bool
  kaffpa_perfectly_balanced_refinement : Bool
deriving DecidableEq

/-- The `--input_partition` branch of `main` (kaffpa.cpp lines 87–102):
read the supplied partition onto the graph (`graph_io::readPartition`, which
is outside the sampled sources, overwrites every node's label with the read
block id), mark the graph as already partitioned, force `only_first_level`,
clear the MH-specific flags, and copy the graph's labels into the
`input_partition` vector.  Returns the updated config, the graph labels and
the `input_partition` vector. -/
def kaffpa_apply_input_partition (cfg : partition_config_model)
    (readP : List Nat) : partition_config_model × List Nat × List Nat :=
  let labels := readP
  let cfg2 := { cfg with
    graph_allready_partitioned := true,
    only_first_level := true,
    mh_no_mh := false,
    no_change_convergence := false,
    corner_refinement_enabled := false,
    kaffpa_perfectly_balanced_refinement := false }
  let input_partition := (List.range labels.length).map (fun v => labels.getD v 0)
  (cfg2, labels, input_partition)

/-- A sequence of speculative local moves of the exploration phase, each
starting from the node's current local block (as the round loop does) and
required to succeed; returns the final state and the `(node, from, to)`
transposition log the round would record for them. -/
def apply_local_moves (G : graph_access) (ub : Nat) (es : explore_state) :
    List Nat → Option (explore_state × List (Nat × Nat × Nat))
  | [] => some (es, [])
  | node :: rest =>
      let fromP := get_local_partition es.shared.partitionIndex es.td node
      let r := local_move_node G ub es node fromP
      if r.1 then
        match apply_local_moves G ub r.2.2 rest with
        | some p => some (p.1, (node, fromP, r.2.1) :: p.2)
        | none => none
      else none

/-- The per-round unroll (`unroll_moves` / `local_move_back_node`) applied to
a recorded transposition log, from the last move to the first. -/
def unroll_local_moves (G : graph_access) (td : thread_data)
    (log : List (Nat × Nat × Nat)) : thread_data :=
  log.foldr (fun mv td => local_move_back_node G td mv.1 mv.2.1 mv.2.2) td

/-- Well-formedness of a worker's local view: the local per-block sizes and
weights agree with the labels seen through `get_local_partition`. -/
def local_consistent (G : graph_access) (k : Nat) (es : explore_state) : Prop :=
  es.td.parts_weights.length = k ∧
  es.td.parts_sizes.length = k ∧
  (∀ v ∈ List.range G.numNodes,
    get_local_partition es.shared.partitionIndex es.td v < k) ∧
  (∀ b ∈ List.range k, es.td.parts_sizes.getD b 0 =
    ((List.range G.numNodes).filter
      (fun v => decide (get_local_partition es.shared.partitionIndex es.td v = b))).length) ∧
  (∀ b ∈ List.range k, es.td.parts_weights.getD b 0 =
    (((List.range G.numNodes).filter
      (fun v => decide (get_local_partition es.shared.partitionIndex es.td v = b))).map
        (fun v => G.nodeWeights.getD v 0)).sum)

/-- The gains the GAIN_RECALCULATION walk recomputes along a committed move
sequence: the gain of each move is `compute_gain` in the shared state right
before that move is applied. -/
def gains_along (G : graph_access) (k ub : Nat) (s : shared_state) :
    List (Nat × Nat × Nat) → List Int
  | [] => []
  | mv :: rest =>
      (compute_gain G (fun v => s.partitionIndex.getD v 0) mv.1 mv.2.1).1
        :: gains_along G k ub (relaxed_move_node G k ub s mv.1 mv.2.1 mv.2.2).2 rest

/-! ### Concrete instances used to exercise the development -/

/-- A three-node instance: a path `1 - 0 - 2` with unit weights, stored as
symmetric directed arcs. -/
def g3c : graph_access := ⟨[1, 1, 1], [[(1, 1), (2, 1)], [(0, 1)], [(0, 1)]]⟩

/-- A consistent shared state on `g3c` with blocks `{0,1}` and `{2}`. -/
def s3pre : shared_state := ⟨[0, 0, 1], [2, 1], [2, 1], derived_boundary g3c 2 [0, 0, 1]⟩

/-- `s3pre` after moving node `0` from block `0` to block `1`. -/
def s3post : shared_state := ⟨[1, 0, 1], [1, 2], [1, 2], derived_boundary g3c 2 [1, 0, 1]⟩

/-- An idle thread-local record matching `s3pre`. -/
def td3pre : thread_data :=
  ⟨[], [2, 1], [2, 1], [], [false, false, false], [], [], [], [], [], 0⟩

/-- `td3pre` after the speculative local move of node `0` to block `1`
(shadow label written, weights and sizes shifted, neighbour `1` claimed and
queued with gain `1`). -/
def td3post : thread_data :=
  ⟨[(0, 1)], [1, 2], [1, 2], [(1, 1)], [false, true, false], [1], [], [], [], [], 0⟩

def es3pre : explore_state := ⟨s3pre, td3pre⟩

def es3post : explore_state := ⟨s3pre, td3post⟩

/-- Replay a committed move list by applying `relaxed_move_node` move by
move (the state evolution the GAIN_RECALCULATION walk performs). -/
def replay (G : graph_access) (k ub : Nat) (s : shared_state)
    (l : List (Nat × Nat × Nat)) : shared_state :=
  l.foldl (fun s mv => (relaxed_move_node G k ub s mv.1 mv.2.1 mv.2.2).2) s

/-- The invariant of the GAIN_RECALCULATION forward walk, relative to the
shared state `s` it started from: the recorded moves applied to `s` give the
current state (and are all in range), the running total is the sum of the
gains recomputed along the walk, and the pair of best total gain and best
gain index tracks a dominating prefix. -/
def gr_inv (G : graph_access) (k ub : Nat) (s : shared_state)
    (st : gr_state) : Prop :=
  consistent G k st.s
  ∧ apply_relaxed_moves G k ub s st.moves = some st.s
  ∧ (∀ mv ∈ st.moves, mv.1 < G.numNodes ∧ mv.2.2 < k ∧ mv.2.1 ≠ mv.2.2)
  ∧ st.num_moves = st.moves.length
  ∧ st.total_gain = (gains_along G k ub s st.moves).sum
  ∧ st.best_gain_index < (st.moves.length : Int)
  ∧ (-1 : Int) ≤ st.best_gain_index
  ∧ st.best_total_gain
      = ((gains_along G k ub s st.moves).take (st.best_gain_index + 1).toNat).sum
  ∧ ∀ i ≤ st.moves.length,
      ((gains_along G k ub s st.moves).take i).sum ≤ st.best_total_gain

/-- A four-node instance for the recalculation walk: moving node `0` out of
the large block has recomputed gain `-1`, but enables the gain-`5` move of
node `1`. -/
def g5c : graph_access :=
  ⟨[1, 1, 1, 1], [[(2, 2), (3, 1)], [(3, 5)], [(0, 2)], [(0, 1), (1, 5)]]⟩

/-- A consistent shared state on `g5c` with blocks `{0,1,2}` and `{3}`. -/
def s5c : shared_state := ⟨[0, 0, 0, 1], [3, 1], [3, 1], derived_boundary g5c 2 [0, 0, 0, 1]⟩

/-! ## Theorems -/

/-! ### Generic list lemmas -/

theorem getD_set_self {α : Type} (l : List α) (d : α) (i : Nat) (v : α)
    (h : i < l.length) : (l.set i v).getD i d = v := by
  simp [List.getD_eq_getElem?_getD, List.getElem?_set_self, h]

theorem getD_set_ne {α : Type} (l : List α) (d : α) (i j : Nat) (v : α)
    (h : i ≠ j) : (l.set i v).getD j d = l.getD j d := by
  simp [List.getD_eq_getElem?_getD, List.getElem?_set_ne h]

theorem map_getD_range {α : Type} (l : List α) (d : α) :
    (List.range l.length).map (fun v => l.getD v d) = l := by
  induction l with
  | nil => simp
  | cons a l ih =>
      simp only [List.length_cons, List.range_succ_eq_map, List.map_cons, List.map_map]
      refine congrArg (a :: ·) ?_
      have hc : ((fun v => (a :: l).getD v d) ∘ Nat.succ) = (fun v => l.getD v d) := by
        funext v
        simp [List.getD_cons_succ]
      rw [hc]
      exact ih

theorem sum_map_add_distrib {α : Type} (l : List α) (f g : α → Nat) :
    (l.map (fun x => f x + g x)).sum = (l.map f).sum + (l.map g).sum := by
  induction l with
  | nil => rfl
  | cons a l ih => simp [ih]; omega

theorem sum_range_ite (p w T : Nat) (hp : p < T) :
    ((List.range T).map (fun t => if p = t then w else 0)).sum = w := by
  induction T with
  | zero => omega
  | succ T ih =>
      rw [List.range_succ, List.map_append, List.sum_append]
      rcases Nat.lt_or_ge p T with h | h
      · have hne : p ≠ T := by omega
        simp [ih h, hne]
      · have hp2 : p = T := by omega
        subst hp2
        have hz : ((List.range p).map (fun t => if p = t then w else 0)).sum = 0 := by
          rw [List.sum_eq_zero]
          intro x hx
          simp only [List.mem_map, List.mem_range] at hx
          obtain ⟨t, ht, rfl⟩ := hx
          have hne : p ≠ t := by omega
          simp [hne]
        simp [hz]

theorem sum_fiber {α : Type} (l : List α) (f : α → Nat) (tid : α → Nat) (T : Nat)
    (h : ∀ x ∈ l, tid x < T) :
    ((List.range T).map
      (fun t => ((l.filter (fun x => decide (tid x = t))).map f).sum)).sum
      = (l.map f).sum := by
  induction l with
  | nil => simp
  | cons a l ih =>
      have ha : tid a < T := h a (List.mem_cons_self a l)
      have hrec := ih (fun x hx => h x (List.mem_cons_of_mem a hx))
      have hpt : ∀ t, ((((a :: l).filter (fun x => decide (tid x = t))).map f).sum)
          = (if tid a = t then f a else 0)
            + ((l.filter (fun x => decide (tid x = t))).map f).sum := by
        intro t
        by_cases hat : tid a = t <;> simp [List.filter_cons, hat]
      calc ((List.range T).map
            (fun t => (((a :: l).filter (fun x => decide (tid x = t))).map f).sum)).sum
          = ((List.range T).map
            (fun t => (if tid a = t then f a else 0)
              + ((l.filter (fun x => decide (tid x = t))).map f).sum)).sum := by
            exact congrArg List.sum (List.map_congr_left (fun t _ => hpt t))
        _ = ((List.range T).map (fun t => if tid a = t then f a else 0)).sum
              + ((List.range T).map
                (fun t => ((l.filter (fun x => decide (tid x = t))).map f).sum)).sum := by
            exact sum_map_add_distrib _ _ _
        _ = f a + (l.map f).sum := by
            rw [hrec]
            congr 1
            have : ∀ t, (if tid a = t then f a else 0) = (if tid a = t then f a else 0) := fun _ => rfl
            simpa using sum_range_ite (tid a) (f a) T ha
        _ = ((a :: l).map f).sum := by simp

/-! ### Hash-map aggregation lemmas -/

theorem hmLookupSum_nil (k : Nat × Nat) : hmLookupSum [] k = 0 := rfl

theorem hmLookupSum_cons (e : (Nat × Nat) × Nat) (m : List ((Nat × Nat) × Nat))
    (k : Nat × Nat) :
    hmLookupSum (e :: m) k = (if e.1 = k then e.2 else 0) + hmLookupSum m k := by
  unfold hmLookupSum
  rw [List.filter_cons]
  by_cases h : e.1 = k <;> simp [h]

theorem hmKeys_cons (e : (Nat × Nat) × Nat) (m : List ((Nat × Nat) × Nat)) :
    hmKeys (e :: m) = e.1 :: hmKeys m := rfl

theorem hmLookupSum_hmUpdate (m : List ((Nat × Nat) × Nat)) (k : Nat × Nat)
    (w : Nat) (k' : Nat × Nat) :
    hmLookupSum (hmUpdate m k w) k' = hmLookupSum m k' + (if k' = k then w else 0) := by
  induction m with
  | nil =>
      show hmLookupSum [(k, w)] k' = hmLookupSum [] k' + (if k' = k then w else 0)
      rw [hmLookupSum_cons, hmLookupSum_nil]
      by_cases h : k' = k
      · subst h; simp
      · have h2 : ¬ (k = k') := fun hh => h hh.symm
        simp [h, h2]
  | cons e m ih =>
      by_cases he : e.1 = k
      · rw [show hmUpdate (e :: m) k w = (e.1, e.2 + w) :: m from by simp [hmUpdate, he]]
        simp only [hmLookupSum_cons]
        by_cases h : e.1 = k'
        · have hk : k' = k := h.symm.trans he
          rw [if_pos h, if_pos h, if_pos hk]
          omega
        · have hk : ¬ (k' = k) := fun hh => h (he.trans hh.symm)
          rw [if_neg h, if_neg h, if_neg hk]
          omega
      · rw [show hmUpdate (e :: m) k w = e :: hmUpdate m k w from by simp [hmUpdate, he]]
        rw [hmLookupSum_cons, hmLookupSum_cons, ih]
        omega

theorem hmKeys_mem_hmUpdate (m : List ((Nat × Nat) × Nat)) (k : Nat × Nat)
    (w : Nat) (k' : Nat × Nat) :
    k' ∈ hmKeys (hmUpdate m k w) ↔ k' ∈ hmKeys m ∨ k' = k := by
  induction m with
  | nil =>
      show k' ∈ hmKeys [(k, w)] ↔ k' ∈ hmKeys [] ∨ k' = k
      simp [hmKeys]
  | cons e m ih =>
      by_cases he : e.1 = k
      · rw [show hmUpdate (e :: m) k w = (e.1, e.2 + w) :: m from by simp [hmUpdate, he]]
        rw [hmKeys_cons, hmKeys_cons]
        simp only [List.mem_cons]
        constructor
        · rintro (h | h)
          · left; left; exact h
          · left; right; exact h
        · rintro ((h | h) | h)
          · left; exact h
          · right; exact h
          · left; rw [h, ← he]
      · rw [show hmUpdate (e :: m) k w = e :: hmUpdate m k w from by simp [hmUpdate, he]]
        rw [hmKeys_cons, hmKeys_cons]
        simp only [List.mem_cons, ih]
        tauto

theorem hmKeys_nodup_hmUpdate (m : List ((Nat × Nat) × Nat)) (k : Nat × Nat)
    (w : Nat) (hnd : (hmKeys m).Nodup) : (hmKeys (hmUpdate m k w)).Nodup := by
  induction m with
  | nil =>
      show (hmKeys [(k, w)]).Nodup
      simp [hmKeys]
  | cons e m ih =>
      rw [hmKeys_cons, List.nodup_cons] at hnd
      by_cases he : e.1 = k
      · rw [show hmUpdate (e :: m) k w = (e.1, e.2 + w) :: m from by simp [hmUpdate, he]]
        rw [show hmKeys ((e.1, e.2 + w) :: m) = e.1 :: hmKeys m from rfl]
        exact List.nodup_cons.2 ⟨hnd.1, hnd.2⟩
      · rw [show hmUpdate (e :: m) k w = e :: hmUpdate m k w from by simp [hmUpdate, he]]
        rw [hmKeys_cons, List.nodup_cons]
        refine ⟨?_, ih hnd.2⟩
        intro hmem
        rcases (hmKeys_mem_hmUpdate m k w e.1).1 hmem with h | h
        · exact hnd.1 h
        · exact he h

theorem filter_key_length_le_one (m : List ((Nat × Nat) × Nat)) (k : Nat × Nat)
    (hnd : (hmKeys m).Nodup) :
    (m.filter (fun e => decide (e.1 = k))).length ≤ 1 := by
  induction m with
  | nil => simp
  | cons e m ih =>
      rw [hmKeys_cons, List.nodup_cons] at hnd
      rw [List.filter_cons]
      by_cases he : e.1 = k
      · have hnil : m.filter (fun e => decide (e.1 = k)) = [] := by
          rw [List.filter_eq_nil_iff]
          intro x hx
          simp only [decide_eq_true_eq]
          intro hk
          apply hnd.1
          have hx2 : x.1 ∈ hmKeys m := List.mem_map_of_mem (fun e => e.1) hx
          rwa [hk, ← he] at hx2
        simp [he, hnil]
      · rw [if_neg (by simpa using he)]
        exact ih hnd.2

theorem halved_sum_of_nodup (m : List ((Nat × Nat) × Nat)) (k : Nat × Nat)
    (hnd : (hmKeys m).Nodup) :
    ((m.filter (fun e => decide (e.1 = k))).map (fun e => e.2 / 2)).sum
      = hmLookupSum m k / 2 := by
  have hle := filter_key_length_le_one m k hnd
  unfold hmLookupSum
  rcases hfl : m.filter (fun e => decide (e.1 = k)) with _ | ⟨e, rest⟩
  · rw [hfl]
    simp
  · rw [hfl] at hle ⊢
    have hlen : rest.length = 0 := by
      simp only [List.length_cons] at hle
      omega
    have hrest : rest = [] := List.eq_nil_of_length_eq_zero hlen
    subst hrest
    simp [hmLookupSum]

theorem hmLookupSum_foldl_update {β : Type} (guard : β → Prop) [DecidablePred guard]
    (keyf : β → Nat × Nat) (wf : β → Nat) (l : List β) :
    ∀ (m0 : List ((Nat × Nat) × Nat)) (k : Nat × Nat),
    hmLookupSum (l.foldl (fun m x => if guard x then hmUpdate m (keyf x) (wf x) else m) m0) k
      = hmLookupSum m0 k
        + ((l.filter (fun x => decide (guard x) && decide (keyf x = k))).map wf).sum := by
  induction l with
  | nil => intro m0 k; simp
  | cons a l ih =>
      intro m0 k
      simp only [List.foldl_cons, List.filter_cons]
      by_cases hg : guard a
      · by_cases hk : keyf a = k
        · rw [show (decide (guard a) && decide (keyf a = k)) = true from by simp [hg, hk]]
          rw [if_pos hg, ih, hmLookupSum_hmUpdate, if_pos hk.symm]
          simp
          omega
        · rw [show (decide (guard a) && decide (keyf a = k)) = false from by simp [hk]]
          rw [if_pos hg, ih, hmLookupSum_hmUpdate, if_neg (fun hh => hk hh.symm)]
          simp
      · rw [show (decide (guard a) && decide (keyf a = k)) = false from by simp [hg]]
        rw [if_neg hg, ih]
        simp

theorem hmKeys_inv_foldl_update {β : Type} (guard : β → Prop) [DecidablePred guard]
    (keyf : β → Nat × Nat) (wf : β → Nat) (P : Nat × Nat → Prop)
    (hP : ∀ x, guard x → P (keyf x)) (l : List β) :
    ∀ (m0 : List ((Nat × Nat) × Nat)), (hmKeys m0).Nodup → (∀ k0 ∈ hmKeys m0, P k0) →
    (hmKeys (l.foldl (fun m x => if guard x then hmUpdate m (keyf x) (wf x) else m) m0)).Nodup
      ∧ (∀ k0 ∈ hmKeys
          (l.foldl (fun m x => if guard x then hmUpdate m (keyf x) (wf x) else m) m0), P k0) := by
  induction l with
  | nil => intro m0 h1 h2; exact ⟨h1, h2⟩
  | cons a l ih =>
      intro m0 h1 h2
      simp only [List.foldl_cons]
      by_cases hg : guard a
      · rw [if_pos hg]
        refine ih (hmUpdate m0 (keyf a) (wf a)) (hmKeys_nodup_hmUpdate m0 _ _ h1) ?_
        intro k0 hk0
        rcases (hmKeys_mem_hmUpdate m0 (keyf a) (wf a) k0).1 hk0 with h | h
        · exact h2 k0 h
        · rw [h]; exact hP a hg
      · rw [if_neg hg]
        exact ih m0 h1 h2

theorem sum_filter_or_disjoint {β : Type} (l : List β) (f : β → Nat) (p q : β → Bool)
    (hdisj : ∀ x ∈ l, ¬(p x = true ∧ q x = true)) :
    ((l.filter (fun x => p x || q x)).map f).sum
      = ((l.filter p).map f).sum + ((l.filter q).map f).sum := by
  induction l with
  | nil => simp
  | cons a l ih =>
      have hrec := ih (fun x hx => hdisj x (List.mem_cons_of_mem a hx))
      have ha := hdisj a (List.mem_cons_self a l)
      simp only [List.filter_cons]
      cases hp : p a <;> cases hq : q a
      · simp [hp, hq]
        omega
      · simp [hp, hq]
        omega
      · simp [hp, hq]
        omega
      · exact absurd ⟨hp, hq⟩ ha

theorem sum_ite_eq_filter {β : Type} (l : List β) (p : β → Prop) [DecidablePred p]
    (f : β → Nat) :
    (l.map (fun e => if p e then f e else 0)).sum
      = ((l.filter (fun e => decide (p e))).map f).sum := by
  induction l with
  | nil => simp
  | cons a l ih =>
      simp only [List.map_cons, List.sum_cons, List.filter_cons]
      by_cases h : p a <;> simp [h, ih]

theorem sum_filter_map_flatMap {β γ : Type} (l : List β) (f : β → List γ)
    (p : γ → Bool) (g : γ → Nat) :
    (((l.flatMap f).filter p).map g).sum
      = (l.map (fun e => (((f e).filter p).map g).sum)).sum := by
  induction l with
  | nil => simp
  | cons a l ih => simp [List.flatMap_cons, List.filter_append, ih]

theorem sorted_key_cases (p q a b : Nat) (hab : a ≠ b) :
    ((p ≠ q) ∧ get_uint64_from_pair_sorted p q = get_uint64_from_pair_sorted a b)
      ↔ ((p = a ∧ q = b) ∨ (p = b ∧ q = a)) := by
  unfold get_uint64_from_pair_sorted
  rw [Prod.mk.injEq]
  omega

/-! ### Sequential clustering contraction -/

theorem contractionStep_eq (cmap : List Nat) :
    contractionStep cmap = (fun m x =>
      if clusterOf cmap x.1 ≠ clusterOf cmap x.2.1 then
        hmUpdate m (get_uint64_from_pair_sorted (clusterOf cmap x.1) (clusterOf cmap x.2.1)) x.2.2
      else m) := rfl

theorem foldl_contractionStep_lookup (cmap : List Nat)
    (l : List (Nat × Nat × Nat)) (m0 : List ((Nat × Nat) × Nat)) (k : Nat × Nat) :
    hmLookupSum (l.foldl (contractionStep cmap) m0) k
      = hmLookupSum m0 k
        + ((l.filter (fun x =>
            decide (clusterOf cmap x.1 ≠ clusterOf cmap x.2.1) &&
            decide (get_uint64_from_pair_sorted (clusterOf cmap x.1) (clusterOf cmap x.2.1)
              = k))).map (fun x => x.2.2)).sum := by
  rw [contractionStep_eq]
  exact hmLookupSum_foldl_update
    (fun x => clusterOf cmap x.1 ≠ clusterOf cmap x.2.1)
    (fun x => get_uint64_from_pair_sorted (clusterOf cmap x.1) (clusterOf cmap x.2.1))
    (fun x => x.2.2) l m0 k

theorem fast_contract_new_edges_lookup (G : graph_access) (cmap : List Nat)
    (k : Nat × Nat) :
    hmLookupSum (fast_contract_new_edges G cmap) k
      = ((G.arcs.filter (fun x =>
          decide (clusterOf cmap x.1 ≠ clusterOf cmap x.2.1) &&
          decide (get_uint64_from_pair_sorted (clusterOf cmap x.1) (clusterOf cmap x.2.1)
            = k))).map (fun x => x.2.2)).sum := by
  unfold fast_contract_new_edges
  rw [foldl_contractionStep_lookup cmap G.arcs [] k, hmLookupSum_nil]
  omega

theorem foldl_contractionStep_keys (cmap : List Nat) (l : List (Nat × Nat × Nat))
    (m0 : List ((Nat × Nat) × Nat)) (hnd : (hmKeys m0).Nodup)
    (hso : ∀ k0 ∈ hmKeys m0, k0.1 < k0.2) :
    (hmKeys (l.foldl (contractionStep cmap) m0)).Nodup ∧
    (∀ k0 ∈ hmKeys (l.foldl (contractionStep cmap) m0), k0.1 < k0.2) := by
  rw [contractionStep_eq]
  refine hmKeys_inv_foldl_update
    (fun x => clusterOf cmap x.1 ≠ clusterOf cmap x.2.1)
    (fun x => get_uint64_from_pair_sorted (clusterOf cmap x.1) (clusterOf cmap x.2.1))
    (fun x => x.2.2) (fun key => key.1 < key.2) ?_ l m0 hnd hso
  intro x hx
  unfold get_uint64_from_pair_sorted
  simp only []
  omega

theorem fast_contract_new_edges_keys (G : graph_access) (cmap : List Nat) :
    (hmKeys (fast_contract_new_edges G cmap)).Nodup ∧
    (∀ k0 ∈ hmKeys (fast_contract_new_edges G cmap), k0.1 < k0.2) := by
  unfold fast_contract_new_edges
  exact foldl_contractionStep_keys cmap G.arcs [] (by simp [hmKeys]) (by simp [hmKeys])

theorem halved_entry_sum (e : (Nat × Nat) × Nat) (a b : Nat) (hab : a ≠ b)
    (hs : e.1.1 < e.1.2) :
    ((([(e.1.1, e.1.2, e.2 / 2), (e.1.2, e.1.1, e.2 / 2)] : List (Nat × Nat × Nat)).filter
        (fun x => decide (x.1 = a) && decide (x.2.1 = b))).map (fun x => x.2.2)).sum
      = if e.1 = get_uint64_from_pair_sorted a b then e.2 / 2 else 0 := by
  unfold get_uint64_from_pair_sorted
  simp only [List.filter_cons, List.filter_nil, Bool.and_eq_true, decide_eq_true_eq,
    Prod.ext_iff]
  split_ifs
  all_goals simp_all
  all_goals omega

theorem coarseEdgeWeight_halved (m : List ((Nat × Nat) × Nat))
    (hnd : (hmKeys m).Nodup) (hsorted : ∀ k0 ∈ hmKeys m, k0.1 < k0.2)
    (a b : Nat) (hab : a ≠ b) :
    coarseEdgeWeight (halved_coarse_arcs m) a b
      = hmLookupSum m (get_uint64_from_pair_sorted a b) / 2 := by
  unfold coarseEdgeWeight halved_coarse_arcs
  rw [sum_filter_map_flatMap]
  have hentry : ∀ e ∈ m,
      ((([(e.1.1, e.1.2, e.2 / 2), (e.1.2, e.1.1, e.2 / 2)] : List (Nat × Nat × Nat)).filter
        (fun x => decide (x.1 = a) && decide (x.2.1 = b))).map (fun x => x.2.2)).sum
      = if e.1 = get_uint64_from_pair_sorted a b then e.2 / 2 else 0 := by
    intro e he
    exact halved_entry_sum e a b hab
      (hsorted e.1 (List.mem_map_of_mem (fun x => x.1) he))
  rw [List.map_congr_left hentry]
  rw [sum_ite_eq_filter m (fun e => e.1 = get_uint64_from_pair_sorted a b) (fun e => e.2 / 2)]
  exact halved_sum_of_nodup m _ hnd

theorem cross_filter_sum_split (G : graph_access) (cmap : List Nat) (a b : Nat)
    (hab : a ≠ b) :
    ((G.arcs.filter (fun x =>
        decide (clusterOf cmap x.1 ≠ clusterOf cmap x.2.1) &&
        decide (get_uint64_from_pair_sorted (clusterOf cmap x.1) (clusterOf cmap x.2.1)
          = get_uint64_from_pair_sorted a b))).map (fun x => x.2.2)).sum
      = crossWeight G cmap a b + crossWeight G cmap b a := by
  unfold crossWeight
  have hpt : ∀ x ∈ G.arcs,
      (decide (clusterOf cmap x.1 ≠ clusterOf cmap x.2.1) &&
        decide (get_uint64_from_pair_sorted (clusterOf cmap x.1) (clusterOf cmap x.2.1)
          = get_uint64_from_pair_sorted a b))
      = ((decide (clusterOf cmap x.1 = a) && decide (clusterOf cmap x.2.1 = b)) ||
         (decide (clusterOf cmap x.1 = b) && decide (clusterOf cmap x.2.1 = a))) := by
    intro x hx
    rw [Bool.eq_iff_iff]
    simp only [Bool.and_eq_true, Bool.or_eq_true, decide_eq_true_eq]
    exact sorted_key_cases (clusterOf cmap x.1) (clusterOf cmap x.2.1) a b hab
  rw [List.filter_congr hpt]
  exact sum_filter_or_disjoint G.arcs (fun x => x.2.2) _ _ (by
    intro x hx hcontra
    obtain ⟨h1, h2⟩ := hcontra
    simp only [Bool.and_eq_true, decide_eq_true_eq] at h1 h2
    exact hab (h1.1 ▸ h2.1 ▸ rfl))

theorem crossWeight_symm (G : graph_access) (cmap : List Nat)
    (hsym : symmetricGraph G) (a b : Nat) :
    crossWeight G cmap a b = crossWeight G cmap b a := by
  unfold crossWeight
  have hperm : ((G.arcs.map arcSwap).filter (fun x =>
      decide (clusterOf cmap x.1 = b) && decide (clusterOf cmap x.2.1 = a))).Perm
      (G.arcs.filter (fun x =>
      decide (clusterOf cmap x.1 = b) && decide (clusterOf cmap x.2.1 = a))) :=
    hsym.filter _
  have hsum := (hperm.map (fun x => x.2.2)).sum_eq
  rw [← hsum]
  rw [List.filter_map]
  rw [List.map_map]
  have : ∀ x ∈ G.arcs,
      ((fun x => decide (clusterOf cmap x.1 = b) && decide (clusterOf cmap x.2.1 = a))
        ∘ arcSwap) x
      = (fun x => decide (clusterOf cmap x.1 = a) && decide (clusterOf cmap x.2.1 = b)) x := by
    intro x hx
    simp only [Function.comp, arcSwap]
    exact Bool.and_comm _ _
  rw [List.filter_congr this]
  rfl

/-! ### Node-weight accumulation -/

theorem bumpAt_length (l : List Nat) (i w : Nat) : (bumpAt l i w).length = l.length := by
  simp [bumpAt]

theorem bumpAt_sum (l : List Nat) (i w : Nat) (h : i < l.length) :
    (bumpAt l i w).sum = l.sum + w := by
  induction l generalizing i with
  | nil => simp at h
  | cons a l ih =>
      cases i with
      | zero =>
          show ((a :: l).set 0 ((a :: l).getD 0 0 + w)).sum = (a :: l).sum + w
          simp [List.getD_cons_zero]
          omega
      | succ i =>
          have hi : i < l.length := by simpa using h
          have h2 := ih i hi
          show (bumpAt (a :: l) (i + 1) w).sum = (a :: l).sum + w
          unfold bumpAt at h2 ⊢
          rw [List.getD_cons_succ, List.set_cons_succ]
          simp only [List.sum_cons]
          omega

theorem accumulate_block_infos_length (G : graph_access) (cmap : List Nat)
    (nodes : List Nat) : ∀ (init : List Nat),
    (accumulate_block_infos G cmap init nodes).length = init.length := by
  induction nodes with
  | nil => intro init; rfl
  | cons v nodes ih =>
      intro init
      show (accumulate_block_infos G cmap
        (bumpAt init (clusterOf cmap v) (G.nodeWeights.getD v 0)) nodes).length = _
      rw [ih, bumpAt_length]

theorem accumulate_block_infos_sum (G : graph_access) (cmap : List Nat)
    (nodes : List Nat) : ∀ (init : List Nat),
    (∀ v ∈ nodes, clusterOf cmap v < init.length) →
    (accumulate_block_infos G cmap init nodes).sum
      = init.sum + (nodes.map (fun v => G.nodeWeights.getD v 0)).sum := by
  induction nodes with
  | nil => intro init _; simp [accumulate_block_infos]
  | cons v nodes ih =>
      intro init hlt
      show (accumulate_block_infos G cmap
        (bumpAt init (clusterOf cmap v) (G.nodeWeights.getD v 0)) nodes).sum = _
      rw [ih _ (fun u hu => by
        rw [bumpAt_length]
        exact hlt u (List.mem_cons_of_mem v hu))]
      rw [bumpAt_sum init _ _ (hlt v (List.mem_cons_self v nodes))]
      simp only [List.map_cons, List.sum_cons]
      omega

theorem fast_contract_block_infos_sum (G : graph_access) (cmap : List Nat)
    (n_coarse : Nat)
    (hdense : ∀ v ∈ List.range G.numNodes, clusterOf cmap v < n_coarse) :
    (fast_contract_block_infos G cmap n_coarse).sum = G.nodeWeights.sum := by
  unfold fast_contract_block_infos
  rw [accumulate_block_infos_sum G cmap _ _ (by simpa using hdense)]
  have h0 : (List.replicate n_coarse 0).sum = 0 := by simp
  rw [h0, Nat.zero_add]
  show ((List.range G.nodeWeights.length).map (fun v => G.nodeWeights.getD v 0)).sum
    = G.nodeWeights.sum
  rw [map_getD_range]

theorem zipWith_add_sum (a : List Nat) : ∀ (b : List Nat), a.length = b.length →
    (List.zipWith (· + ·) a b).sum = a.sum + b.sum := by
  induction a with
  | nil =>
      intro b hb
      have : b = [] := by
        cases b
        · rfl
        · simp at hb
      subst this
      rfl
  | cons x a ih =>
      intro b hb
      cases b with
      | nil => simp at hb
      | cons y b =>
          simp only [List.zipWith_cons_cons, List.sum_cons]
          rw [ih b (by simpa using hb)]
          omega

theorem my_block_infos_length (G : graph_access) (cmap : List Nat)
    (n_coarse : Nat) (sched : Nat → Nat) (t : Nat) :
    (my_block_infos G cmap n_coarse sched t).length = n_coarse := by
  unfold my_block_infos
  rw [accumulate_block_infos_length]
  simp

theorem my_block_infos_sum (G : graph_access) (cmap : List Nat) (n_coarse : Nat)
    (sched : Nat → Nat) (t : Nat)
    (hdense : ∀ v ∈ List.range G.numNodes, clusterOf cmap v < n_coarse) :
    (my_block_infos G cmap n_coarse sched t).sum
      = ((threadNodes G.numNodes sched t).map (fun v => G.nodeWeights.getD v 0)).sum := by
  unfold my_block_infos
  rw [accumulate_block_infos_sum G cmap _ _ (fun v hv => by
    rw [List.length_replicate]
    exact hdense v (List.mem_of_mem_filter hv))]
  simp

theorem reduced_block_infos_sum (G : graph_access) (cmap : List Nat)
    (n_coarse T : Nat) (sched : Nat → Nat)
    (hdense : ∀ v ∈ List.range G.numNodes, clusterOf cmap v < n_coarse)
    (hsched : ∀ i, sched i < T) :
    (reduced_block_infos G cmap n_coarse T sched).sum = G.nodeWeights.sum := by
  unfold reduced_block_infos
  have hgen : ∀ (ts : List Nat) (acc : List Nat), acc.length = n_coarse →
      ((ts.foldl (fun acc t =>
        List.zipWith (· + ·) acc (my_block_infos G cmap n_coarse sched t)) acc).sum
        = acc.sum + (ts.map (fun t => (my_block_infos G cmap n_coarse sched t).sum)).sum
      ∧ (ts.foldl (fun acc t =>
        List.zipWith (· + ·) acc (my_block_infos G cmap n_coarse sched t)) acc).length
          = n_coarse) := by
    intro ts
    induction ts with
    | nil => intro acc hacc; exact ⟨by simp, hacc⟩
    | cons t ts ih =>
        intro acc hacc
        have hlen : (List.zipWith (· + ·) acc
            (my_block_infos G cmap n_coarse sched t)).length = n_coarse := by
          rw [List.length_zipWith, my_block_infos_length, hacc]
          simp
        have hrec := ih _ hlen
        simp only [List.foldl_cons, List.map_cons, List.sum_cons]
        refine ⟨?_, hrec.2⟩
        rw [hrec.1, zipWith_add_sum acc _ (by rw [my_block_infos_length, hacc])]
        omega
  rw [(hgen (List.range T) (List.replicate n_coarse 0) (by simp)).1]
  have h0 : (List.replicate n_coarse 0).sum = 0 := by simp
  rw [h0, Nat.zero_add]
  have hfib := sum_fiber (List.range G.numNodes) (fun v => G.nodeWeights.getD v 0)
    (fun v => sched (v / contraction_block_size G.numNodes)) T
    (fun v _ => hsched _)
  calc ((List.range T).map
        (fun t => (my_block_infos G cmap n_coarse sched t).sum)).sum
      = ((List.range T).map (fun t =>
          (((List.range G.numNodes).filter
            (fun v => decide (sched (v / contraction_block_size G.numNodes) = t))).map
              (fun v => G.nodeWeights.getD v 0)).sum)).sum := by
        refine congrArg List.sum (List.map_congr_left ?_)
        intro t _
        rw [my_block_infos_sum G cmap n_coarse sched t hdense]
        rfl
    _ = ((List.range G.numNodes).map (fun v => G.nodeWeights.getD v 0)).sum := hfib
    _ = G.nodeWeights.sum := by
        show ((List.range G.nodeWeights.length).map (fun v => G.nodeWeights.getD v 0)).sum
          = G.nodeWeights.sum
        rw [map_getD_range]

/-! ### Parallel contraction variants -/

theorem threadNodes_eq_filter (n : Nat) (sched : Nat → Nat) (t : Nat) :
    threadNodes n sched t
      = (List.range n).filter
          (fun v => decide (sched (v / contraction_block_size n) = t)) := rfl

theorem threadArcs_fold_lookup (G : graph_access) (sched : Nat → Nat) (T : Nat)
    (hsched : ∀ i, sched i < T)
    (step : List ((Nat × Nat) × Nat) → (Nat × Nat × Nat) → List ((Nat × Nat) × Nat))
    (p : (Nat × Nat × Nat) → Bool) (k : Nat × Nat)
    (hstep : ∀ (l : List (Nat × Nat × Nat)) (m0 : List ((Nat × Nat) × Nat)),
      hmLookupSum (l.foldl step m0) k
        = hmLookupSum m0 k + ((l.filter p).map (fun x => x.2.2)).sum) :
    hmLookupSum
      ((List.range T).foldl (fun m t => (threadArcs G sched t).foldl step m) []) k
      = ((G.arcs.filter p).map (fun x => x.2.2)).sum := by
  have houter : ∀ (ts : List Nat) (m0 : List ((Nat × Nat) × Nat)),
      hmLookupSum (ts.foldl (fun m t => (threadArcs G sched t).foldl step m) m0) k
        = hmLookupSum m0 k
          + (ts.map (fun t =>
              (((threadArcs G sched t).filter p).map (fun x => x.2.2)).sum)).sum := by
    intro ts
    induction ts with
    | nil => intro m0; simp
    | cons t ts ih =>
        intro m0
        simp only [List.foldl_cons, List.map_cons, List.sum_cons]
        rw [ih, hstep]
        omega
  rw [houter (List.range T) [], hmLookupSum_nil, Nat.zero_add]
  have hthread : ∀ t ∈ List.range T,
      (((threadArcs G sched t).filter p).map (fun x => x.2.2)).sum
        = ((threadNodes G.numNodes sched t).map (fun u =>
            ((((G.outEdges u).map (fun tw => (u, tw.1, tw.2))).filter p).map
              (fun x => x.2.2)).sum)).sum := by
    intro t _
    exact sum_filter_map_flatMap (threadNodes G.numNodes sched t) _ p _
  rw [List.map_congr_left hthread]
  have hfib := sum_fiber (List.range G.numNodes)
    (fun u => ((((G.outEdges u).map (fun tw => (u, tw.1, tw.2))).filter p).map
      (fun x => x.2.2)).sum)
    (fun v => sched (v / contraction_block_size G.numNodes)) T
    (fun v _ => hsched _)
  simp only [] at hfib
  simp only [threadNodes_eq_filter]
  rw [hfib]
  exact (sum_filter_map_flatMap (List.range G.numNodes)
    (fun u => (G.outEdges u).map (fun tw => (u, tw.1, tw.2))) p (fun x => x.2.2)).symm

theorem parallel_fast_new_edges_lookup (G : graph_access) (cmap : List Nat)
    (T : Nat) (sched : Nat → Nat) (hsched : ∀ i, sched i < T) (k : Nat × Nat) :
    hmLookupSum (parallel_fast_new_edges G cmap T sched) k
      = hmLookupSum (fast_contract_new_edges G cmap) k := by
  unfold parallel_fast_new_edges
  rw [threadArcs_fold_lookup G sched T hsched (contractionStep cmap) _ k
    (fun l m0 => foldl_contractionStep_lookup cmap l m0 k)]
  rw [fast_contract_new_edges_lookup]

theorem parallel_fast_new_edges_keys (G : graph_access) (cmap : List Nat)
    (T : Nat) (sched : Nat → Nat) :
    (hmKeys (parallel_fast_new_edges G cmap T sched)).Nodup ∧
    (∀ k0 ∈ hmKeys (parallel_fast_new_edges G cmap T sched), k0.1 < k0.2) := by
  unfold parallel_fast_new_edges
  suffices h : ∀ (ts : List Nat) (m0 : List ((Nat × Nat) × Nat)),
      (hmKeys m0).Nodup → (∀ k0 ∈ hmKeys m0, k0.1 < k0.2) →
      (hmKeys (ts.foldl (fun m t => (threadArcs G sched t).foldl (contractionStep cmap) m) m0)).Nodup ∧
      (∀ k0 ∈ hmKeys (ts.foldl (fun m t =>
        (threadArcs G sched t).foldl (contractionStep cmap) m) m0), k0.1 < k0.2) by
    exact h (List.range T) [] (by simp [hmKeys]) (by simp [hmKeys])
  intro ts
  induction ts with
  | nil => intro m0 h1 h2; exact ⟨h1, h2⟩
  | cons t ts ih =>
      intro m0 h1 h2
      simp only [List.foldl_cons]
      obtain ⟨h1n, h2n⟩ := foldl_contractionStep_keys cmap (threadArcs G sched t) m0 h1 h2
      exact ih _ h1n h2n

theorem parallel_fast_coarseEdgeWeight (G : graph_access) (cmap : List Nat)
    (T : Nat) (sched : Nat → Nat) (hsym : symmetricGraph G)
    (hsched : ∀ i, sched i < T) (a b : Nat) (hab : a ≠ b) :
    coarseEdgeWeight (parallel_fast_coarse_arcs G cmap T sched) a b
      = crossWeight G cmap a b := by
  unfold parallel_fast_coarse_arcs
  obtain ⟨hnd, hsort⟩ := parallel_fast_new_edges_keys G cmap T sched
  rw [coarseEdgeWeight_halved _ hnd hsort a b hab]
  rw [parallel_fast_new_edges_lookup G cmap T sched hsched]
  rw [fast_contract_new_edges_lookup, cross_filter_sum_split G cmap a b hab,
    crossWeight_symm G cmap hsym a b]
  omega

theorem fast_contract_coarseEdgeWeight (G : graph_access) (cmap : List Nat)
    (hsym : symmetricGraph G) (a b : Nat) (hab : a ≠ b) :
    coarseEdgeWeight (fast_contract_coarse_arcs G cmap) a b
      = crossWeight G cmap a b := by
  unfold fast_contract_coarse_arcs
  obtain ⟨hnd, hsort⟩ := fast_contract_new_edges_keys G cmap
  rw [coarseEdgeWeight_halved _ hnd hsort a b hab]
  rw [fast_contract_new_edges_lookup, cross_filter_sum_split G cmap a b hab,
    crossWeight_symm G cmap hsym a b]
  omega

theorem shardStep_eq (cmap : List Nat) (T s : Nat) :
    shardStep cmap T s = (fun m x =>
      if clusterOf cmap x.1 ≠ clusterOf cmap x.2.1 ∧ clusterOf cmap x.1 % T = s then
        hmUpdate m
          (get_uint64_from_pair_unsorted (clusterOf cmap x.1) (clusterOf cmap x.2.1))
          x.2.2
      else m) := rfl

theorem foldl_shardStep_lookup (cmap : List Nat) (T s : Nat)
    (l : List (Nat × Nat × Nat)) (m0 : List ((Nat × Nat) × Nat)) (k : Nat × Nat) :
    hmLookupSum (l.foldl (shardStep cmap T s) m0) k
      = hmLookupSum m0 k
        + ((l.filter (fun x =>
            decide (clusterOf cmap x.1 ≠ clusterOf cmap x.2.1 ∧ clusterOf cmap x.1 % T = s) &&
            decide (get_uint64_from_pair_unsorted (clusterOf cmap x.1) (clusterOf cmap x.2.1)
              = k))).map (fun x => x.2.2)).sum := by
  rw [shardStep_eq]
  exact hmLookupSum_foldl_update
    (fun x => clusterOf cmap x.1 ≠ clusterOf cmap x.2.1 ∧ clusterOf cmap x.1 % T = s)
    (fun x => get_uint64_from_pair_unsorted (clusterOf cmap x.1) (clusterOf cmap x.2.1))
    (fun x => x.2.2) l m0 k

theorem shard_new_edges_lookup (G : graph_access) (cmap : List Nat) (T : Nat)
    (sched : Nat → Nat) (s : Nat) (hsched : ∀ i, sched i < T) (k : Nat × Nat) :
    hmLookupSum (shard_new_edges G cmap T sched s) k
      = ((G.arcs.filter (fun x =>
          decide (clusterOf cmap x.1 ≠ clusterOf cmap x.2.1 ∧ clusterOf cmap x.1 % T = s) &&
          decide (get_uint64_from_pair_unsorted (clusterOf cmap x.1) (clusterOf cmap x.2.1)
            = k))).map (fun x => x.2.2)).sum := by
  unfold shard_new_edges
  exact threadArcs_fold_lookup G sched T hsched (shardStep cmap T s) _ k
    (fun l m0 => foldl_shardStep_lookup cmap T s l m0 k)

theorem shard_coarseEdgeWeight (G : graph_access) (cmap : List Nat) (T : Nat)
    (sched : Nat → Nat) (hT : 0 < T) (hsched : ∀ i, sched i < T)
    (a b : Nat) (hab : a ≠ b) :
    coarseEdgeWeight (shard_coarse_arcs G cmap T sched) a b
      = crossWeight G cmap a b := by
  unfold coarseEdgeWeight shard_coarse_arcs
  rw [sum_filter_map_flatMap]
  have hpershard : ∀ s ∈ List.range T,
      ((((shard_new_edges G cmap T sched s).map (fun e => (e.1.1, e.1.2, e.2))).filter
        (fun x => decide (x.1 = a) && decide (x.2.1 = b))).map (fun x => x.2.2)).sum
      = hmLookupSum (shard_new_edges G cmap T sched s) (a, b) := by
    intro s _
    rw [List.filter_map, List.map_map]
    unfold hmLookupSum
    have hcong : ∀ e ∈ shard_new_edges G cmap T sched s,
        ((fun x => decide (x.1 = a) && decide (x.2.1 = b)) ∘
          (fun e => (e.1.1, e.1.2, e.2))) e
        = (fun e => decide (e.1 = ((a, b) : Nat × Nat))) e := by
      intro e _
      simp only [Function.comp]
      rw [Bool.eq_iff_iff]
      simp [Bool.and_eq_true, decide_eq_true_eq, Prod.ext_iff]
    rw [List.filter_congr hcong]
    rfl
  rw [List.map_congr_left hpershard]
  have hlk : ∀ s ∈ List.range T,
      hmLookupSum (shard_new_edges G cmap T sched s) (a, b)
      = (((G.arcs.filter (fun x =>
            decide (clusterOf cmap x.1 = a) && decide (clusterOf cmap x.2.1 = b))).filter
          (fun x => decide (clusterOf cmap x.1 % T = s))).map (fun x => x.2.2)).sum := by
    intro s _
    rw [shard_new_edges_lookup G cmap T sched s hsched (a, b)]
    rw [List.filter_filter]
    refine congrArg List.sum (congrArg (List.map _) (List.filter_congr ?_))
    intro x _
    rw [Bool.eq_iff_iff]
    simp only [Bool.and_eq_true, decide_eq_true_eq, get_uint64_from_pair_unsorted,
      Prod.ext_iff]
    constructor
    · rintro ⟨⟨hcr, hm⟩, h1, h2⟩
      exact ⟨hm, h1, h2⟩
    · rintro ⟨hm, h1, h2⟩
      exact ⟨⟨by omega, hm⟩, h1, h2⟩
  rw [List.map_congr_left hlk]
  have hfib := sum_fiber
    (G.arcs.filter (fun x =>
      decide (clusterOf cmap x.1 = a) && decide (clusterOf cmap x.2.1 = b)))
    (fun x => x.2.2) (fun x => clusterOf cmap x.1 % T) T
    (fun x _ => Nat.mod_lt _ hT)
  simp only [] at hfib
  rw [hfib]
  rfl

/-- C1: for every graph satisfying the undirected double-storage invariant,
every cluster map with dense cluster ids in `[0, n_coarse)`, and each of the
three contraction variants (sequential hash-map clustering, single
concurrent-map parallel clustering, sharded-maps parallel clustering), the
produced coarse edge weight of every pair `(a,b)` with `a ≠ b` equals the sum
of `w(u,v)` over the fine edges whose endpoints map to the distinct clusters
`a` and `b`, and the sum of the produced coarse node weights equals the sum
of the fine node weights. -/
theorem contraction_three_variants_invariant
    (G : graph_access) (cmap : List Nat) (n_coarse T : Nat) (sched : Nat → Nat)
    (a b : Nat)
    (hdense : ∀ v ∈ List.range G.numNodes, clusterOf cmap v < n_coarse)
    (hsym : symmetricGraph G)
    (hT : 0 < T) (hsched : ∀ i, sched i < T) (hab : a ≠ b) :
    (coarseEdgeWeight (fast_contract_coarse_arcs G cmap) a b = crossWeight G cmap a b
      ∧ (fast_contract_block_infos G cmap n_coarse).sum = G.nodeWeights.sum)
    ∧ (coarseEdgeWeight (parallel_fast_coarse_arcs G cmap T sched) a b
        = crossWeight G cmap a b
      ∧ (reduced_block_infos G cmap n_coarse T sched).sum = G.nodeWeights.sum)
    ∧ (coarseEdgeWeight (shard_coarse_arcs G cmap T sched) a b = crossWeight G cmap a b
      ∧ (reduced_block_infos G cmap n_coarse T sched).sum = G.nodeWeights.sum) := by
  refine ⟨⟨?_, ?_⟩, ⟨?_, ?_⟩, ⟨?_, ?_⟩⟩
  · exact fast_contract_coarseEdgeWeight G cmap hsym a b hab
  · exact fast_contract_block_infos_sum G cmap n_coarse hdense
  · exact parallel_fast_coarseEdgeWeight G cmap T sched hsym hsched a b hab
  · exact reduced_block_infos_sum G cmap n_coarse T sched hdense hsched
  · exact shard_coarseEdgeWeight G cmap T sched hT hsched a b hab
  · exact reduced_block_infos_sum G cmap n_coarse T sched hdense hsched

/-- Witness for C1: the invariant evaluated on a concrete 3-node graph
(two clusters, two workers, blocks alternately scheduled). -/
theorem contraction_three_variants_invariant_witness :
    (∀ i : Nat, i % 2 < 2) ∧
    ((coarseEdgeWeight (fast_contract_coarse_arcs
        ⟨[1, 2, 3], [[(1, 5), (2, 2)], [(0, 5), (2, 3)], [(0, 2), (1, 3)]]⟩ [0, 0, 1]) 0 1
      = crossWeight
        ⟨[1, 2, 3], [[(1, 5), (2, 2)], [(0, 5), (2, 3)], [(0, 2), (1, 3)]]⟩ [0, 0, 1] 0 1
      ∧ (fast_contract_block_infos
        ⟨[1, 2, 3], [[(1, 5), (2, 2)], [(0, 5), (2, 3)], [(0, 2), (1, 3)]]⟩ [0, 0, 1] 2).sum
        = ([1, 2, 3] : List Nat).sum)
    ∧ (coarseEdgeWeight (parallel_fast_coarse_arcs
        ⟨[1, 2, 3], [[(1, 5), (2, 2)], [(0, 5), (2, 3)], [(0, 2), (1, 3)]]⟩ [0, 0, 1] 2
          (fun i => i % 2)) 0 1
      = crossWeight
        ⟨[1, 2, 3], [[(1, 5), (2, 2)], [(0, 5), (2, 3)], [(0, 2), (1, 3)]]⟩ [0, 0, 1] 0 1
      ∧ (reduced_block_infos
        ⟨[1, 2, 3], [[(1, 5), (2, 2)], [(0, 5), (2, 3)], [(0, 2), (1, 3)]]⟩ [0, 0, 1] 2 2
          (fun i => i % 2)).sum = ([1, 2, 3] : List Nat).sum)
    ∧ (coarseEdgeWeight (shard_coarse_arcs
        ⟨[1, 2, 3], [[(1, 5), (2, 2)], [(0, 5), (2, 3)], [(0, 2), (1, 3)]]⟩ [0, 0, 1] 2
          (fun i => i % 2)) 0 1
      = crossWeight
        ⟨[1, 2, 3], [[(1, 5), (2, 2)], [(0, 5), (2, 3)], [(0, 2), (1, 3)]]⟩ [0, 0, 1] 0 1
      ∧ (reduced_block_infos
        ⟨[1, 2, 3], [[(1, 5), (2, 2)], [(0, 5), (2, 3)], [(0, 2), (1, 3)]]⟩ [0, 0, 1] 2 2
          (fun i => i % 2)).sum = ([1, 2, 3] : List Nat).sum)) :=
  ⟨fun i => Nat.mod_lt i (by decide),
    contraction_three_variants_invariant
      ⟨[1, 2, 3], [[(1, 5), (2, 2)], [(0, 5), (2, 3)], [(0, 2), (1, 3)]]⟩ [0, 0, 1] 2 2
      (fun i => i % 2) 0 1 (by decide) (by unfold symmetricGraph; decide) (by decide)
      (fun i => Nat.mod_lt i (by decide)) (by decide)⟩

/-! ### C2: move rejection leaves the shared state untouched -/

/-- C2: during the apply phase, `relaxed_move_node` refuses the move
(returns `false`) whenever the destination block weight plus the node's
weight would meet or exceed `W_max` (= `upper_bound_partition`), or the
source block currently holds exactly one node; and whenever it returns
`false` it returns the shared state (labels, boundary index, block node
counts, block weights) completely unchanged. -/
theorem relaxed_move_node_rejection
    (G : graph_access) (k ub : Nat) (s : shared_state) (node fromP toP : Nat)
    (_hassert : s.partitionIndex.getD node 0 = fromP)
    (hcond : ub ≤ s.blockWeight.getD toP 0 + G.nodeWeights.getD node 0
      ∨ s.blockNoNodes.getD fromP 0 = 1) :
    relaxed_move_node G k ub s node fromP toP = (false, s) := by
  unfold relaxed_move_node
  simp only []
  split_ifs with h1 h2
  · rfl
  · rfl
  · exfalso
    rcases hcond with h | h
    · exact h1 h
    · exact h2 h

/-- Witness for C2: a two-node graph where the source block holds exactly
one node; the move is refused and the state is returned unchanged. -/
theorem relaxed_move_node_rejection_witness :
    (([0, 1] : List Nat).getD 0 0 = 0
      ∧ (100 ≤ ([1, 1] : List Nat).getD 1 0 + ([1, 1] : List Nat).getD 0 0
        ∨ ([1, 1] : List Nat).getD 0 0 = 1))
    ∧ relaxed_move_node ⟨[1, 1], [[(1, 1)], [(0, 1)]]⟩ 2 100
        ⟨[0, 1], [1, 1], [1, 1], []⟩ 0 0 1
      = (false, ⟨[0, 1], [1, 1], [1, 1], []⟩) :=
  ⟨by decide,
    relaxed_move_node_rejection ⟨[1, 1], [[(1, 1)], [(0, 1)]]⟩ 2 100
      ⟨[0, 1], [1, 1], [1, 1], []⟩ 0 0 1 (by decide) (by decide)⟩

/-! ### Counting lemmas for the consistency invariant -/

theorem set_getD_eq_self (l : List Nat) (i : Nat) (h : i < l.length) :
    l.set i (l.getD i 0) = l := by
  induction l generalizing i with
  | nil => simp at h
  | cons a l ih =>
      cases i with
      | zero => simp
      | succ i =>
          have hi : i < l.length := by simpa using h
          simp only [List.getD_cons_succ, List.set_cons_succ]
          rw [ih i hi]

theorem le_sum_of_mem_map (l : List Nat) (f : Nat → Nat) (x : Nat) (hx : x ∈ l) :
    f x ≤ (l.map f).sum := by
  induction l with
  | nil => simp at hx
  | cons a l ih =>
      rcases List.mem_cons.1 hx with h | h
      · subst h; simp only [List.map_cons, List.sum_cons]; omega
      · have := ih h
        simp only [List.map_cons, List.sum_cons]
        omega

theorem filter_sum_update (vs : List Nat) (node : Nat) (f : Nat → Nat)
    (p q : Nat → Bool) (hne : ∀ v, v ≠ node → q v = p v) :
    ∀ (hnd : vs.Nodup) (hmem : node ∈ vs),
    ((vs.filter q).map f).sum + (if p node then f node else 0)
      = ((vs.filter p).map f).sum + (if q node then f node else 0) := by
  induction vs with
  | nil => intro _ hmem; simp at hmem
  | cons a vs ih =>
      intro hnd hmem
      rw [List.nodup_cons] at hnd
      by_cases ha : a = node
      · subst ha
        have hcong : vs.filter q = vs.filter p := by
          apply List.filter_congr
          intro v hv
          exact hne v (fun hvn => hnd.1 (hvn ▸ hv))
        simp only [List.filter_cons, hcong]
        by_cases hp : p a = true <;> by_cases hq : q a = true
        · rw [if_pos hq, if_pos hp, if_pos hp, if_pos hq]
        · rw [if_neg hq, if_pos hp, if_pos hp, if_neg hq]
          simp only [List.map_cons, List.sum_cons]
          omega
        · rw [if_pos hq, if_neg hp, if_neg hp, if_pos hq]
          simp only [List.map_cons, List.sum_cons]
          omega
        · rw [if_neg hq, if_neg hp, if_neg hp, if_neg hq]
      · have hmem2 : node ∈ vs := by
          rcases List.mem_cons.1 hmem with h | h
          · exact absurd h.symm ha
          · exact h
        have hqa : q a = p a := hne a ha
        have hrec := ih hnd.2 hmem2
        simp only [List.filter_cons, hqa]
        by_cases hp : p a = true
        · rw [if_pos hp, if_pos hp]
          simp only [List.map_cons, List.sum_cons]
          omega
        · rw [if_neg hp, if_neg hp]
          exact hrec

theorem filter_length_update (vs : List Nat) (node : Nat)
    (p q : Nat → Bool) (hne : ∀ v, v ≠ node → q v = p v)
    (hnd : vs.Nodup) (hmem : node ∈ vs) :
    (vs.filter q).length + (if p node then 1 else 0)
      = (vs.filter p).length + (if q node then 1 else 0) := by
  have h := filter_sum_update vs node (fun _ => 1) p q hne hnd hmem
  have hone : ∀ (l : List Nat), (l.map (fun _ => (1 : Nat))).sum = l.length := by
    intro l
    induction l with
    | nil => rfl
    | cons a l ih =>
        simp only [List.map_cons, List.sum_cons, List.length_cons, ih]
        omega
  rw [hone, hone] at h
  cases hpn : p node <;> cases hqn : q node <;> rw [hpn, hqn] at h <;>
    simp only [if_true, if_false] at h ⊢ <;> omega

/-! ### Success characterization and roundtrip of relaxed moves -/

theorem relaxed_move_node_success_eq (G : graph_access) (k ub : Nat)
    (s : shared_state) (node fromP toP : Nat)
    (h1 : ¬ (s.blockWeight.getD toP 0 + G.nodeWeights.getD node 0 ≥ ub))
    (h2 : ¬ (s.blockNoNodes.getD fromP 0 = 1)) :
    relaxed_move_node G k ub s node fromP toP
      = (true,
        { partitionIndex := s.partitionIndex.set node toP,
          blockNoNodes :=
            (s.blockNoNodes.set fromP (s.blockNoNodes.getD fromP 0 - 1)).set toP
              ((s.blockNoNodes.set fromP (s.blockNoNodes.getD fromP 0 - 1)).getD toP 0 + 1),
          blockWeight :=
            (s.blockWeight.set fromP
              (s.blockWeight.getD fromP 0 - G.nodeWeights.getD node 0)).set toP
              ((s.blockWeight.set fromP
                (s.blockWeight.getD fromP 0 - G.nodeWeights.getD node 0)).getD toP 0
                + G.nodeWeights.getD node 0),
          boundary := derived_boundary G k (s.partitionIndex.set node toP) }) := by
  unfold relaxed_move_node postMovedBoundaryNodeUpdates
  simp only []
  rw [if_neg h1, if_neg h2]

theorem relaxed_move_node_refused (G : graph_access) (k ub : Nat)
    (s : shared_state) (node fromP toP : Nat)
    (hcond : ub ≤ s.blockWeight.getD toP 0 + G.nodeWeights.getD node 0
      ∨ s.blockNoNodes.getD fromP 0 = 1) :
    relaxed_move_node G k ub s node fromP toP = (false, s) := by
  unfold relaxed_move_node
  simp only []
  split_ifs with h1 h2
  · rfl
  · rfl
  · exfalso
    rcases hcond with h | h
    · exact h1 h
    · exact h2 h

theorem relaxed_move_node_success_inv (G : graph_access) (k ub : Nat)
    (s : shared_state) (node fromP toP : Nat)
    (hsucc : (relaxed_move_node G k ub s node fromP toP).1 = true) :
    ¬ (s.blockWeight.getD toP 0 + G.nodeWeights.getD node 0 ≥ ub)
    ∧ ¬ (s.blockNoNodes.getD fromP 0 = 1) := by
  by_cases h1 : ub ≤ s.blockWeight.getD toP 0 + G.nodeWeights.getD node 0
  · rw [relaxed_move_node_refused G k ub s node fromP toP (Or.inl h1)] at hsucc
    simp at hsucc
  · by_cases h2 : s.blockNoNodes.getD fromP 0 = 1
    · rw [relaxed_move_node_refused G k ub s node fromP toP (Or.inr h2)] at hsucc
      simp at hsucc
    · exact ⟨h1, h2⟩

theorem consistent_count_pos (G : graph_access) (k : Nat) (s : shared_state)
    (hc : consistent G k s) (node : Nat) (hnode : node < G.numNodes) :
    1 ≤ s.blockNoNodes.getD (s.partitionIndex.getD node 0) 0 := by
  obtain ⟨hlen, hlenN, hlenW, hlt, hcount, hweight, hbnd⟩ := hc
  have hbk : s.partitionIndex.getD node 0 < k := hlt node (List.mem_range.2 hnode)
  rw [hcount _ (List.mem_range.2 hbk)]
  have hmem : node ∈ (List.range G.numNodes).filter
      (fun v => decide (s.partitionIndex.getD v 0 = s.partitionIndex.getD node 0)) :=
    List.mem_filter.2 ⟨List.mem_range.2 hnode, by simp⟩
  exact List.length_pos_of_mem hmem

theorem consistent_weight_ge (G : graph_access) (k : Nat) (s : shared_state)
    (hc : consistent G k s) (node : Nat) (hnode : node < G.numNodes) :
    G.nodeWeights.getD node 0 ≤ s.blockWeight.getD (s.partitionIndex.getD node 0) 0 := by
  obtain ⟨hlen, hlenN, hlenW, hlt, hcount, hweight, hbnd⟩ := hc
  have hbk : s.partitionIndex.getD node 0 < k := hlt node (List.mem_range.2 hnode)
  rw [hweight _ (List.mem_range.2 hbk)]
  have hmem : node ∈ (List.range G.numNodes).filter
      (fun v => decide (s.partitionIndex.getD v 0 = s.partitionIndex.getD node 0)) :=
    List.mem_filter.2 ⟨List.mem_range.2 hnode, by simp⟩
  exact le_sum_of_mem_map _ (fun v => G.nodeWeights.getD v 0) node hmem

theorem move_cells_roundtrip (N : List Nat) (f t d : Nat)
    (hf : f < N.length) (ht : t < N.length) (hft : f ≠ t) (hd : d ≤ N.getD f 0) :
    ((((N.set f (N.getD f 0 - d)).set t
        ((N.set f (N.getD f 0 - d)).getD t 0 + d)).set f
      ((((N.set f (N.getD f 0 - d)).set t
        ((N.set f (N.getD f 0 - d)).getD t 0 + d))).getD f 0 + d)).set t
      (((((N.set f (N.getD f 0 - d)).set t
        ((N.set f (N.getD f 0 - d)).getD t 0 + d)).set f
      ((((N.set f (N.getD f 0 - d)).set t
        ((N.set f (N.getD f 0 - d)).getD t 0 + d))).getD f 0 + d))).getD t 0 - d)) = N := by
  have hA : (N.set f (N.getD f 0 - d)).getD t 0 = N.getD t 0 := getD_set_ne N 0 f t _ hft
  have hlenA : (N.set f (N.getD f 0 - d)).length = N.length := List.length_set N f _
  rw [hA]
  have hB : ((N.set f (N.getD f 0 - d)).set t (N.getD t 0 + d)).getD f 0
      = N.getD f 0 - d := by
    rw [getD_set_ne _ 0 t f _ (fun h => hft h.symm)]
    exact getD_set_self N 0 f _ hf
  rw [hB]
  have hsub : N.getD f 0 - d + d = N.getD f 0 := Nat.sub_add_cancel hd
  rw [hsub]
  have hC : (((N.set f (N.getD f 0 - d)).set t (N.getD t 0 + d)).set f
      (N.getD f 0)).getD t 0 = N.getD t 0 + d := by
    rw [getD_set_ne _ 0 f t _ hft]
    refine getD_set_self _ 0 t _ ?_
    rw [hlenA]
    exact ht
  rw [hC]
  have hD : N.getD t 0 + d - d = N.getD t 0 := by omega
  rw [hD]
  have hE : ((N.set f (N.getD f 0 - d)).set t (N.getD t 0 + d)).set f (N.getD f 0)
      = (N.set t (N.getD t 0 + d)) := by
    rw [List.set_comm _ _ _ hft, List.set_set]
    have hgf : (N.set t (N.getD t 0 + d)).getD f 0 = N.getD f 0 :=
      getD_set_ne N 0 t f _ (fun h => hft h.symm)
    rw [← hgf]
    refine set_getD_eq_self _ f ?_
    rw [List.length_set]
    exact hf
  rw [hE]
  rw [List.set_set]
  exact set_getD_eq_self N t ht

theorem relaxed_move_node_preserves_consistent (G : graph_access) (k ub : Nat)
    (s : shared_state) (node fromP toP : Nat) (hc : consistent G k s)
    (hnode : node < G.numNodes) (hlabel : s.partitionIndex.getD node 0 = fromP)
    (hto : toP < k) (hft : fromP ≠ toP)
    (hsucc : (relaxed_move_node G k ub s node fromP toP).1 = true) :
    consistent G k (relaxed_move_node G k ub s node fromP toP).2 := by
  obtain ⟨hinv1, hinv2⟩ := relaxed_move_node_success_inv G k ub s node fromP toP hsucc
  rw [relaxed_move_node_success_eq G k ub s node fromP toP hinv1 hinv2]
  unfold consistent
  dsimp only []
  obtain ⟨hlen, hlenN, hlenW, hlt, hcount, hweight, hbnd⟩ := hc
  have hfromk : fromP < k := hlabel ▸ hlt node (List.mem_range.2 hnode)
  have hnodelen : node < s.partitionIndex.length := by rw [hlen]; exact hnode
  have hcnt := consistent_count_pos G k s
    ⟨hlen, hlenN, hlenW, hlt, hcount, hweight, hbnd⟩ node hnode
  have hwgt := consistent_weight_ge G k s
    ⟨hlen, hlenN, hlenW, hlt, hcount, hweight, hbnd⟩ node hnode
  rw [hlabel] at hcnt hwgt
  refine ⟨?_, ?_, ?_, ?_, ?_, ?_, rfl⟩
  · rw [List.length_set]; exact hlen
  · rw [List.length_set, List.length_set]; exact hlenN
  · rw [List.length_set, List.length_set]; exact hlenW
  · intro v hv
    by_cases hvn : v = node
    · subst hvn
      rw [getD_set_self _ 0 _ _ hnodelen]
      exact hto
    · rw [getD_set_ne _ 0 node v _ (fun h => hvn h.symm)]
      exact hlt v hv
  · intro b hb
    have hupd := filter_length_update (List.range G.numNodes) node
      (fun v => decide (s.partitionIndex.getD v 0 = b))
      (fun v => decide ((s.partitionIndex.set node toP).getD v 0 = b))
      (fun v hvn => by simp only []; rw [getD_set_ne _ 0 node v _ (fun h => hvn h.symm)])
      (List.nodup_range G.numNodes) (List.mem_range.2 hnode)
    rw [show (fun v => decide ((s.partitionIndex.set node toP).getD v 0 = b)) node
        = decide (toP = b) from by simp only []; rw [getD_set_self _ 0 _ _ hnodelen]] at hupd
    rw [show (fun v => decide (s.partitionIndex.getD v 0 = b)) node
        = decide (fromP = b) from by simp only []; rw [hlabel]] at hupd
    have hcb := hcount b hb
    simp only [decide_eq_true_eq] at hupd
    by_cases hbt : b = toP
    · subst hbt
      rw [getD_set_self _ 0 _ _ (by rw [List.length_set, hlenN]; exact hto)]
      rw [getD_set_ne _ 0 fromP b _ hft]
      rw [hcb]
      rw [if_neg hft, if_pos rfl] at hupd
      omega
    · rw [getD_set_ne _ 0 toP b _ (fun h => hbt h.symm)]
      by_cases hbf : b = fromP
      · subst hbf
        rw [getD_set_self _ 0 _ _ (by rw [hlenN]; exact hfromk)]
        rw [hcb]
        rw [if_pos rfl, if_neg (fun h => hbt h.symm)] at hupd
        omega
      · rw [getD_set_ne _ 0 fromP b _ (fun h => hbf h.symm)]
        rw [hcb]
        rw [if_neg (fun h => hbf h.symm), if_neg (fun h => hbt h.symm)] at hupd
        omega
  · intro b hb
    have hupd := filter_sum_update (List.range G.numNodes) node
      (fun v => G.nodeWeights.getD v 0)
      (fun v => decide (s.partitionIndex.getD v 0 = b))
      (fun v => decide ((s.partitionIndex.set node toP).getD v 0 = b))
      (fun v hvn => by simp only []; rw [getD_set_ne _ 0 node v _ (fun h => hvn h.symm)])
      (List.nodup_range G.numNodes) (List.mem_range.2 hnode)
    rw [show (fun v => decide ((s.partitionIndex.set node toP).getD v 0 = b)) node
        = decide (toP = b) from by simp only []; rw [getD_set_self _ 0 _ _ hnodelen]] at hupd
    rw [show (fun v => decide (s.partitionIndex.getD v 0 = b)) node
        = decide (fromP = b) from by simp only []; rw [hlabel]] at hupd
    have hwb := hweight b hb
    simp only [decide_eq_true_eq] at hupd
    by_cases hbt : b = toP
    · subst hbt
      rw [getD_set_self _ 0 _ _ (by rw [List.length_set, hlenW]; exact hto)]
      rw [getD_set_ne _ 0 fromP b _ hft]
      rw [hwb]
      rw [if_neg hft, if_pos rfl] at hupd
      omega
    · rw [getD_set_ne _ 0 toP b _ (fun h => hbt h.symm)]
      by_cases hbf : b = fromP
      · subst hbf
        rw [getD_set_self _ 0 _ _ (by rw [hlenW]; exact hfromk)]
        rw [hwb]
        rw [if_pos rfl, if_neg (fun h => hbt h.symm)] at hupd
        rw [hwb] at hwgt
        omega
      · rw [getD_set_ne _ 0 fromP b _ (fun h => hbf h.symm)]
        rw [hwb]
        rw [if_neg (fun h => hbf h.symm), if_neg (fun h => hbt h.symm)] at hupd
        omega

theorem relaxed_move_node_roundtrip (G : graph_access) (k ub : Nat)
    (s : shared_state) (node fromP toP : Nat) (hc : consistent G k s)
    (hnode : node < G.numNodes) (hlabel : s.partitionIndex.getD node 0 = fromP)
    (hto : toP < k) (hft : fromP ≠ toP)
    (hsucc : (relaxed_move_node G k ub s node fromP toP).1 = true) :
    relaxed_move_node_back G k (relaxed_move_node G k ub s node fromP toP).2
      node fromP toP = s := by
  obtain ⟨hinv1, hinv2⟩ := relaxed_move_node_success_inv G k ub s node fromP toP hsucc
  have hcnt := consistent_count_pos G k s hc node hnode
  have hwgt := consistent_weight_ge G k s hc node hnode
  rw [hlabel] at hcnt hwgt
  obtain ⟨hlen, hlenN, hlenW, hlt, hcount, hweight, hbnd⟩ := hc
  have hfromk : fromP < k := hlabel ▸ hlt node (List.mem_range.2 hnode)
  have hnodelen : node < s.partitionIndex.length := by rw [hlen]; exact hnode
  rw [relaxed_move_node_success_eq G k ub s node fromP toP hinv1 hinv2]
  unfold relaxed_move_node_back postMovedBoundaryNodeUpdates
  dsimp only []
  have hpart : (s.partitionIndex.set node toP).set node fromP = s.partitionIndex := by
    rw [List.set_set, ← hlabel]
    exact set_getD_eq_self s.partitionIndex node hnodelen
  rw [hpart]
  rw [move_cells_roundtrip s.blockNoNodes fromP toP 1
    (by rw [hlenN]; exact hfromk) (by rw [hlenN]; exact hto) hft hcnt]
  rw [move_cells_roundtrip s.blockWeight fromP toP (G.nodeWeights.getD node 0)
    (by rw [hlenW]; exact hfromk) (by rw [hlenW]; exact hto) hft hwgt]
  rw [← hbnd]

theorem apply_relaxed_moves_roundtrip (G : graph_access) (k ub : Nat)
    (moves : List (Nat × Nat × Nat)) :
    ∀ (s s2 : shared_state), consistent G k s →
    (∀ mv ∈ moves, mv.1 < G.numNodes ∧ mv.2.2 < k ∧ mv.2.1 ≠ mv.2.2) →
    apply_relaxed_moves G k ub s moves = some s2 →
    unroll_relaxed_moves G k s2 moves = s ∧ consistent G k s2 := by
  induction moves with
  | nil =>
      intro s s2 hc _ happly
      unfold apply_relaxed_moves at happly
      injection happly with h
      subst h
      exact ⟨rfl, hc⟩
  | cons mv rest ih =>
      intro s s2 hc hmv happly
      obtain ⟨hmv1, hmv2, hmv3⟩ := hmv mv (List.mem_cons_self mv rest)
      unfold apply_relaxed_moves at happly
      dsimp only [] at happly
      by_cases hguard : s.partitionIndex.getD mv.1 0 = mv.2.1
      · rw [if_pos hguard] at happly
        by_cases hsucc : (relaxed_move_node G k ub s mv.1 mv.2.1 mv.2.2).1 = true
        · rw [if_pos hsucc] at happly
          have hc2 := relaxed_move_node_preserves_consistent G k ub s mv.1 mv.2.1 mv.2.2
            hc hmv1 hguard hmv2 hmv3 hsucc
          obtain ⟨hunroll, hc3⟩ := ih _ s2 hc2
            (fun x hx => hmv x (List.mem_cons_of_mem mv hx)) happly
          refine ⟨?_, hc3⟩
          unfold unroll_relaxed_moves
          rw [List.foldr_cons]
          unfold unroll_relaxed_moves at hunroll
          rw [hunroll]
          exact relaxed_move_node_roundtrip G k ub s mv.1 mv.2.1 mv.2.2
            hc hmv1 hguard hmv2 hmv3 hsucc
        · rw [if_neg hsucc] at happly
          exact absurd happly (by simp)
      · rw [if_neg hguard] at happly
        exact absurd happly (by simp)

theorem apply_relaxed_moves_cons (G : graph_access) (k ub : Nat)
    (s : shared_state) (mv : Nat × Nat × Nat) (rest : List (Nat × Nat × Nat)) :
    apply_relaxed_moves G k ub s (mv :: rest)
      = (if s.partitionIndex.getD mv.1 0 = mv.2.1 then
          (if (relaxed_move_node G k ub s mv.1 mv.2.1 mv.2.2).1 then
            apply_relaxed_moves G k ub (relaxed_move_node G k ub s mv.1 mv.2.1 mv.2.2).2
              rest
          else none)
        else none) := rfl

theorem apply_relaxed_moves_append (G : graph_access) (k ub : Nat)
    (l1 l2 : List (Nat × Nat × Nat)) : ∀ (s : shared_state),
    apply_relaxed_moves G k ub s (l1 ++ l2)
      = (apply_relaxed_moves G k ub s l1).bind
          (fun s1 => apply_relaxed_moves G k ub s1 l2) := by
  induction l1 with
  | nil => intro s; rfl
  | cons mv rest ih =>
      intro s
      rw [List.cons_append, apply_relaxed_moves_cons, apply_relaxed_moves_cons]
      by_cases hguard : s.partitionIndex.getD mv.1 0 = mv.2.1
      · rw [if_pos hguard, if_pos hguard]
        by_cases hsucc : (relaxed_move_node G k ub s mv.1 mv.2.1 mv.2.2).1 = true
        · rw [if_pos hsucc, if_pos hsucc]
          exact ih _
        · rw [if_neg hsucc, if_neg hsucc]
          rfl
      · rw [if_neg hguard, if_neg hguard]
        rfl

/-! ### Local-shadow lemmas -/

theorem assocLookup_assocSet_self {α : Type} (m : List (Nat × α)) (key : Nat) (v : α) :
    assocLookup (assocSet m key v) key = some v := by
  induction m with
  | nil => simp [assocSet, assocLookup]
  | cons e m ih =>
      by_cases he : e.1 = key
      · rw [show assocSet (e :: m) key v = (key, v) :: m from by simp [assocSet, he]]
        simp [assocLookup]
      · rw [show assocSet (e :: m) key v = e :: assocSet m key v from by
          simp [assocSet, he]]
        simp [assocLookup, he, ih]

theorem assocLookup_assocSet_ne {α : Type} (m : List (Nat × α)) (key key2 : Nat)
    (v : α) (h : key ≠ key2) :
    assocLookup (assocSet m key v) key2 = assocLookup m key2 := by
  induction m with
  | nil => simp [assocSet, assocLookup, h]
  | cons e m ih =>
      by_cases he : e.1 = key
      · rw [show assocSet (e :: m) key v = (key, v) :: m from by simp [assocSet, he]]
        simp [assocLookup, h, he]
      · rw [show assocSet (e :: m) key v = e :: assocSet m key v from by
          simp [assocSet, he]]
        by_cases he2 : e.1 = key2 <;> simp [assocLookup, he2, ih]

theorem get_local_partition_set (labels : List Nat) (td : thread_data)
    (node toP v : Nat) :
    get_local_partition labels (set_local_partition td node toP) v
      = if v = node then toP else get_local_partition labels td v := by
  unfold get_local_partition set_local_partition
  by_cases hv : v = node
  · subst hv
    rw [assocLookup_assocSet_self]
    simp
  · rw [show (({ td with nodes_partitions := assocSet td.nodes_partitions node toP })
        : thread_data).nodes_partitions = assocSet td.nodes_partitions node toP from rfl]
    rw [assocLookup_assocSet_ne td.nodes_partitions node v toP (fun h => hv h.symm)]
    simp [hv]

theorem local_gain_update_fields (G : graph_access) (labels : List Nat)
    (td : thread_data) (target : Nat) :
    (local_gain_update G labels td target).parts_weights = td.parts_weights
    ∧ (local_gain_update G labels td target).parts_sizes = td.parts_sizes
    ∧ (local_gain_update G labels td target).nodes_partitions = td.nodes_partitions
    ∧ (local_gain_update G labels td target).transpositions = td.transpositions
    ∧ (local_gain_update G labels td target).from_partitions = td.from_partitions
    ∧ (local_gain_update G labels td target).to_partitions = td.to_partitions
    ∧ (local_gain_update G labels td target).gains = td.gains
    ∧ (local_gain_update G labels td target).accepted_movements
        = td.accepted_movements := by
  unfold local_gain_update
  dsimp only []
  split_ifs <;> exact ⟨rfl, rfl, rfl, rfl, rfl, rfl, rfl, rfl⟩

theorem foldl_local_gain_update_fields (G : graph_access) (labels : List Nat)
    (ts : List (Nat × Nat)) : ∀ (td : thread_data),
    ((ts.foldl (fun td tw => local_gain_update G labels td tw.1) td).parts_weights
        = td.parts_weights)
    ∧ ((ts.foldl (fun td tw => local_gain_update G labels td tw.1) td).parts_sizes
        = td.parts_sizes)
    ∧ ((ts.foldl (fun td tw => local_gain_update G labels td tw.1) td).nodes_partitions
        = td.nodes_partitions)
    ∧ ((ts.foldl (fun td tw => local_gain_update G labels td tw.1) td).transpositions
        = td.transpositions)
    ∧ ((ts.foldl (fun td tw => local_gain_update G labels td tw.1) td).from_partitions
        = td.from_partitions)
    ∧ ((ts.foldl (fun td tw => local_gain_update G labels td tw.1) td).to_partitions
        = td.to_partitions)
    ∧ ((ts.foldl (fun td tw => local_gain_update G labels td tw.1) td).gains = td.gains)
    ∧ ((ts.foldl (fun td tw => local_gain_update G labels td tw.1) td).accepted_movements
        = td.accepted_movements) := by
  induction ts with
  | nil => intro td; exact ⟨rfl, rfl, rfl, rfl, rfl, rfl, rfl, rfl⟩
  | cons tw ts ih =>
      intro td
      obtain ⟨h1, h2, h3, h4, h5, h6, h7, h8⟩ := ih (local_gain_update G labels td tw.1)
      obtain ⟨g1, g2, g3, g4, g5, g6, g7, g8⟩ := local_gain_update_fields G labels td tw.1
      exact ⟨h1.trans g1, h2.trans g2, h3.trans g3, h4.trans g4, h5.trans g5,
        h6.trans g6, h7.trans g7, h8.trans g8⟩

theorem get_local_partition_depends (labels : List Nat) (td td' : thread_data)
    (h : td.nodes_partitions = td'.nodes_partitions) (v : Nat) :
    get_local_partition labels td v = get_local_partition labels td' v := by
  unfold get_local_partition
  rw [h]

theorem max_gainer_fold_spec (G : graph_access) (view : Nat → Nat)
    (node fromP : Nat) (l : List (Nat × Nat)) :
    ∀ (best : Option Nat),
    (∀ b0, best = some b0 → b0 ≠ fromP ∧ ∃ tw ∈ G.outEdges node, b0 = view tw.1) →
    (∀ tw ∈ l, tw ∈ G.outEdges node) →
    ∀ toP, l.foldl (fun best tw =>
        let b := view tw.1
        if b = fromP then best
        else
          match best with
          | none => some b
          | some b0 =>
              if connWeight G view node b > connWeight G view node b0 then some b
              else best) best = some toP →
    toP ≠ fromP ∧ ∃ tw ∈ G.outEdges node, toP = view tw.1 := by
  induction l with
  | nil =>
      intro best hbest _ toP hfold
      exact hbest toP hfold
  | cons tw l ih =>
      intro best hbest hsub toP hfold
      rw [List.foldl_cons] at hfold
      simp only [] at hfold
      have htwm : tw ∈ G.outEdges node := hsub tw (List.mem_cons_self tw l)
      have hsub2 : ∀ e ∈ l, e ∈ G.outEdges node :=
        fun e he => hsub e (List.mem_cons_of_mem tw he)
      by_cases hb : view tw.1 = fromP
      · rw [if_pos hb] at hfold
        exact ih best hbest hsub2 toP hfold
      · rw [if_neg hb] at hfold
        cases best with
        | none =>
            refine ih (some (view tw.1)) ?_ hsub2 toP hfold
            intro b0 hb0
            injection hb0 with hb0
            exact ⟨hb0 ▸ hb, tw, htwm, hb0.symm⟩
        | some b0 =>
            refine ih _ ?_ hsub2 toP hfold
            intro b1 hb1
            dsimp only [] at hb1
            split_ifs at hb1
            · injection hb1 with hb1
              exact ⟨hb1 ▸ hb, tw, htwm, hb1.symm⟩
            · exact hbest b1 hb1

theorem max_gainer_spec (G : graph_access) (view : Nat → Nat) (node fromP toP : Nat)
    (h : max_gainer G view node fromP = some toP) :
    toP ≠ fromP ∧ ∃ tw ∈ G.outEdges node, toP = view tw.1 := by
  unfold max_gainer at h
  exact max_gainer_fold_spec G view node fromP (G.outEdges node) none
    (fun b0 hb0 => by exact absurd hb0 (by simp)) (fun tw htw => htw) toP h

theorem compute_gain_some (G : graph_access) (view : Nat → Nat)
    (node fromP toP : Nat)
    (h : (compute_gain G view node fromP).2.1 = some toP) :
    max_gainer G view node fromP = some toP := by
  unfold compute_gain at h
  cases hmg : max_gainer G view node fromP with
  | none => rw [hmg] at h; simp at h
  | some b =>
      rw [hmg] at h
      simp only [] at h
      exact h

theorem local_move_node_success_fields (G : graph_access) (ub : Nat)
    (es : explore_state) (node fromP toP : Nat)
    (hmg : (compute_gain G (get_local_partition es.shared.partitionIndex es.td)
        node fromP).2.1 = some toP)
    (h1 : ¬ es.td.parts_sizes.getD fromP 0 = 1)
    (h2 : ¬ es.td.parts_weights.getD toP 0 + G.nodeWeights.getD node 0 ≥ ub) :
    (local_move_node G ub es node fromP).1 = true
    ∧ (local_move_node G ub es node fromP).2.1 = toP
    ∧ (local_move_node G ub es node fromP).2.2.shared = es.shared
    ∧ (local_move_node G ub es node fromP).2.2.td.nodes_partitions
        = assocSet es.td.nodes_partitions node toP
    ∧ (local_move_node G ub es node fromP).2.2.td.parts_weights
        = (es.td.parts_weights.set toP
            (es.td.parts_weights.getD toP 0 + G.nodeWeights.getD node 0)).set fromP
          ((es.td.parts_weights.set toP
            (es.td.parts_weights.getD toP 0 + G.nodeWeights.getD node 0)).getD fromP 0
            - G.nodeWeights.getD node 0)
    ∧ (local_move_node G ub es node fromP).2.2.td.parts_sizes
        = (es.td.parts_sizes.set toP (es.td.parts_sizes.getD toP 0 + 1)).set fromP
          ((es.td.parts_sizes.set toP
            (es.td.parts_sizes.getD toP 0 + 1)).getD fromP 0 - 1)
    ∧ (local_move_node G ub es node fromP).2.2.td.transpositions
        = es.td.transpositions
    ∧ (local_move_node G ub es node fromP).2.2.td.from_partitions
        = es.td.from_partitions
    ∧ (local_move_node G ub es node fromP).2.2.td.to_partitions = es.td.to_partitions
    ∧ (local_move_node G ub es node fromP).2.2.td.gains = es.td.gains
    ∧ (local_move_node G ub es node fromP).2.2.td.accepted_movements
        = es.td.accepted_movements := by
  unfold local_move_node
  simp only []
  rw [hmg]
  dsimp only []
  rw [if_neg h1, if_neg h2]
  dsimp only []
  obtain ⟨g1, g2, g3, g4, g5, g6, g7, g8⟩ :=
    foldl_local_gain_update_fields G es.shared.partitionIndex (G.outEdges node)
      { es.td with
        nodes_partitions := assocSet es.td.nodes_partitions node toP,
        parts_weights :=
          (es.td.parts_weights.set toP
            (es.td.parts_weights.getD toP 0 + G.nodeWeights.getD node 0)).set fromP
          ((es.td.parts_weights.set toP
            (es.td.parts_weights.getD toP 0 + G.nodeWeights.getD node 0)).getD fromP 0
            - G.nodeWeights.getD node 0),
        parts_sizes :=
          (es.td.parts_sizes.set toP (es.td.parts_sizes.getD toP 0 + 1)).set fromP
          ((es.td.parts_sizes.set toP
            (es.td.parts_sizes.getD toP 0 + 1)).getD fromP 0 - 1) }
  exact ⟨rfl, rfl, rfl, g3.trans rfl, g1.trans rfl, g2.trans rfl, g4.trans rfl,
    g5.trans rfl, g6.trans rfl, g7.trans rfl, g8.trans rfl⟩

theorem local_move_node_success_inv (G : graph_access) (ub : Nat)
    (es : explore_state) (node fromP : Nat)
    (hsucc : (local_move_node G ub es node fromP).1 = true) :
    (compute_gain G (get_local_partition es.shared.partitionIndex es.td)
        node fromP).2.1 = some (local_move_node G ub es node fromP).2.1
    ∧ ¬ es.td.parts_sizes.getD fromP 0 = 1
    ∧ ¬ es.td.parts_weights.getD ((local_move_node G ub es node fromP).2.1) 0
        + G.nodeWeights.getD node 0 ≥ ub := by
  cases hmg : (compute_gain G (get_local_partition es.shared.partitionIndex es.td)
      node fromP).2.1 with
  | none =>
      exfalso
      unfold local_move_node at hsucc
      simp only [] at hsucc
      rw [hmg] at hsucc
      simp at hsucc
  | some toP =>
      by_cases h1 : es.td.parts_sizes.getD fromP 0 = 1
      · exfalso
        unfold local_move_node at hsucc
        simp only [] at hsucc
        rw [hmg] at hsucc
        dsimp only [] at hsucc
        rw [if_pos h1] at hsucc
        simp at hsucc
      · by_cases h2 : es.td.parts_weights.getD toP 0 + G.nodeWeights.getD node 0 ≥ ub
        · exfalso
          unfold local_move_node at hsucc
          simp only [] at hsucc
          rw [hmg] at hsucc
          dsimp only [] at hsucc
          rw [if_neg h1, if_pos h2] at hsucc
          simp at hsucc
        · obtain ⟨hs1, hs2, _⟩ :=
            local_move_node_success_fields G ub es node fromP toP hmg h1 h2
          rw [hs2]
          exact ⟨rfl, h1, h2⟩

theorem local_consistent_count_pos (G : graph_access) (k : Nat)
    (es : explore_state) (hc : local_consistent G k es) (node : Nat)
    (hnode : node < G.numNodes) :
    1 ≤ es.td.parts_sizes.getD
      (get_local_partition es.shared.partitionIndex es.td node) 0 := by
  obtain ⟨hlw, hls, hlt, hcount, hweight⟩ := hc
  have hbk := hlt node (List.mem_range.2 hnode)
  rw [hcount _ (List.mem_range.2 hbk)]
  have hmem : node ∈ (List.range G.numNodes).filter
      (fun v => decide (get_local_partition es.shared.partitionIndex es.td v
        = get_local_partition es.shared.partitionIndex es.td node)) :=
    List.mem_filter.2 ⟨List.mem_range.2 hnode, by simp⟩
  exact List.length_pos_of_mem hmem

theorem local_consistent_weight_ge (G : graph_access) (k : Nat)
    (es : explore_state) (hc : local_consistent G k es) (node : Nat)
    (hnode : node < G.numNodes) :
    G.nodeWeights.getD node 0 ≤ es.td.parts_weights.getD
      (get_local_partition es.shared.partitionIndex es.td node) 0 := by
  obtain ⟨hlw, hls, hlt, hcount, hweight⟩ := hc
  have hbk := hlt node (List.mem_range.2 hnode)
  rw [hweight _ (List.mem_range.2 hbk)]
  have hmem : node ∈ (List.range G.numNodes).filter
      (fun v => decide (get_local_partition es.shared.partitionIndex es.td v
        = get_local_partition es.shared.partitionIndex es.td node)) :=
    List.mem_filter.2 ⟨List.mem_range.2 hnode, by simp⟩
  exact le_sum_of_mem_map _ (fun v => G.nodeWeights.getD v 0) node hmem

theorem local_weight_cells_roundtrip (N : List Nat) (f t d : Nat)
    (hf : f < N.length) (ht : t < N.length) (hft : f ≠ t) (hd : d ≤ N.getD f 0) :
    ((((N.set t (N.getD t 0 + d)).set f
        ((N.set t (N.getD t 0 + d)).getD f 0 - d)).set f
      ((((N.set t (N.getD t 0 + d)).set f
        ((N.set t (N.getD t 0 + d)).getD f 0 - d))).getD f 0 + d)).set t
      (((((N.set t (N.getD t 0 + d)).set f
        ((N.set t (N.getD t 0 + d)).getD f 0 - d)).set f
      ((((N.set t (N.getD t 0 + d)).set f
        ((N.set t (N.getD t 0 + d)).getD f 0 - d))).getD f 0 + d))).getD t 0 - d))
    = N := by
  have hA : (N.set t (N.getD t 0 + d)).getD f 0 = N.getD f 0 :=
    getD_set_ne N 0 t f _ (fun h => hft h.symm)
  rw [hA]
  have hB : ((N.set t (N.getD t 0 + d)).set f (N.getD f 0 - d)).getD f 0
      = N.getD f 0 - d := by
    refine getD_set_self _ 0 f _ ?_
    rw [List.length_set]
    exact hf
  rw [hB]
  have hsub : N.getD f 0 - d + d = N.getD f 0 := Nat.sub_add_cancel hd
  rw [hsub]
  rw [List.set_set]
  have hC : ((N.set t (N.getD t 0 + d)).set f (N.getD f 0)).getD t 0
      = N.getD t 0 + d := by
    rw [getD_set_ne _ 0 f t _ hft]
    exact getD_set_self N 0 t _ ht
  rw [hC]
  have hD : N.getD t 0 + d - d = N.getD t 0 := by omega
  rw [hD]
  rw [List.set_comm _ _ _ hft, List.set_set]
  rw [set_getD_eq_self N t ht]
  exact set_getD_eq_self N f hf

theorem local_size_cells_roundtrip (N : List Nat) (f t d : Nat)
    (hf : f < N.length) (ht : t < N.length) (hft : f ≠ t) (hd : d ≤ N.getD f 0) :
    ((((N.set t (N.getD t 0 + d)).set f
        ((N.set t (N.getD t 0 + d)).getD f 0 - d)).set t
      ((((N.set t (N.getD t 0 + d)).set f
        ((N.set t (N.getD t 0 + d)).getD f 0 - d))).getD t 0 - d)).set f
      (((((N.set t (N.getD t 0 + d)).set f
        ((N.set t (N.getD t 0 + d)).getD f 0 - d)).set t
      ((((N.set t (N.getD t 0 + d)).set f
        ((N.set t (N.getD t 0 + d)).getD f 0 - d))).getD t 0 - d))).getD f 0 + d))
    = N := by
  have hA : (N.set t (N.getD t 0 + d)).getD f 0 = N.getD f 0 :=
    getD_set_ne N 0 t f _ (fun h => hft h.symm)
  rw [hA]
  have hC : ((N.set t (N.getD t 0 + d)).set f (N.getD f 0 - d)).getD t 0
      = N.getD t 0 + d := by
    rw [getD_set_ne _ 0 f t _ hft]
    exact getD_set_self N 0 t _ ht
  rw [hC]
  have hD : N.getD t 0 + d - d = N.getD t 0 := by omega
  rw [hD]
  have hE : (((N.set t (N.getD t 0 + d)).set f (N.getD f 0 - d)).set t
      (N.getD t 0)).getD f 0 = N.getD f 0 - d := by
    rw [getD_set_ne _ 0 t f _ (fun h => hft h.symm)]
    refine getD_set_self _ 0 f _ ?_
    rw [List.length_set]
    exact hf
  rw [hE]
  have hsub : N.getD f 0 - d + d = N.getD f 0 := Nat.sub_add_cancel hd
  rw [hsub]
  rw [List.set_comm _ _ _ hft]
  rw [List.set_set, List.set_set]
  rw [set_getD_eq_self N t ht]
  exact set_getD_eq_self N f hf

theorem local_move_node_preserves_local_consistent (G : graph_access) (k ub : Nat)
    (es : explore_state) (node fromP : Nat)
    (hc : local_consistent G k es) (hvalid : validTargets G)
    (hnode : node < G.numNodes)
    (hlabel : get_local_partition es.shared.partitionIndex es.td node = fromP)
    (hsucc : (local_move_node G ub es node fromP).1 = true) :
    local_consistent G k (local_move_node G ub es node fromP).2.2 := by
  obtain ⟨hmg, h1, h2⟩ := local_move_node_success_inv G ub es node fromP hsucc
  obtain ⟨hs1, hs2, hshared, hnp, hw, hsz, _, _, _, _, _⟩ :=
    local_move_node_success_fields G ub es node fromP _ hmg h1 h2
  have hmax := compute_gain_some G _ node fromP _ hmg
  obtain ⟨hft', htw⟩ := max_gainer_spec G _ node fromP _ hmax
  have hcnt := local_consistent_count_pos G k es hc node hnode
  have hwgt := local_consistent_weight_ge G k es hc node hnode
  rw [hlabel] at hcnt hwgt
  obtain ⟨hlw, hls, hlt, hcount, hweight⟩ := hc
  have hfromk : fromP < k := hlabel ▸ hlt node (List.mem_range.2 hnode)
  have htok : (local_move_node G ub es node fromP).2.1 < k := by
    obtain ⟨tw, htwm, htweq⟩ := htw
    rw [htweq]
    exact hlt tw.1
      (List.mem_range.2 (hvalid node (List.mem_range.2 hnode) tw htwm))
  have hview : ∀ v,
      get_local_partition (local_move_node G ub es node fromP).2.2.shared.partitionIndex
        (local_move_node G ub es node fromP).2.2.td v
      = if v = node then (local_move_node G ub es node fromP).2.1
        else get_local_partition es.shared.partitionIndex es.td v := by
    intro v
    rw [hshared]
    rw [get_local_partition_depends es.shared.partitionIndex _
      (set_local_partition es.td node (local_move_node G ub es node fromP).2.1)
      (by rw [hnp]; rfl) v]
    exact get_local_partition_set es.shared.partitionIndex es.td node _ v
  unfold local_consistent
  refine ⟨?_, ?_, ?_, ?_, ?_⟩
  · rw [hw, List.length_set, List.length_set]
    exact hlw
  · rw [hsz, List.length_set, List.length_set]
    exact hls
  · intro v hv
    rw [hview v]
    by_cases hvn : v = node
    · rw [if_pos hvn]
      exact htok
    · rw [if_neg hvn]
      exact hlt v hv
  · intro b hb
    have hupd := filter_length_update (List.range G.numNodes) node
      (fun v => decide (get_local_partition es.shared.partitionIndex es.td v = b))
      (fun v => decide (get_local_partition
        (local_move_node G ub es node fromP).2.2.shared.partitionIndex
        (local_move_node G ub es node fromP).2.2.td v = b))
      (fun v hvn => by simp only []; rw [hview v, if_neg hvn])
      (List.nodup_range G.numNodes) (List.mem_range.2 hnode)
    rw [show (fun v => decide (get_local_partition
        (local_move_node G ub es node fromP).2.2.shared.partitionIndex
        (local_move_node G ub es node fromP).2.2.td v = b)) node
        = decide ((local_move_node G ub es node fromP).2.1 = b) from by
      simp only []; rw [hview node, if_pos rfl]] at hupd
    rw [show (fun v => decide (get_local_partition es.shared.partitionIndex es.td v
        = b)) node = decide (fromP = b) from by simp only []; rw [hlabel]] at hupd
    have hcb := hcount b hb
    simp only [decide_eq_true_eq] at hupd
    rw [hsz]
    by_cases hbf : b = fromP
    · subst hbf
      rw [getD_set_self _ 0 _ _ (by rw [List.length_set, hls]; exact hfromk)]
      rw [getD_set_ne _ 0 _ _ _ hft']
      rw [hcb]
      rw [if_pos rfl, if_neg hft'] at hupd
      omega
    · rw [getD_set_ne _ 0 fromP b _ (fun h => hbf h.symm)]
      by_cases hbt : b = (local_move_node G ub es node fromP).2.1
      · rw [hbt] at hcb hupd ⊢
        rw [getD_set_self _ 0 _ _ (by rw [hls]; exact htok)]
        rw [hcb]
        rw [if_neg (fun h => hft' h.symm), if_pos rfl] at hupd
        omega
      · rw [getD_set_ne _ 0 _ _ _ (fun h => hbt h.symm)]
        rw [hcb]
        rw [if_neg (fun h => hbf h.symm), if_neg (fun h => hbt h.symm)] at hupd
        omega
  · intro b hb
    have hupd := filter_sum_update (List.range G.numNodes) node
      (fun v => G.nodeWeights.getD v 0)
      (fun v => decide (get_local_partition es.shared.partitionIndex es.td v = b))
      (fun v => decide (get_local_partition
        (local_move_node G ub es node fromP).2.2.shared.partitionIndex
        (local_move_node G ub es node fromP).2.2.td v = b))
      (fun v hvn => by simp only []; rw [hview v, if_neg hvn])
      (List.nodup_range G.numNodes) (List.mem_range.2 hnode)
    rw [show (fun v => decide (get_local_partition
        (local_move_node G ub es node fromP).2.2.shared.partitionIndex
        (local_move_node G ub es node fromP).2.2.td v = b)) node
        = decide ((local_move_node G ub es node fromP).2.1 = b) from by
      simp only []; rw [hview node, if_pos rfl]] at hupd
    rw [show (fun v => decide (get_local_partition es.shared.partitionIndex es.td v
        = b)) node = decide (fromP = b) from by simp only []; rw [hlabel]] at hupd
    have hwb := hweight b hb
    simp only [decide_eq_true_eq] at hupd
    rw [hw]
    by_cases hbf : b = fromP
    · subst hbf
      rw [getD_set_self _ 0 _ _ (by rw [List.length_set, hlw]; exact hfromk)]
      rw [getD_set_ne _ 0 _ _ _ hft']
      rw [hwb]
      rw [if_pos rfl, if_neg hft'] at hupd
      omega
    · rw [getD_set_ne _ 0 fromP b _ (fun h => hbf h.symm)]
      by_cases hbt : b = (local_move_node G ub es node fromP).2.1
      · rw [hbt] at hwb hupd ⊢
        rw [getD_set_self _ 0 _ _ (by rw [hlw]; exact htok)]
        rw [hwb]
        rw [if_neg (fun h => hft' h.symm), if_pos rfl] at hupd
        omega
      · rw [getD_set_ne _ 0 _ _ _ (fun h => hbt h.symm)]
        rw [hwb]
        rw [if_neg (fun h => hbf h.symm), if_neg (fun h => hbt h.symm)] at hupd
        omega

theorem apply_local_moves_cons (G : graph_access) (ub : Nat) (es : explore_state)
    (node : Nat) (rest : List Nat) :
    apply_local_moves G ub es (node :: rest)
      = (if (local_move_node G ub es node
            (get_local_partition es.shared.partitionIndex es.td node)).1 then
          match apply_local_moves G ub (local_move_node G ub es node
              (get_local_partition es.shared.partitionIndex es.td node)).2.2 rest with
          | some p => some (p.1,
              (node, get_local_partition es.shared.partitionIndex es.td node,
                (local_move_node G ub es node
                  (get_local_partition es.shared.partitionIndex es.td node)).2.1)
                :: p.2)
          | none => none
        else none) := rfl

theorem apply_local_moves_roundtrip (G : graph_access) (k ub : Nat)
    (nodes : List Nat) (hvalid : validTargets G) :
    ∀ (es es2 : explore_state) (log : List (Nat × Nat × Nat)),
    local_consistent G k es →
    (∀ n ∈ nodes, n < G.numNodes) →
    apply_local_moves G ub es nodes = some (es2, log) →
    es2.shared = es.shared
    ∧ (unroll_local_moves G es2.td log).parts_weights = es.td.parts_weights
    ∧ (unroll_local_moves G es2.td log).parts_sizes = es.td.parts_sizes
    ∧ local_consistent G k es2 := by
  induction nodes with
  | nil =>
      intro es es2 log hc _ happly
      unfold apply_local_moves at happly
      injection happly with h
      injection h with h1 h2
      subst h1
      subst h2
      exact ⟨rfl, rfl, rfl, hc⟩
  | cons node rest ih =>
      intro es es2 log hc hmem happly
      rw [apply_local_moves_cons] at happly
      by_cases hsucc : (local_move_node G ub es node
          (get_local_partition es.shared.partitionIndex es.td node)).1 = true
      · rw [if_pos hsucc] at happly
        cases hrec : apply_local_moves G ub (local_move_node G ub es node
            (get_local_partition es.shared.partitionIndex es.td node)).2.2 rest with
        | none =>
            rw [hrec] at happly
            dsimp only [] at happly
            exact absurd happly (by simp)
        | some p =>
            rw [hrec] at happly
            dsimp only [] at happly
            injection happly with h
            injection h with h1 h2
            subst h1
            subst h2
            have hnd : node < G.numNodes := hmem node (List.mem_cons_self node rest)
            have hc2 := local_move_node_preserves_local_consistent G k ub es node
              (get_local_partition es.shared.partitionIndex es.td node)
              hc hvalid hnd rfl hsucc
            obtain ⟨ihsh, ihw, ihs, ihc⟩ := ih _ p.1 p.2 hc2
              (fun n hn => hmem n (List.mem_cons_of_mem node hn)) hrec
            obtain ⟨hmg, hna, hnb⟩ :=
              local_move_node_success_inv G ub es node _ hsucc
            obtain ⟨_, _, hshared, hnp, hw, hsz, _, _, _, _, _⟩ :=
              local_move_node_success_fields G ub es node _ _ hmg hna hnb
            have hmax := compute_gain_some G _ node _ _ hmg
            obtain ⟨hft', htw⟩ := max_gainer_spec G _ node _ _ hmax
            have hcnt := local_consistent_count_pos G k es hc node hnd
            have hwgt := local_consistent_weight_ge G k es hc node hnd
            obtain ⟨hlw, hls, hlt, _, _⟩ := hc
            have hfromk : get_local_partition es.shared.partitionIndex es.td node < k :=
              hlt node (List.mem_range.2 hnd)
            have htok : (local_move_node G ub es node
                (get_local_partition es.shared.partitionIndex es.td node)).2.1 < k := by
              obtain ⟨tw, htwm, htweq⟩ := htw
              rw [htweq]
              exact hlt tw.1
                (List.mem_range.2 (hvalid node (List.mem_range.2 hnd) tw htwm))
            refine ⟨ihsh.trans hshared, ?_, ?_, ihc⟩
            · show (local_move_back_node G (unroll_local_moves G p.1.td p.2) node
                  (get_local_partition es.shared.partitionIndex es.td node)
                  (local_move_node G ub es node
                    (get_local_partition es.shared.partitionIndex es.td node)).2.1
                ).parts_weights = es.td.parts_weights
              unfold local_move_back_node
              dsimp only []
              rw [ihw, hw]
              exact local_weight_cells_roundtrip es.td.parts_weights
                (get_local_partition es.shared.partitionIndex es.td node)
                (local_move_node G ub es node
                  (get_local_partition es.shared.partitionIndex es.td node)).2.1
                (G.nodeWeights.getD node 0)
                (by rw [hlw]; exact hfromk) (by rw [hlw]; exact htok)
                (fun h => hft' h.symm) hwgt
            · show (local_move_back_node G (unroll_local_moves G p.1.td p.2) node
                  (get_local_partition es.shared.partitionIndex es.td node)
                  (local_move_node G ub es node
                    (get_local_partition es.shared.partitionIndex es.td node)).2.1
                ).parts_sizes = es.td.parts_sizes
              unfold local_move_back_node
              dsimp only []
              rw [ihs, hsz]
              exact local_size_cells_roundtrip es.td.parts_sizes
                (get_local_partition es.shared.partitionIndex es.td node)
                (local_move_node G ub es node
                  (get_local_partition es.shared.partitionIndex es.td node)).2.1
                1
                (by rw [hls]; exact hfromk) (by rw [hls]; exact htok)
                (fun h => hft' h.symm) hcnt
      · rw [if_neg hsucc] at happly
        exact absurd happly (by simp)

/-- C3: rollback correctness.  For any sequence of committed relaxed moves of
the apply phase (each applied from the node's current block to a valid
distinct block), unrolling it with `relaxed_move_node_back` from the last
move to the first restores the shared state — labels, per-block node counts,
per-block weights and boundary index — exactly, and the result of the apply
is again consistent; and for any sequence of successful speculative local
moves of the exploration phase, the per-round unroll with
`local_move_back_node` restores the thread-local per-block weights and sizes
exactly, the shared state was never changed, and clearing the shadow labels
(as `single_kway_refinement_round` does right after unrolling) restores the
label view seen through `get_local_partition`. -/
theorem unroll_restores_pre_round_state (G : graph_access) (k ub : Nat)
    (smoves : List (Nat × Nat × Nat)) (nodes : List Nat)
    (s s2 : shared_state) (es es2 : explore_state) (log : List (Nat × Nat × Nat))
    (hcs : consistent G k s)
    (hmv : ∀ mv ∈ smoves, mv.1 < G.numNodes ∧ mv.2.2 < k ∧ mv.2.1 ≠ mv.2.2)
    (happly : apply_relaxed_moves G k ub s smoves = some s2)
    (hvalid : validTargets G)
    (hcl : local_consistent G k es)
    (hnodes : ∀ n ∈ nodes, n < G.numNodes)
    (hemp : es.td.nodes_partitions = [])
    (hlapply : apply_local_moves G ub es nodes = some (es2, log)) :
    unroll_relaxed_moves G k s2 smoves = s
    ∧ (es2.shared = es.shared
       ∧ (unroll_local_moves G es2.td log).parts_weights = es.td.parts_weights
       ∧ (unroll_local_moves G es2.td log).parts_sizes = es.td.parts_sizes
       ∧ ∀ v, get_local_partition es.shared.partitionIndex
           { unroll_local_moves G es2.td log with nodes_partitions := [] } v
           = get_local_partition es.shared.partitionIndex es.td v) := by
  obtain ⟨hu, _⟩ := apply_relaxed_moves_roundtrip G k ub smoves s s2 hcs hmv happly
  obtain ⟨hsh, hw, hs', _⟩ :=
    apply_local_moves_roundtrip G k ub nodes hvalid es es2 log hcl hnodes hlapply
  refine ⟨hu, hsh, hw, hs', ?_⟩
  intro v
  unfold get_local_partition
  dsimp only []
  rw [hemp]

/-- Witness: on the three-node path instance, one committed shared move and
one speculative local move both roll back to the exact pre-round state. -/
theorem unroll_restores_pre_round_state_witness :
    unroll_relaxed_moves g3c 2 s3post [(0, 0, 1)] = s3pre
    ∧ (es3post.shared = es3pre.shared
       ∧ (unroll_local_moves g3c es3post.td [(0, 0, 1)]).parts_weights
           = es3pre.td.parts_weights
       ∧ (unroll_local_moves g3c es3post.td [(0, 0, 1)]).parts_sizes
           = es3pre.td.parts_sizes
       ∧ ∀ v, get_local_partition es3pre.shared.partitionIndex
           { unroll_local_moves g3c es3post.td [(0, 0, 1)] with
              nodes_partitions := [] } v
           = get_local_partition es3pre.shared.partitionIndex es3pre.td v) :=
  unroll_restores_pre_round_state g3c 2 10 [(0, 0, 1)] [0] s3pre s3post es3pre es3post
    [(0, 0, 1)]
    (by unfold consistent; decide) (by decide) (by decide)
    (by unfold validTargets; decide)
    (by unfold local_consistent; decide)
    (by decide) (by decide) (by decide)

/-! ### C6: the recording loop of local_search_from_one_node -/

/-- C6: the loop recording surviving transpositions into `moved_nodes` uses
the guard `transpositions.size()` instead of `i < transpositions.size()`, so
for every nonempty transpositions vector it never exits — no finite fuel
makes it terminate — contradicting the claimed one-iteration-per-element
behaviour (for the empty vector it exits at once with no iteration). -/
theorem ls_record_loop_never_terminates (transp fromPart : List Nat)
    (acc : List (Nat × (Nat × Nat))) (i fuel : Nat) (h : transp ≠ []) :
    ls_record_loop transp fromPart acc i fuel = none := by
  induction fuel generalizing acc i with
  | zero => rfl
  | succ fuel ih =>
      unfold ls_record_loop
      rw [if_pos (fun hlen => h (List.eq_nil_of_length_eq_zero hlen))]
      exact ih _ _

/-- Witness: a one-element transposition log already defeats any fuel. -/
theorem ls_record_loop_never_terminates_witness :
    ls_record_loop [5] [0] [] 0 1000 = none :=
  ls_record_loop_never_terminates [5] [0] [] 0 1000 (by decide)

/-! ### C8: the input-partition branch of kaffpa -/

/-- C8: for every prior configuration and every read partition, the
`--input_partition` branch marks the graph as already partitioned, forces
`only_first_level`, clears the four MH-specific controls, installs the read
partition as the graph labels, and copies those labels into the
`input_partition` vector unchanged. -/
theorem input_partition_branch_effect (cfg : partition_config_model)
    (readP : List Nat) :
    (kaffpa_apply_input_partition cfg readP).1.graph_allready_partitioned = true
    ∧ (kaffpa_apply_input_partition cfg readP).1.only_first_level = true
    ∧ (kaffpa_apply_input_partition cfg readP).1.mh_no_mh = false
    ∧ (kaffpa_apply_input_partition cfg readP).1.no_change_convergence = false
    ∧ (kaffpa_apply_input_partition cfg readP).1.corner_refinement_enabled = false
    ∧ (kaffpa_apply_input_partition cfg readP).1.kaffpa_perfectly_balanced_refinement
        = false
    ∧ (kaffpa_apply_input_partition cfg readP).2.1 = readP
    ∧ (kaffpa_apply_input_partition cfg readP).2.2 = readP :=
  ⟨rfl, rfl, rfl, rfl, rfl, rfl, rfl, map_getD_range readP 0⟩

/-! ### C4: the exploration phase never touches the shared state -/

theorem local_move_node_shared (G : graph_access) (ub : Nat) (es : explore_state)
    (node fromP : Nat) :
    (local_move_node G ub es node fromP).2.2.shared = es.shared := by
  unfold local_move_node
  simp only []
  cases (compute_gain G (get_local_partition es.shared.partitionIndex es.td)
      node fromP).2.1 with
  | none => rfl
  | some toP =>
      dsimp only []
      split_ifs <;> rfl

theorem foldl_shared_preserved {β : Type} (f : explore_state → β → explore_state)
    (hf : ∀ es b, (f es b).shared = es.shared) (l : List β) :
    ∀ es, (l.foldl f es).shared = es.shared := by
  induction l with
  | nil => intro es; rfl
  | cons b l ih =>
      intro es
      rw [List.foldl_cons, ih, hf]

theorem init_queue_with_boundary_shared (G : graph_access) (sn : List Nat)
    (es : explore_state) :
    (init_queue_with_boundary G sn es).shared = es.shared := by
  unfold init_queue_with_boundary
  refine foldl_shared_preserved _ ?_ sn es
  intro es node
  simp only []
  split_ifs <;> rfl

theorem round_loop_shared {α : Type} (G : graph_access) (ub step_limit : Nat)
    (sr : stop_rule_model α) :
    ∀ (fuel : Nat) (st : round_loop_state α),
    (single_kway_refinement_round_loop G ub step_limit sr fuel st).es.shared
      = st.es.shared := by
  intro fuel
  induction fuel with
  | zero => intro st; rfl
  | succ fuel ih =>
      intro st
      unfold single_kway_refinement_round_loop
      by_cases hq : st.es.td.queue = []
      · rw [if_pos hq]
      · rw [if_neg hq]
        by_cases hfin : st.fin_signal.headD false = true
        · rw [if_pos hfin]
        · rw [if_neg hfin]
          simp only []
          by_cases hstop : sr.should_stop st.stop
              (st.min_cut_index - (st.previously_moved : Int)).toNat
              st.number_of_swaps.toNat step_limit = true
          · rw [if_pos hstop]
          · rw [if_neg hstop]
            cases hqm : queue_max st.es.td.queue with
            | none => rfl
            | some e =>
                dsimp only []
                split_ifs <;> (rw [ih _]; exact local_move_node_shared G ub _ e.1 _)

/-- C4: during the exploration phase no shared state is mutated — for every
graph, every configuration of the round and every starting state, the shared
component (per-vertex block labels, per-block node counts and weights, and
the boundary index) returned by `single_kway_refinement_round` is exactly the
one it was given; every accepted speculative move of `local_move_node` only
rewrites the thread-local record. -/
theorem exploration_phase_preserves_shared {α : Type} (G : graph_access)
    (ub max_number_of_swaps step_limit : Nat) (sr : stop_rule_model α) (stop0 : α)
    (start_nodes : List Nat) (fin_signal bits : List Bool) (es0 : explore_state) :
    (single_kway_refinement_round G ub max_number_of_swaps step_limit sr stop0
      start_nodes fin_signal bits es0).es.shared = es0.shared := by
  unfold single_kway_refinement_round
  simp only []
  by_cases hq : (init_queue_with_boundary G start_nodes
      { es0 with td := { es0.td with queue := [] } }).td.queue = []
  · rw [if_pos hq]
    exact init_queue_with_boundary_shared G start_nodes _
  · rw [if_neg hq]
    dsimp only []
    rw [round_loop_shared]
    exact init_queue_with_boundary_shared G start_nodes _

/-! ### C10: conflict handlers record movers under the sentinel owner id -/

theorem assoc_fold_records (l : List (Nat × Nat × Nat)) :
    ∀ (mn : List (Nat × (Nat × Nat))) (key : Nat),
    ((∃ fp0, assocLookup mn key = some (uint32_max, fp0))
      ∨ key ∈ l.map (fun e => e.1)) →
    ∃ fp, assocLookup
      (l.foldl (fun mn e => assocSet mn e.1 (uint32_max, e.2.1)) mn) key
      = some (uint32_max, fp) := by
  induction l with
  | nil =>
      intro mn key h
      rcases h with ⟨fp0, hfp⟩ | h
      · exact ⟨fp0, hfp⟩
      · simp at h
  | cons e l ih =>
      intro mn key h
      rw [List.foldl_cons]
      by_cases hk : key = e.1
      · refine ih _ key (Or.inl ⟨e.2.1, ?_⟩)
        rw [hk]
        exact assocLookup_assocSet_self mn e.1 (uint32_max, e.2.1)
      · rcases h with ⟨fp0, hfp⟩ | h
        · refine ih _ key (Or.inl ⟨fp0, ?_⟩)
          rw [assocLookup_assocSet_ne mn e.1 key _ (fun hh => hk hh.symm)]
          exact hfp
        · rw [List.map_cons, List.mem_cons] at h
          rcases h with h | h
          · exact absurd h hk
          · exact ih _ key (Or.inr h)

/-- C10: every move the GAIN_RECALCULATION handler leaves committed is
recorded in `moved_nodes` under the owner id `uint32_max`, so `is_moved`
answers `true` for it for every actual thread id (preventing any later log
entry for that node from being committed); the LOCAL_SEARCH handler was
meant to do the same, but its recording loop never terminates on a nonempty
surviving transposition vector, so that half of the invariant is never
established. -/
theorem conflict_handlers_record_movers (G : graph_access) (k ub : Nat)
    (s : shared_state) (slice : List Nat) (bits : List Bool)
    (mn : List (Nat × (Nat × Nat))) (transp fromPart : List Nat)
    (acc : List (Nat × (Nat × Nat))) (i fuel : Nat) (htr : transp ≠ []) :
    (∀ mv ∈ (gain_recalculation G k ub s slice bits mn).kept,
      (∃ fp, assocLookup (gain_recalculation G k ub s slice bits mn).moved_nodes mv.1
          = some (uint32_max, fp))
      ∧ ∀ tid, tid ≠ uint32_max →
          is_moved (gain_recalculation G k ub s slice bits mn).moved_nodes mv.1 tid
            = true)
    ∧ ls_record_loop transp fromPart acc i fuel = none := by
  constructor
  · intro mv hmv
    have hmem : mv.1 ∈ (gain_recalculation G k ub s slice bits mn).kept.map
        (fun e => e.1) := List.mem_map_of_mem _ hmv
    obtain ⟨fp, hfp⟩ := assoc_fold_records
      (gain_recalculation G k ub s slice bits mn).kept mn mv.1 (Or.inr hmem)
    have hfp2 : assocLookup (gain_recalculation G k ub s slice bits mn).moved_nodes
        mv.1 = some (uint32_max, fp) := hfp
    refine ⟨⟨fp, hfp2⟩, ?_⟩
    intro tid htid
    unfold is_moved
    rw [hfp2]
    exact decide_eq_true (fun hh => htid hh.symm)
  · exact ls_record_loop_never_terminates transp fromPart acc i fuel htr

/-- Witness: the handler pair on a concrete instance — the recalculation
walk records its surviving move, the local-search recording loop spins. -/
theorem conflict_handlers_record_movers_witness :
    (∀ mv ∈ (gain_recalculation g3c 2 10 s3pre [0] [] []).kept,
      (∃ fp, assocLookup (gain_recalculation g3c 2 10 s3pre [0] [] []).moved_nodes mv.1
          = some (uint32_max, fp))
      ∧ ∀ tid, tid ≠ uint32_max →
          is_moved (gain_recalculation g3c 2 10 s3pre [0] [] []).moved_nodes mv.1 tid
            = true)
    ∧ ls_record_loop [0] [0] [] 0 50 = none :=
  conflict_handlers_record_movers g3c 2 10 s3pre [0] [] [] [0] [0] [] 0 50 (by decide)

/-! ### C7: the time-limit loop of kaffpa -/

theorem foldl_min_le_init (l : List Nat) : ∀ a : Nat, l.foldl min a ≤ a := by
  induction l with
  | nil => intro a; exact Nat.le_refl a
  | cons x l ih =>
      intro a
      rw [List.foldl_cons]
      exact Nat.le_trans (ih (min a x)) (Nat.min_le_left a x)

theorem spec_min_cut_partition_step (acc x : List Nat × Nat)
    (xs : List (List Nat × Nat)) :
    spec_min_cut_partition ((if x.2 < acc.2 then x else acc) :: xs)
      = spec_min_cut_partition (acc :: x :: xs) := by
  unfold spec_min_cut_partition
  have hA2 : (if x.2 < acc.2 then x else acc).2 = min acc.2 x.2 := by
    split_ifs with hxa <;> omega
  have hminL : (((if x.2 < acc.2 then x else acc) :: xs).map (fun r => r.2)).min?
      = some ((xs.map (fun r => r.2)).foldl min (min acc.2 x.2)) := by
    rw [List.map_cons]
    rw [show ((if x.2 < acc.2 then x else acc).2 :: xs.map (fun r => r.2)).min?
      = some ((xs.map (fun r => r.2)).foldl min
          (if x.2 < acc.2 then x else acc).2) from rfl]
    rw [hA2]
  have hminR : ((acc :: x :: xs).map (fun r => r.2)).min?
      = some ((xs.map (fun r => r.2)).foldl min (min acc.2 x.2)) := by
    rw [List.map_cons, List.map_cons]
    rw [show (acc.2 :: x.2 :: xs.map (fun r => r.2)).min?
      = some ((x.2 :: xs.map (fun r => r.2)).foldl min acc.2) from rfl]
    rw [List.foldl_cons]
  rw [hminL, hminR]
  dsimp only []
  set M := (xs.map (fun r => r.2)).foldl min (min acc.2 x.2) with hM
  have hMle : M ≤ min acc.2 x.2 := foldl_min_le_init _ _
  by_cases hxa : x.2 < acc.2
  · rw [if_pos hxa]
    have hR : List.find? (fun r => decide (r.2 = M)) (acc :: x :: xs)
        = List.find? (fun r => decide (r.2 = M)) (x :: xs) :=
      List.find?_cons_of_neg _ (by simp only [decide_eq_true_eq]; omega)
    rw [hR]
  · rw [if_neg hxa]
    by_cases hpa : acc.2 = M
    · have hL : List.find? (fun r => decide (r.2 = M)) (acc :: xs) = some acc :=
        List.find?_cons_of_pos _ (by simp only [decide_eq_true_eq]; omega)
      have hR : List.find? (fun r => decide (r.2 = M)) (acc :: x :: xs) = some acc :=
        List.find?_cons_of_pos _ (by simp only [decide_eq_true_eq]; omega)
      rw [hL, hR]
    · have hL : List.find? (fun r => decide (r.2 = M)) (acc :: xs)
          = List.find? (fun r => decide (r.2 = M)) xs :=
        List.find?_cons_of_neg _ (by simp only [decide_eq_true_eq]; omega)
      have hR : List.find? (fun r => decide (r.2 = M)) (acc :: x :: xs)
          = List.find? (fun r => decide (r.2 = M)) xs := by
        rw [List.find?_cons_of_neg _ (by simp only [decide_eq_true_eq]; omega)]
        exact List.find?_cons_of_neg _ (by simp only [decide_eq_true_eq]; omega)
      rw [hL, hR]

theorem kaffpa_fold_spec (xs : List (List Nat × Nat)) :
    ∀ acc : List Nat × Nat,
    some ((xs.foldl (fun acc r => if r.2 < acc.2 then r else acc) acc).1)
      = spec_min_cut_partition (acc :: xs) := by
  induction xs with
  | nil =>
      intro acc
      unfold spec_min_cut_partition
      rw [List.map_cons, List.map_nil]
      rw [show ((acc.2 : Nat) :: ([] : List Nat)).min? = some acc.2 from rfl]
      dsimp only []
      rw [List.find?_cons_of_pos _ (by simp)]
      rfl
  | cons x xs ih =>
      intro acc
      rw [List.foldl_cons, ih, spec_min_cut_partition_step]

/-- C7: amended statement.  When at least one partitioner run completes
before the time limit (and every observed edge cut is below the
`EdgeWeight` maximum that seeds `best_cut`), the partition the loop leaves
in the graph is exactly the one of the first completed run achieving the
minimum edge cut.  The original claim also covered zero completed runs, but
there the loop stores the freshly allocated, never-written `map` buffer into
the graph (see the counterexample), so the claim is corrected to require at
least one completed run. -/
theorem time_limit_loop_keeps_min_cut (uninit_map : List Nat)
    (runs : List (List Nat × Nat)) (hne : runs ≠ [])
    (hcut : ∀ r ∈ runs, r.2 < 2147483647) :
    some (kaffpa_time_limit_partition uninit_map runs)
      = spec_min_cut_partition runs := by
  cases runs with
  | nil => exact absurd rfl hne
  | cons r0 rest =>
      unfold kaffpa_time_limit_partition
      rw [List.foldl_cons]
      dsimp only []
      rw [if_pos (hcut r0 (List.mem_cons_self r0 rest))]
      exact kaffpa_fold_spec rest r0

/-- Witness: three completed runs; the loop returns the first run achieving
the minimal cut `2`, regardless of the uninitialized buffer's content. -/
theorem time_limit_loop_keeps_min_cut_witness :
    some (kaffpa_time_limit_partition [9, 9]
        [([0, 1], 3), ([1, 0], 2), ([1, 1], 2)])
      = spec_min_cut_partition [([0, 1], 3), ([1, 0], 2), ([1, 1], 2)] :=
  time_limit_loop_keeps_min_cut [9, 9] [([0, 1], 3), ([1, 0], 2), ([1, 1], 2)]
    (by decide) (by decide)

/-- Counterexample to the original C7: with zero completed runs the loop
returns whatever the uninitialized buffer happened to contain — two
different garbage buffers give two different "partitions" — while the
reference description yields no partition at all. -/
theorem time_limit_zero_runs_counterexample :
    kaffpa_time_limit_partition [5, 5] [] = [5, 5]
    ∧ kaffpa_time_limit_partition [7, 7] [] = [7, 7]
    ∧ spec_min_cut_partition [] = none :=
  ⟨rfl, rfl, rfl⟩

/-! ### C9: per-round log discipline -/

theorem local_move_node_logs (G : graph_access) (ub : Nat) (es : explore_state)
    (node fromP : Nat) :
    (local_move_node G ub es node fromP).2.2.td.transpositions = es.td.transpositions
    ∧ (local_move_node G ub es node fromP).2.2.td.from_partitions
        = es.td.from_partitions
    ∧ (local_move_node G ub es node fromP).2.2.td.to_partitions = es.td.to_partitions
    ∧ (local_move_node G ub es node fromP).2.2.td.gains = es.td.gains := by
  unfold local_move_node
  simp only []
  cases (compute_gain G (get_local_partition es.shared.partitionIndex es.td)
      node fromP).2.1 with
  | none => exact ⟨rfl, rfl, rfl, rfl⟩
  | some toP =>
      dsimp only []
      split_ifs with h1 h2
      · exact ⟨rfl, rfl, rfl, rfl⟩
      · exact ⟨rfl, rfl, rfl, rfl⟩
      · obtain ⟨g1, g2, g3, g4, g5, g6, g7, g8⟩ :=
          foldl_local_gain_update_fields G es.shared.partitionIndex
            (G.outEdges node) _
        exact ⟨g4.trans rfl, g5.trans rfl, g6.trans rfl, g7.trans rfl⟩

theorem logs_chain {α : Type} (a b c : round_loop_state α)
    (p1 : List.IsPrefix a.es.td.transpositions b.es.td.transpositions)
    (p2 : List.IsPrefix a.es.td.from_partitions b.es.td.from_partitions)
    (p3 : List.IsPrefix a.es.td.to_partitions b.es.td.to_partitions)
    (p4 : List.IsPrefix a.es.td.gains b.es.td.gains)
    (plen : (a.es.td.transpositions.length = a.es.td.from_partitions.length
        ∧ a.es.td.from_partitions.length = a.es.td.to_partitions.length
        ∧ a.es.td.to_partitions.length = a.es.td.gains.length) →
      (b.es.td.transpositions.length = b.es.td.from_partitions.length
        ∧ b.es.td.from_partitions.length = b.es.td.to_partitions.length
        ∧ b.es.td.to_partitions.length = b.es.td.gains.length))
    (hc : (List.IsPrefix b.es.td.transpositions c.es.td.transpositions
        ∧ List.IsPrefix b.es.td.from_partitions c.es.td.from_partitions
        ∧ List.IsPrefix b.es.td.to_partitions c.es.td.to_partitions
        ∧ List.IsPrefix b.es.td.gains c.es.td.gains)
      ∧ ((b.es.td.transpositions.length = b.es.td.from_partitions.length
          ∧ b.es.td.from_partitions.length = b.es.td.to_partitions.length
          ∧ b.es.td.to_partitions.length = b.es.td.gains.length) →
        (c.es.td.transpositions.length = c.es.td.from_partitions.length
          ∧ c.es.td.from_partitions.length = c.es.td.to_partitions.length
          ∧ c.es.td.to_partitions.length = c.es.td.gains.length))) :
    (List.IsPrefix a.es.td.transpositions c.es.td.transpositions
      ∧ List.IsPrefix a.es.td.from_partitions c.es.td.from_partitions
      ∧ List.IsPrefix a.es.td.to_partitions c.es.td.to_partitions
      ∧ List.IsPrefix a.es.td.gains c.es.td.gains)
    ∧ ((a.es.td.transpositions.length = a.es.td.from_partitions.length
        ∧ a.es.td.from_partitions.length = a.es.td.to_partitions.length
        ∧ a.es.td.to_partitions.length = a.es.td.gains.length) →
      (c.es.td.transpositions.length = c.es.td.from_partitions.length
        ∧ c.es.td.from_partitions.length = c.es.td.to_partitions.length
        ∧ c.es.td.to_partitions.length = c.es.td.gains.length)) :=
  ⟨⟨p1.trans hc.1.1, p2.trans hc.1.2.1, p3.trans hc.1.2.2.1, p4.trans hc.1.2.2.2⟩,
    fun h => hc.2 (plen h)⟩

theorem round_loop_logs {α : Type} (G : graph_access) (ub step_limit : Nat)
    (sr : stop_rule_model α) :
    ∀ (fuel : Nat) (st : round_loop_state α),
    (List.IsPrefix st.es.td.transpositions
        (single_kway_refinement_round_loop G ub step_limit sr fuel
          st).es.td.transpositions
      ∧ List.IsPrefix st.es.td.from_partitions
        (single_kway_refinement_round_loop G ub step_limit sr fuel
          st).es.td.from_partitions
      ∧ List.IsPrefix st.es.td.to_partitions
        (single_kway_refinement_round_loop G ub step_limit sr fuel
          st).es.td.to_partitions
      ∧ List.IsPrefix st.es.td.gains
        (single_kway_refinement_round_loop G ub step_limit sr fuel
          st).es.td.gains)
    ∧ ((st.es.td.transpositions.length = st.es.td.from_partitions.length
        ∧ st.es.td.from_partitions.length = st.es.td.to_partitions.length
        ∧ st.es.td.to_partitions.length = st.es.td.gains.length) →
      ((single_kway_refinement_round_loop G ub step_limit sr fuel
          st).es.td.transpositions.length
        = (single_kway_refinement_round_loop G ub step_limit sr fuel
          st).es.td.from_partitions.length
      ∧ (single_kway_refinement_round_loop G ub step_limit sr fuel
          st).es.td.from_partitions.length
        = (single_kway_refinement_round_loop G ub step_limit sr fuel
          st).es.td.to_partitions.length
      ∧ (single_kway_refinement_round_loop G ub step_limit sr fuel
          st).es.td.to_partitions.length
        = (single_kway_refinement_round_loop G ub step_limit sr fuel
          st).es.td.gains.length)) := by
  intro fuel
  induction fuel with
  | zero =>
      intro st
      exact ⟨⟨List.prefix_rfl, List.prefix_rfl, List.prefix_rfl, List.prefix_rfl⟩,
        fun h => h⟩
  | succ fuel ih =>
      intro st
      unfold single_kway_refinement_round_loop
      by_cases hq : st.es.td.queue = []
      · rw [if_pos hq]
        exact ⟨⟨List.prefix_rfl, List.prefix_rfl, List.prefix_rfl, List.prefix_rfl⟩,
          fun h => h⟩
      · rw [if_neg hq]
        by_cases hfin : st.fin_signal.headD false = true
        · rw [if_pos hfin]
          exact ⟨⟨List.prefix_rfl, List.prefix_rfl, List.prefix_rfl, List.prefix_rfl⟩,
            fun h => h⟩
        · rw [if_neg hfin]
          simp only []
          by_cases hstop : sr.should_stop st.stop
              (st.min_cut_index - (st.previously_moved : Int)).toNat
              st.number_of_swaps.toNat step_limit = true
          · rw [if_pos hstop]
            exact ⟨⟨List.prefix_rfl, List.prefix_rfl, List.prefix_rfl,
              List.prefix_rfl⟩, fun h => h⟩
          · rw [if_neg hstop]
            cases hqm : queue_max st.es.td.queue with
            | none =>
                exact ⟨⟨List.prefix_rfl, List.prefix_rfl, List.prefix_rfl,
                  List.prefix_rfl⟩, fun h => h⟩
            | some e =>
                dsimp only []
                split_ifs <;>
                refine logs_chain st _ _ ?_ ?_ ?_ ?_ ?_ (ih _) <;>
                (try dsimp only []) <;>
                first
                  | (rw [(local_move_node_logs G ub _ e.1 _).1] <;> first | exact List.prefix_append _ _ | exact List.prefix_rfl)
                  | (rw [(local_move_node_logs G ub _ e.1 _).2.1] <;> first | exact List.prefix_append _ _ | exact List.prefix_rfl)
                  | (rw [(local_move_node_logs G ub _ e.1 _).2.2.1] <;> first | exact List.prefix_append _ _ | exact List.prefix_rfl)
                  | (rw [(local_move_node_logs G ub _ e.1 _).2.2.2] <;> first | exact List.prefix_append _ _ | exact List.prefix_rfl)
                  | (intro h; rw [(local_move_node_logs G ub _ e.1 _).1, (local_move_node_logs G ub _ e.1 _).2.1, (local_move_node_logs G ub _ e.1 _).2.2.1, (local_move_node_logs G ub _ e.1 _).2.2.2]; (try simp only [List.length_append, List.length_cons, List.length_nil]); (try dsimp only []); omega)

theorem foldl_logs_preserved {β : Type} (f : explore_state → β → explore_state)
    (hf : ∀ es b, (f es b).td.transpositions = es.td.transpositions
      ∧ (f es b).td.from_partitions = es.td.from_partitions
      ∧ (f es b).td.to_partitions = es.td.to_partitions
      ∧ (f es b).td.gains = es.td.gains) (l : List β) :
    ∀ es, (l.foldl f es).td.transpositions = es.td.transpositions
      ∧ (l.foldl f es).td.from_partitions = es.td.from_partitions
      ∧ (l.foldl f es).td.to_partitions = es.td.to_partitions
      ∧ (l.foldl f es).td.gains = es.td.gains := by
  induction l with
  | nil => intro es; exact ⟨rfl, rfl, rfl, rfl⟩
  | cons b l ih =>
      intro es
      rw [List.foldl_cons]
      obtain ⟨i1, i2, i3, i4⟩ := ih (f es b)
      obtain ⟨j1, j2, j3, j4⟩ := hf es b
      exact ⟨i1.trans j1, i2.trans j2, i3.trans j3, i4.trans j4⟩

theorem init_queue_with_boundary_logs (G : graph_access) (sn : List Nat)
    (es : explore_state) :
    (init_queue_with_boundary G sn es).td.transpositions = es.td.transpositions
    ∧ (init_queue_with_boundary G sn es).td.from_partitions = es.td.from_partitions
    ∧ (init_queue_with_boundary G sn es).td.to_partitions = es.td.to_partitions
    ∧ (init_queue_with_boundary G sn es).td.gains = es.td.gains := by
  unfold init_queue_with_boundary
  refine foldl_logs_preserved _ ?_ sn es
  intro es node
  simp only []
  split_ifs <;> exact ⟨rfl, rfl, rfl, rfl⟩

theorem unroll_moves_go_logs (G : graph_access) :
    ∀ (fuel unrolled : Nat) (td : thread_data),
    (unroll_moves_go G td fuel unrolled).2.transpositions = td.transpositions
    ∧ (unroll_moves_go G td fuel unrolled).2.from_partitions = td.from_partitions
    ∧ (unroll_moves_go G td fuel unrolled).2.to_partitions = td.to_partitions
    ∧ (unroll_moves_go G td fuel unrolled).2.gains = td.gains := by
  intro fuel
  induction fuel with
  | zero => intro unrolled td; exact ⟨rfl, rfl, rfl, rfl⟩
  | succ fuel ih =>
      intro unrolled td
      unfold unroll_moves_go
      simp only []
      exact ⟨(ih _ _).1.trans rfl, (ih _ _).2.1.trans rfl, (ih _ _).2.2.1.trans rfl,
        (ih _ _).2.2.2.trans rfl⟩

theorem unroll_moves_logs (G : graph_access) (td : thread_data) (mci : Int) :
    (unroll_moves G td mci).2.transpositions = td.transpositions
    ∧ (unroll_moves G td mci).2.from_partitions = td.from_partitions
    ∧ (unroll_moves G td mci).2.to_partitions = td.to_partitions
    ∧ (unroll_moves G td mci).2.gains = td.gains := by
  unfold unroll_moves
  exact unroll_moves_go_logs G _ 0 td

/-- C9: per-round log discipline.  Every call of
`single_kway_refinement_round` (the empty-queue early return included)
returns a thread record obtained by `push_sentinels` from an intermediate
record — so its last action appends exactly one sentinel entry to each of
the four per-round logs — and that intermediate record extends the incoming
logs; when the incoming four logs have equal lengths, the four extended logs
have equal lengths too (the invariant the apply phase relies on). -/
theorem single_round_log_discipline {α : Type} (G : graph_access)
    (ub max_number_of_swaps step_limit : Nat) (sr : stop_rule_model α) (stop0 : α)
    (start_nodes : List Nat) (fin_signal bits : List Bool) (es0 : explore_state)
    (h12 : es0.td.transpositions.length = es0.td.from_partitions.length)
    (h23 : es0.td.from_partitions.length = es0.td.to_partitions.length)
    (h34 : es0.td.to_partitions.length = es0.td.gains.length) :
    ∃ td' : thread_data,
      (single_kway_refinement_round G ub max_number_of_swaps step_limit sr stop0
        start_nodes fin_signal bits es0).es.td = push_sentinels td'
      ∧ List.IsPrefix es0.td.transpositions td'.transpositions
      ∧ List.IsPrefix es0.td.from_partitions td'.from_partitions
      ∧ List.IsPrefix es0.td.to_partitions td'.to_partitions
      ∧ List.IsPrefix es0.td.gains td'.gains
      ∧ td'.transpositions.length = td'.from_partitions.length
      ∧ td'.from_partitions.length = td'.to_partitions.length
      ∧ td'.to_partitions.length = td'.gains.length := by
  unfold single_kway_refinement_round
  simp only []
  have hi := init_queue_with_boundary_logs G start_nodes
    { es0 with td := { es0.td with queue := [] } }
  dsimp only [] at hi
  obtain ⟨i1, i2, i3, i4⟩ := hi
  by_cases hq : (init_queue_with_boundary G start_nodes
      { es0 with td := { es0.td with queue := [] } }).td.queue = []
  · rw [if_pos hq]
    refine ⟨(init_queue_with_boundary G start_nodes
      { es0 with td := { es0.td with queue := [] } }).td,
      rfl, ?_, ?_, ?_, ?_, ?_, ?_, ?_⟩
    · rw [i1] <;> exact List.prefix_rfl
    · rw [i2] <;> exact List.prefix_rfl
    · rw [i3] <;> exact List.prefix_rfl
    · rw [i4] <;> exact List.prefix_rfl
    · rw [i1, i2] <;> exact h12
    · rw [i2, i3] <;> exact h23
    · rw [i3, i4] <;> exact h34
  · rw [if_neg hq]
    simp only []
    generalize hE : init_queue_with_boundary G start_nodes
      { es0 with td := { es0.td with queue := [] } } = es1
    rw [hE] at i1 i2 i3 i4 hq
    obtain ⟨⟨p1, p2, p3, p4⟩, plen⟩ := round_loop_logs G ub step_limit sr
      max_number_of_swaps ⟨es1, stop0, fin_signal, bits, 1073741823, 1073741823,
        (es1.td.transpositions.length : Int) - 1, 0, es1.td.transpositions.length⟩
    generalize hS : single_kway_refinement_round_loop G ub step_limit sr
      max_number_of_swaps ⟨es1, stop0, fin_signal, bits, 1073741823, 1073741823,
        (es1.td.transpositions.length : Int) - 1, 0,
        es1.td.transpositions.length⟩ = st1
    rw [hS] at p1 p2 p3 p4 plen
    obtain ⟨u1, u2, u3, u4⟩ := unroll_moves_logs G st1.es.td st1.min_cut_index
    have l1 : es1.td.transpositions.length = es1.td.from_partitions.length := by
      rw [i1, i2]; exact h12
    have l2 : es1.td.from_partitions.length = es1.td.to_partitions.length := by
      rw [i2, i3]; exact h23
    have l3 : es1.td.to_partitions.length = es1.td.gains.length := by
      rw [i3, i4]; exact h34
    obtain ⟨m1, m2, m3⟩ := plen ⟨l1, l2, l3⟩
    refine ⟨{ (unroll_moves G st1.es.td st1.min_cut_index).2 with
        accepted_movements :=
          (unroll_moves G st1.es.td st1.min_cut_index).2.accepted_movements
            - (unroll_moves G st1.es.td st1.min_cut_index).1,
        nodes_partitions := [] }, rfl, ?_, ?_, ?_, ?_, ?_, ?_, ?_⟩
    · show es0.td.transpositions
        <+: (unroll_moves G st1.es.td st1.min_cut_index).2.transpositions
      rw [u1, ← i1]
      exact p1
    · show es0.td.from_partitions
        <+: (unroll_moves G st1.es.td st1.min_cut_index).2.from_partitions
      rw [u2, ← i2]
      exact p2
    · show es0.td.to_partitions
        <+: (unroll_moves G st1.es.td st1.min_cut_index).2.to_partitions
      rw [u3, ← i3]
      exact p3
    · show es0.td.gains
        <+: (unroll_moves G st1.es.td st1.min_cut_index).2.gains
      rw [u4, ← i4]
      exact p4
    · show (unroll_moves G st1.es.td st1.min_cut_index).2.transpositions.length
        = (unroll_moves G st1.es.td st1.min_cut_index).2.from_partitions.length
      rw [u1, u2]
      exact m1
    · show (unroll_moves G st1.es.td st1.min_cut_index).2.from_partitions.length
        = (unroll_moves G st1.es.td st1.min_cut_index).2.to_partitions.length
      rw [u2, u3]
      exact m2
    · show (unroll_moves G st1.es.td st1.min_cut_index).2.to_partitions.length
        = (unroll_moves G st1.es.td st1.min_cut_index).2.gains.length
      rw [u3, u4]
      exact m3

/-- Witness: a concrete round on the three-node instance with a trivial stop
rule and empty logs. -/
theorem single_round_log_discipline_witness :
    ∃ td' : thread_data,
      (single_kway_refinement_round g3c 10 4 10
        ⟨fun _ _ _ _ => false, fun s _ => s, fun s => s⟩ () [0] [] [] es3pre
        ).es.td = push_sentinels td'
      ∧ List.IsPrefix es3pre.td.transpositions td'.transpositions
      ∧ List.IsPrefix es3pre.td.from_partitions td'.from_partitions
      ∧ List.IsPrefix es3pre.td.to_partitions td'.to_partitions
      ∧ List.IsPrefix es3pre.td.gains td'.gains
      ∧ td'.transpositions.length = td'.from_partitions.length
      ∧ td'.from_partitions.length = td'.to_partitions.length
      ∧ td'.to_partitions.length = td'.gains.length :=
  single_round_log_discipline g3c 10 4 10
    ⟨fun _ _ _ _ => false, fun s _ => s, fun s => s⟩ () [0] [] [] es3pre
    rfl rfl rfl

/-! ### C5: the GAIN_RECALCULATION walk -/

theorem gains_along_length (G : graph_access) (k ub : Nat)
    (l : List (Nat × Nat × Nat)) : ∀ s : shared_state,
    (gains_along G k ub s l).length = l.length := by
  induction l with
  | nil => intro s; rfl
  | cons mv l ih =>
      intro s
      show ((compute_gain G (fun v => s.partitionIndex.getD v 0) mv.1 mv.2.1).1
        :: gains_along G k ub
          (relaxed_move_node G k ub s mv.1 mv.2.1 mv.2.2).2 l).length = l.length + 1
      rw [List.length_cons, ih _]

theorem gains_along_append (G : graph_access) (k ub : Nat)
    (l1 l2 : List (Nat × Nat × Nat)) : ∀ s : shared_state,
    gains_along G k ub s (l1 ++ l2)
      = gains_along G k ub s l1 ++ gains_along G k ub (replay G k ub s l1) l2 := by
  induction l1 with
  | nil => intro s; rfl
  | cons mv l1 ih =>
      intro s
      rw [List.cons_append]
      show (compute_gain G (fun v => s.partitionIndex.getD v 0) mv.1 mv.2.1).1
          :: gains_along G k ub
            (relaxed_move_node G k ub s mv.1 mv.2.1 mv.2.2).2 (l1 ++ l2)
        = ((compute_gain G (fun v => s.partitionIndex.getD v 0) mv.1 mv.2.1).1
          :: gains_along G k ub
            (relaxed_move_node G k ub s mv.1 mv.2.1 mv.2.2).2 l1)
          ++ gains_along G k ub (replay G k ub s (mv :: l1)) l2
      rw [List.cons_append]
      rw [ih _]
      rfl

theorem gains_along_take (G : graph_access) (k ub : Nat)
    (l : List (Nat × Nat × Nat)) : ∀ (s : shared_state) (i : Nat),
    gains_along G k ub s (l.take i) = (gains_along G k ub s l).take i := by
  induction l with
  | nil => intro s i; cases i <;> rfl
  | cons mv l ih =>
      intro s i
      cases i with
      | zero => rfl
      | succ i =>
          rw [List.take_succ_cons]
          show (compute_gain G (fun v => s.partitionIndex.getD v 0) mv.1 mv.2.1).1
              :: gains_along G k ub
                (relaxed_move_node G k ub s mv.1 mv.2.1 mv.2.2).2 (l.take i)
            = ((compute_gain G (fun v => s.partitionIndex.getD v 0) mv.1 mv.2.1).1
              :: gains_along G k ub
                (relaxed_move_node G k ub s mv.1 mv.2.1 mv.2.2).2 l).take (i + 1)
          rw [List.take_succ_cons, ih _ _]

theorem replay_of_apply (G : graph_access) (k ub : Nat)
    (l : List (Nat × Nat × Nat)) : ∀ (s s2 : shared_state),
    apply_relaxed_moves G k ub s l = some s2 → replay G k ub s l = s2 := by
  induction l with
  | nil =>
      intro s s2 happly
      exact Option.some.inj happly
  | cons mv rest ih =>
      intro s s2 happly
      rw [apply_relaxed_moves_cons] at happly
      by_cases hguard : s.partitionIndex.getD mv.1 0 = mv.2.1
      · rw [if_pos hguard] at happly
        by_cases hsucc : (relaxed_move_node G k ub s mv.1 mv.2.1 mv.2.2).1 = true
        · rw [if_pos hsucc] at happly
          exact ih _ s2 happly
        · rw [if_neg hsucc] at happly
          exact absurd happly (by simp)
      · rw [if_neg hguard] at happly
        exact absurd happly (by simp)

theorem apply_relaxed_moves_snoc (G : graph_access) (k ub : Nat)
    (s : shared_state) (l : List (Nat × Nat × Nat)) (mv : Nat × Nat × Nat)
    (s2 : shared_state) (h : apply_relaxed_moves G k ub s l = some s2)
    (hguard : s2.partitionIndex.getD mv.1 0 = mv.2.1)
    (hsucc : (relaxed_move_node G k ub s2 mv.1 mv.2.1 mv.2.2).1 = true) :
    apply_relaxed_moves G k ub s (l ++ [mv])
      = some (relaxed_move_node G k ub s2 mv.1 mv.2.1 mv.2.2).2 := by
  rw [apply_relaxed_moves_append, h, Option.some_bind, apply_relaxed_moves_cons]
  rw [if_pos hguard, if_pos hsucc]
  rfl

theorem gr_step_preserves_inv (G : graph_access) (k ub : Nat) (s : shared_state)
    (st : gr_state) (node : Nat) (hvalid : validTargets G)
    (hnode : node < G.numNodes) (hinv : gr_inv G k ub s st) :
    gr_inv G k ub s (gain_recalculation_step G k ub st node) := by
  unfold gain_recalculation_step
  simp only []
  cases hcg : (compute_gain G (fun v => st.s.partitionIndex.getD v 0) node
      (st.s.partitionIndex.getD node 0)).2.1 with
  | none => exact hinv
  | some toP =>
      dsimp only []
      by_cases hsucc : (relaxed_move_node G k ub st.s node
          (st.s.partitionIndex.getD node 0) toP).1 = true
      case neg =>
        rw [if_neg hsucc]
        exact hinv
      case pos =>
      rw [if_pos hsucc]
      obtain ⟨hc, happ, hmv, hnum, htot, hilt, hige, hbest, hmax⟩ := hinv
      have hmgr := compute_gain_some G _ node _ _ hcg
      obtain ⟨hne', htw⟩ := max_gainer_spec G _ node _ _ hmgr
      have htok : toP < k := by
        obtain ⟨tw, htwm, htweq⟩ := htw
        rw [htweq]
        exact hc.2.2.2.1 tw.1
          (List.mem_range.2 (hvalid node (List.mem_range.2 hnode) tw htwm))
      have hfromne : st.s.partitionIndex.getD node 0 ≠ toP := fun h => hne' h.symm
      have hc2 := relaxed_move_node_preserves_consistent G k ub st.s node
        (st.s.partitionIndex.getD node 0) toP hc hnode rfl htok hfromne hsucc
      have happ2 := apply_relaxed_moves_snoc G k ub s st.moves
        (node, st.s.partitionIndex.getD node 0, toP) st.s happ rfl hsucc
      have hrepl : replay G k ub s st.moves = st.s :=
        replay_of_apply G k ub st.moves s st.s happ
      have hgal : gains_along G k ub s
          (st.moves ++ [(node, st.s.partitionIndex.getD node 0, toP)])
          = gains_along G k ub s st.moves
            ++ [(compute_gain G (fun v => st.s.partitionIndex.getD v 0) node
                  (st.s.partitionIndex.getD node 0)).1] := by
        rw [gains_along_append, hrepl]
        rfl
      have hgl_len : (gains_along G k ub s st.moves).length = st.moves.length :=
        gains_along_length G k ub st.moves s
      have hfull : (gains_along G k ub s st.moves
            ++ [(compute_gain G (fun v => st.s.partitionIndex.getD v 0) node
                  (st.s.partitionIndex.getD node 0)).1]).take (st.moves.length + 1)
          = gains_along G k ub s st.moves
            ++ [(compute_gain G (fun v => st.s.partitionIndex.getD v 0) node
                  (st.s.partitionIndex.getD node 0)).1] := by
        rw [show st.moves.length + 1
            = (gains_along G k ub s st.moves
              ++ [(compute_gain G (fun v => st.s.partitionIndex.getD v 0) node
                    (st.s.partitionIndex.getD node 0)).1]).length from by
          rw [List.length_append, hgl_len]
          rfl]
        exact List.take_length _
      unfold gr_inv
      dsimp only []
      refine ⟨hc2, happ2, ?_, ?_, ?_, ?_, ?_, ?_, ?_⟩
      · intro mv hm
        rcases List.mem_append.1 hm with hm | hm
        · exact hmv mv hm
        · rw [List.mem_singleton] at hm
          subst hm
          exact ⟨hnode, htok, hfromne⟩
      · rw [List.length_append]
        simp only [List.length_cons, List.length_nil]
        omega
      · rw [hgal, List.sum_append]
        simp only [List.sum_cons, List.sum_nil]
        omega
      · rw [List.length_append]
        simp only [List.length_cons, List.length_nil]
        split_ifs with hbet
        · omega
        · omega
      · split_ifs with hbet
        · omega
        · exact hige
      · rw [hgal]
        split_ifs with hbet
        · rw [show ((st.num_moves : Int) + 1).toNat = st.moves.length + 1 from by
            omega]
          rw [hfull, List.sum_append]
          simp only [List.sum_cons, List.sum_nil]
          omega
        · rw [List.take_append_of_le_length (by rw [hgl_len]; omega)]
          exact hbest
      · intro i hi
        rw [List.length_append] at hi
        simp only [List.length_cons, List.length_nil] at hi
        rw [hgal]
        by_cases hile : i ≤ st.moves.length
        · rw [List.take_append_of_le_length (by rw [hgl_len]; exact hile)]
          have hold := hmax i hile
          split_ifs with hbet
          · rcases hbet with h | h
            · omega
            · have h1 := h.1
              omega
          · exact hold
        · have hieq : i = st.moves.length + 1 := by omega
          subst hieq
          rw [hfull, List.sum_append]
          simp only [List.sum_cons, List.sum_nil]
          split_ifs with hbet
          · omega
          · have h1 : ¬ (st.total_gain
                + (compute_gain G (fun v => st.s.partitionIndex.getD v 0) node
                    (st.s.partitionIndex.getD node 0)).1 > st.best_total_gain) :=
              fun h => hbet (Or.inl h)
            omega

theorem gr_fold_preserves_inv (G : graph_access) (k ub : Nat) (s : shared_state)
    (hvalid : validTargets G) (slice : List Nat) :
    ∀ st : gr_state, (∀ n ∈ slice, n < G.numNodes) → gr_inv G k ub s st →
    gr_inv G k ub s (slice.foldl (gain_recalculation_step G k ub) st) := by
  induction slice with
  | nil => intro st _ hinv; exact hinv
  | cons n slice ih =>
      intro st hmem hinv
      rw [List.foldl_cons]
      exact ih _ (fun m hm => hmem m (List.mem_cons_of_mem n hm))
        (gr_step_preserves_inv G k ub s st n hvalid
          (hmem n (List.mem_cons_self n slice)) hinv)

theorem gr_inv_init (G : graph_access) (k ub : Nat) (s : shared_state)
    (bits : List Bool) (hc : consistent G k s) :
    gr_inv G k ub s ⟨s, bits, 0, 0, -1, 0, []⟩ := by
  unfold gr_inv
  dsimp only []
  refine ⟨hc, rfl, ?_, rfl, rfl, ?_, ?_, rfl, ?_⟩
  · intro mv hm
    simp at hm
  · decide
  · decide
  · intro i hi
    simp at hi
    subst hi
    simp

/-- C5: amended statement.  The GAIN_RECALCULATION handler recomputes each
node's source block and gain from the current shared graph state and then
moves it whenever `relaxed_move_node` succeeds — regardless of the sign of
the recomputed gain (the source has no positivity check; see the
counterexample, whose kept prefix contains a gain `-1` move).  It does track
the best total gain over its accepted moves and rolls back exactly the moves
after the index achieving it: the final shared state is the state reached by
applying just the kept prefix, the kept moves are a prefix of all accepted
moves, the reported best total gain is the sum of the recomputed gains of
the kept prefix, and no prefix of the walk has a larger total. -/
theorem gain_recalculation_walk (G : graph_access) (k ub : Nat)
    (s : shared_state) (slice : List Nat) (bits : List Bool)
    (mn : List (Nat × (Nat × Nat)))
    (hc : consistent G k s) (hvalid : validTargets G)
    (hnodes : ∀ n ∈ slice, n < G.numNodes) :
    ∃ s_mid : shared_state,
      apply_relaxed_moves G k ub s (gain_recalculation G k ub s slice bits mn).kept
        = some s_mid
      ∧ (gain_recalculation G k ub s slice bits mn).s = s_mid
      ∧ consistent G k s_mid
      ∧ (∃ rest, (gain_recalculation G k ub s slice bits mn).kept ++ rest
          = (gain_recalculation G k ub s slice bits mn).moves)
      ∧ (gain_recalculation G k ub s slice bits mn).best_total_gain
          = (gains_along G k ub s
              (gain_recalculation G k ub s slice bits mn).kept).sum
      ∧ ∀ i ≤ (gain_recalculation G k ub s slice bits mn).moves.length,
          ((gains_along G k ub s
            (gain_recalculation G k ub s slice bits mn).moves).take i).sum
            ≤ (gain_recalculation G k ub s slice bits mn).best_total_gain := by
  obtain ⟨hc', happ, hmv, hnum, htot, hilt, hige, hbest, hmax⟩ :=
    gr_fold_preserves_inv G k ub s hvalid slice
      ⟨s, bits, 0, 0, -1, 0, []⟩ hnodes (gr_inv_init G k ub s bits hc)
  have hkept : (gain_recalculation G k ub s slice bits mn).kept
      = (slice.foldl (gain_recalculation_step G k ub)
          ⟨s, bits, 0, 0, -1, 0, []⟩).moves.take
        ((slice.foldl (gain_recalculation_step G k ub)
            ⟨s, bits, 0, 0, -1, 0, []⟩).best_gain_index + 1).toNat := rfl
  have hmoves : (gain_recalculation G k ub s slice bits mn).moves
      = (slice.foldl (gain_recalculation_step G k ub)
          ⟨s, bits, 0, 0, -1, 0, []⟩).moves := rfl
  have hbtg : (gain_recalculation G k ub s slice bits mn).best_total_gain
      = (slice.foldl (gain_recalculation_step G k ub)
          ⟨s, bits, 0, 0, -1, 0, []⟩).best_total_gain := rfl
  have hsfield : (gain_recalculation G k ub s slice bits mn).s
      = unroll_relaxed_moves G k
        (slice.foldl (gain_recalculation_step G k ub) ⟨s, bits, 0, 0, -1, 0, []⟩).s
        ((slice.foldl (gain_recalculation_step G k ub)
            ⟨s, bits, 0, 0, -1, 0, []⟩).moves.drop
          ((slice.foldl (gain_recalculation_step G k ub)
              ⟨s, bits, 0, 0, -1, 0, []⟩).best_gain_index + 1).toNat) := rfl
  have happ2 : apply_relaxed_moves G k ub s
      ((slice.foldl (gain_recalculation_step G k ub)
          ⟨s, bits, 0, 0, -1, 0, []⟩).moves.take
        ((slice.foldl (gain_recalculation_step G k ub)
            ⟨s, bits, 0, 0, -1, 0, []⟩).best_gain_index + 1).toNat
      ++ (slice.foldl (gain_recalculation_step G k ub)
          ⟨s, bits, 0, 0, -1, 0, []⟩).moves.drop
        ((slice.foldl (gain_recalculation_step G k ub)
            ⟨s, bits, 0, 0, -1, 0, []⟩).best_gain_index + 1).toNat)
      = some (slice.foldl (gain_recalculation_step G k ub)
          ⟨s, bits, 0, 0, -1, 0, []⟩).s := by
    rw [List.take_append_drop]
    exact happ
  rw [apply_relaxed_moves_append] at happ2
  cases hmid : apply_relaxed_moves G k ub s
      ((slice.foldl (gain_recalculation_step G k ub)
          ⟨s, bits, 0, 0, -1, 0, []⟩).moves.take
        ((slice.foldl (gain_recalculation_step G k ub)
            ⟨s, bits, 0, 0, -1, 0, []⟩).best_gain_index + 1).toNat) with
  | none =>
      rw [hmid] at happ2
      simp at happ2
  | some mid =>
      rw [hmid, Option.some_bind] at happ2
      obtain ⟨_, hcmid⟩ := apply_relaxed_moves_roundtrip G k ub
        ((slice.foldl (gain_recalculation_step G k ub)
            ⟨s, bits, 0, 0, -1, 0, []⟩).moves.take
          ((slice.foldl (gain_recalculation_step G k ub)
              ⟨s, bits, 0, 0, -1, 0, []⟩).best_gain_index + 1).toNat)
        s mid hc (fun mv h => hmv mv (List.mem_of_mem_take h)) hmid
      obtain ⟨hunroll, _⟩ := apply_relaxed_moves_roundtrip G k ub
        ((slice.foldl (gain_recalculation_step G k ub)
            ⟨s, bits, 0, 0, -1, 0, []⟩).moves.drop
          ((slice.foldl (gain_recalculation_step G k ub)
              ⟨s, bits, 0, 0, -1, 0, []⟩).best_gain_index + 1).toNat)
        mid (slice.foldl (gain_recalculation_step G k ub)
          ⟨s, bits, 0, 0, -1, 0, []⟩).s hcmid
        (fun mv h => hmv mv (List.mem_of_mem_drop h)) happ2
      refine ⟨mid, ?_, ?_, hcmid,
        ⟨(slice.foldl (gain_recalculation_step G k ub)
            ⟨s, bits, 0, 0, -1, 0, []⟩).moves.drop
          ((slice.foldl (gain_recalculation_step G k ub)
              ⟨s, bits, 0, 0, -1, 0, []⟩).best_gain_index + 1).toNat, ?_⟩,
        ?_, ?_⟩
      · rw [hkept]
        exact hmid
      · rw [hsfield]
        exact hunroll
      · rw [hkept, hmoves]
        exact List.take_append_drop _ _
      · rw [hbtg, hkept, gains_along_take]
        exact hbest
      · rw [hmoves, hbtg]
        exact hmax

/-- Witness: the recalculation walk on the four-node instance — the final
state is the apply of the kept prefix, and the best total gain `4` dominates
every prefix total. -/
theorem gain_recalculation_walk_witness :
    ∃ s_mid : shared_state,
      apply_relaxed_moves g5c 2 10 s5c
        (gain_recalculation g5c 2 10 s5c [0, 1] [false, false] []).kept
        = some s_mid
      ∧ (gain_recalculation g5c 2 10 s5c [0, 1] [false, false] []).s = s_mid
      ∧ consistent g5c 2 s_mid
      ∧ (∃ rest,
          (gain_recalculation g5c 2 10 s5c [0, 1] [false, false] []).kept ++ rest
          = (gain_recalculation g5c 2 10 s5c [0, 1] [false, false] []).moves)
      ∧ (gain_recalculation g5c 2 10 s5c [0, 1] [false, false] []).best_total_gain
          = (gains_along g5c 2 10 s5c
              (gain_recalculation g5c 2 10 s5c [0, 1] [false, false] []).kept).sum
      ∧ ∀ i ≤ (gain_recalculation g5c 2 10 s5c
            [0, 1] [false, false] []).moves.length,
          ((gains_along g5c 2 10 s5c
            (gain_recalculation g5c 2 10 s5c
              [0, 1] [false, false] []).moves).take i).sum
            ≤ (gain_recalculation g5c 2 10 s5c
                [0, 1] [false, false] []).best_total_gain :=
  gain_recalculation_walk g5c 2 10 s5c [0, 1] [false, false] []
    (by unfold consistent; decide) (by unfold validTargets; decide) (by decide)

/-- Counterexample to the original C5: the handler keeps (commits) the move
of node `0` although its recomputed gain is `-1`, i.e. not positive — the
kept prefix is both accepted moves, the recomputed gains along it are
`[-1, 5]`, and node `0` really changed block in the final shared state. -/
theorem gain_recalculation_nonpositive_counterexample :
    (gain_recalculation g5c 2 10 s5c [0, 1] [false, false] []).kept
      = [(0, 0, 1), (1, 0, 1)]
    ∧ gains_along g5c 2 10 s5c
        (gain_recalculation g5c 2 10 s5c [0, 1] [false, false] []).kept
      = [-1, 5]
    ∧ (gain_recalculation g5c 2 10 s5c [0, 1] [false, false] []).s.partitionIndex
      = [1, 1, 0, 1]
    ∧ s5c.partitionIndex = [0, 0, 0, 1] :=
  ⟨by decide, by decide, by decide, by decide⟩
